import Mathlib

/-!
A verification development for the `skipidy` skip-list library.

The model is a shallow embedding of `src/lib.rs`.  Heap nodes live in a list
indexed by address (allocation appends, deallocation leaks the node, which is
unobservable through the API).  Every access to a node's `nexts` array is
bounds checked: operations return `Option`, and `none` models the
out-of-bounds panic of the Rust indexing (or divergence when a loop runs out
of fuel, which never happens in invariant states).  The random generator is a
stream of 64-bit words together with a cursor.
-/

set_option linter.unusedSectionVars false

namespace Skipidy

open List

/-- A skip-list node: a payload together with the forward links, one slot per
level.  Links are heap addresses. Mirrors `SkipNode` in `src/lib.rs`. -/
structure SkipNode (α : Type) where
  val : α
  nexts : List (Option Nat)
  deriving Repr, DecidableEq

/-- The random source: a stream of words and the position of the next draw.
Each draw yields one 64-bit word, mirroring `rng.random::<u64>()`. -/
structure Rng where
  stream : Nat → Nat
  idx : Nat

/-- Draw a 64-bit word and advance the generator. -/
def Rng.draw (r : Rng) : Nat × Rng := (r.stream r.idx % 2 ^ 64, ⟨r.stream, r.idx + 1⟩)

/-- The heap: nodes indexed by address. -/
abbrev Heap (α : Type) := List (SkipNode α)

/-- The non-empty skip list, mirroring `NonEmptySkipList` in `src/lib.rs`:
a random source, the address of the head node, and the live level count. -/
structure Storage (α : Type) where
  rng : Rng
  head : Nat
  levels : Nat
  heap : Heap α

section Ops

variable {α κ : Type} [Inhabited α] [LinearOrder κ]

/-- Read the node stored at an address (addresses are always valid in
invariant states; the default is never consulted there). -/
def nodeAt (h : Heap α) (a : Nat) : SkipNode α := h.getD a ⟨default, []⟩

/-- The level-`i` forward link of the node at `a` (total read, used by the
specification-side chain description). -/
def nxt (h : Heap α) (a i : Nat) : Option Nat := (nodeAt h a).nexts.getD i none

/-- The key stored at address `a`, through the key projection `kf`
(for the SET `kf` is the identity; for the MAP it is the entry's key). -/
def vk (kf : α → κ) (h : Heap α) (a : Nat) : κ := kf (nodeAt h a).val

/-- Checked write of `nexts[i]`: fails exactly when `i` is out of bounds,
mirroring the panicking index-assignment in Rust. -/
def setNext (n : SkipNode α) (i : Nat) (p : Option Nat) : Option (SkipNode α) :=
  if i < n.nexts.length then some ⟨n.val, n.nexts.set i p⟩ else none

/-- The inner `while` of `NonEmptySkipList::descend`: starting from `a`,
advance along level-`i` links while the next node's key is `< x`.  Reads of
`nexts[i]` are checked; `fuel` bounds the walk (exhaustion models
divergence and never occurs in invariant states). -/
def walk (kf : α → κ) (h : Heap α) (x : κ) (i : Nat) : Nat → Nat → Option Nat
  | 0, _ => none
  | fuel + 1, a =>
    match (nodeAt h a).nexts[i]? with
    | none => none
    | some none => some a
    | some (some b) => if vk kf h b < x then walk kf h x i fuel b else some a

/-- `NonEmptySkipList::descend`: produce the predecessor trace.  The result
list is indexed by level: entry `i` is the rightmost node whose key is `< x`
at level `i`.  `level` is the topmost level to visit (`levels - 1`). -/
def descendT (kf : α → κ) (h : Heap α) (x : κ) (fuel : Nat) :
    Nat → Nat → Option (List Nat)
  | a, 0 => (walk kf h x 0 fuel a).map ([·])
  | a, level + 1 => do
    let a' ← walk kf h x (level + 1) fuel a
    let t ← descendT kf h x fuel a' level
    pure (t ++ [a'])

/-- `NonEmptySkipList::contains` (`src/lib.rs` lines 299-323). -/
def containsS (kf : α → κ) (s : Storage α) (x : κ) : Option Bool :=
  let hv := vk kf s.heap s.head
  if hv > x then some false
  else if hv = x then some true
  else do
    let t ← descendT kf s.heap x (s.heap.length + 1) s.head (s.levels - 1)
    match (nodeAt s.heap (t.getD 0 s.head)).nexts[0]? with
    | none => none
    | some none => some false
    | some (some c) => some (decide (vk kf s.heap c = x))

/-- The head-replacement branch of `NonEmptySkipList::insert`
(`src/lib.rs` lines 174-184): move the old head's links at levels
`1..levels` into the new head node. -/
def moveLinks (oldh newh : SkipNode α) : Nat → Nat → Option (SkipNode α × SkipNode α)
  | _, 0 => some (oldh, newh)
  | level, cnt + 1 => do
    let x ← oldh.nexts[level]?
    let oldh' ← setNext oldh level none
    let newh' ← setNext newh level x
    moveLinks oldh' newh' (level + 1) cnt

/-- Insert a value below (or equal to) the current head: the new node
becomes the head, takes the old head as its level-0 successor and inherits
all higher-level links.  No random word is drawn on this path. -/
def insertHead (N : Nat) (s : Storage α) (v : α) : Option (Storage α) := do
  let nh0 : SkipNode α := ⟨v, List.replicate N none⟩
  let nh1 ← setNext nh0 0 (some s.head)
  let (oldh, nh2) ← moveLinks (nodeAt s.heap s.head) nh1 1 (s.levels - 1)
  pure { s with head := s.heap.length, heap := (s.heap.set s.head oldh) ++ [nh2] }

/-- The per-level splicing loop of `NonEmptySkipList::insert`: starting at
level 1, stop at the first zero bit of the random word `r` or at `bound`
(`min (levels+1) N`, fixed before the loop); on a growth step the current
head serves as predecessor and `levels` increases by one. -/
def insLoop (kf : α → κ) (r : Nat) (t : List Nat) (hd c bound : Nat) :
    Nat → Nat → Heap α × Nat → Option (Heap α × Nat)
  | 0, _, st => some st
  | fuel + 1, level, (h, lv) =>
    if bound ≤ level then some (h, lv)
    else if ¬ r.testBit level then some (h, lv)
    else do
      let pa := if lv ≤ level then hd else t.getD level 0
      let lv' := if lv ≤ level then lv + 1 else lv
      let pl ← (nodeAt h pa).nexts[level]?
      let cn' ← setNext (nodeAt h c) level pl
      let h1 := h.set c cn'
      let pn' ← setNext (nodeAt h1 pa) level (some c)
      insLoop kf r t hd c bound fuel (level + 1) (h1.set pa pn', lv')

/-- The descend-and-splice branch of `NonEmptySkipList::insert`
(`src/lib.rs` lines 185-227), given the predecessor trace `t`:
allocate the node, link it at level 0, draw one random word and run the
level loop. -/
def insertAt (kf : α → κ) (N : Nat) (s : Storage α) (v : α) (t : List Nat) :
    Option (Storage α) := do
  let c := s.heap.length
  let p0 := t.getD 0 s.head
  let p0next ← (nodeAt s.heap p0).nexts[0]?
  let cn1 ← setNext ⟨v, List.replicate N none⟩ 0 p0next
  let p0n ← setNext (nodeAt s.heap p0) 0 (some c)
  let h1 := (s.heap.set p0 p0n) ++ [cn1]
  let (r, rng') := s.rng.draw
  let (h2, lv2) ← insLoop kf r t s.head c (min (s.levels + 1) N) N 1 (h1, s.levels)
  pure { rng := rng', head := s.head, levels := lv2, heap := h2 }

/-- `NonEmptySkipList::insert` (`src/lib.rs` lines 170-228). -/
def insertS (kf : α → κ) (N : Nat) (s : Storage α) (v : α) : Option (Storage α) :=
  if vk kf s.heap s.head ≥ kf v then insertHead N s v
  else do
    let t ← descendT kf s.heap (kf v) (s.heap.length + 1) s.head (s.levels - 1)
    insertAt kf N s v t

/-- The three-valued removal outcome of `src/lib.rs`. -/
inductive Removal (α : Type) where
  | nothing
  | one (v : α)
  | last (v : α)
  deriving Repr, DecidableEq

/-- The head-inheritance loop of `NonEmptySkipList::remove` (Equal case):
scanning levels `levels-1` down to `1`, copy the old head's link into the
new head unless it already points at the new head or the new head has one. -/
def inheritLoop (hn : SkipNode α) (nh : Nat) : Heap α → Nat → Option (Heap α)
  | h, 0 => some h
  | h, level + 1 => do
    let ho ← hn.nexts[level + 1]?
    let h0 ← hn.nexts[0]?
    let cur ← (nodeAt h nh).nexts[level + 1]?
    if ho = h0 ∨ cur.isSome then some h
    else do
      let n' ← setNext (nodeAt h nh) (level + 1) ho
      inheritLoop hn nh (h.set nh n') level

/-- The unlink loop of `NonEmptySkipList::remove` (Less case): ascending
from level 0, while the traced predecessor still points at the victim `c`,
route its link around `c`. -/
def unlink (t : List Nat) (c : Nat) : Nat → Nat → Heap α → Option (Heap α)
  | 0, _, h => some h
  | fuel + 1, level, h => do
    let p := t.getD level 0
    let pl ← (nodeAt h p).nexts[level]?
    if pl ≠ some c then some h
    else do
      let cl ← (nodeAt h c).nexts[level]?
      let pn' ← setNext (nodeAt h p) level cl
      unlink t c fuel (level + 1) (h.set p pn')

/-- The level-shrinking loop run after a successful removal: while
`levels > 1` and the head has no link at the top live level, decrement. -/
def shrink (h : Heap α) (hd : Nat) : Nat → Nat → Option Nat
  | 0, lv => some lv
  | fuel + 1, lv =>
    if lv ≤ 1 then some lv
    else do
      let ln ← (nodeAt h hd).nexts[lv - 1]?
      match ln with
      | none => shrink h hd fuel (lv - 1)
      | some _ => some lv

/-- `NonEmptySkipList::remove` (`src/lib.rs` lines 230-297). -/
def removeS (kf : α → κ) (N : Nat) (s : Storage α) (x : κ) :
    Option (Removal α × Storage α) :=
  let hv := vk kf s.heap s.head
  if hv > x then some (.nothing, s)
  else if hv = x then
    match (nodeAt s.heap s.head).nexts[0]? with
    | none => none
    | some none => some (.last (nodeAt s.heap s.head).val, s)
    | some (some nh) => do
      let hn := nodeAt s.heap s.head
      let h1 ← inheritLoop hn nh s.heap (s.levels - 1)
      let lv ← shrink h1 nh s.levels s.levels
      pure (.one hn.val, { s with head := nh, heap := h1, levels := lv })
  else do
    let t ← descendT kf s.heap x (s.heap.length + 1) s.head (s.levels - 1)
    match (nodeAt s.heap (t.getD 0 s.head)).nexts[0]? with
    | none => none
    | some none => some (.nothing, s)
    | some (some c) =>
      if vk kf s.heap c ≠ x then some (.nothing, s)
      else do
        let h1 ← unlink t c (min s.levels N) 0 s.heap
        let lv ← shrink h1 s.head s.levels s.levels
        pure (.one (nodeAt s.heap c).val, { s with heap := h1, levels := lv })

/-- The level-0 deallocation walk of `impl Drop for SkipList`
(`src/lib.rs` lines 31-52); deallocation itself is a no-op in the model, the
walk performs exactly the checked `nexts[0]` reads of the source. -/
def dropWalk (h : Heap α) : Nat → Nat → Option Unit
  | 0, _ => none
  | fuel + 1, a =>
    match (nodeAt h a).nexts[0]? with
    | none => none
    | some none => some ()
    | some (some b) => dropWalk h fuel b

/-- Modelled from the spec: the MAP is backed by `NonEmptyStorage`, whose
code is not under `src/`; this is the lookup of spec §4.2.2: short-circuit on
the head comparison, otherwise descend and examine the level-0 successor of
the recorded predecessor, returning it exactly when its key compares equal. -/
def getS (kf : α → κ) (s : Storage α) (x : κ) : Option (Option α) :=
  if vk kf s.heap s.head > x then some none
  else if vk kf s.heap s.head = x then some (some (nodeAt s.heap s.head).val)
  else do
    let t ← descendT kf s.heap x (s.heap.length + 1) s.head (s.levels - 1)
    match (nodeAt s.heap (t.getD 0 s.head)).nexts[0]? with
    | none => none
    | some none => some none
    | some (some c) =>
      if vk kf s.heap c = x then some (some (nodeAt s.heap c).val)
      else some none

/-- Modelled from the spec: the upsert of spec §4.2.4, used by the MAP.
`head.value > x`: head-insert as in §4.2.3 and return none; `head.value == x`:
swap the value into the head's slot and return the displaced value;
`head.value < x`: descend, swap into the level-0 successor of the recorded
predecessor when its key compares equal, otherwise splice as in §4.2.3. -/
def upsertS (kf : α → κ) (N : Nat) (s : Storage α) (v : α) :
    Option (Option α × Storage α) :=
  if vk kf s.heap s.head > kf v then
    (insertHead N s v).map fun s' => (none, s')
  else if vk kf s.heap s.head = kf v then
    some (some (nodeAt s.heap s.head).val,
      { s with heap := s.heap.set s.head ⟨v, (nodeAt s.heap s.head).nexts⟩ })
  else do
    let t ← descendT kf s.heap (kf v) (s.heap.length + 1) s.head (s.levels - 1)
    match (nodeAt s.heap (t.getD 0 s.head)).nexts[0]? with
    | none => none
    | some none => (insertAt kf N s v t).map fun s' => (none, s')
    | some (some c) =>
      if vk kf s.heap c = kf v then
        some (some (nodeAt s.heap c).val,
          { s with heap := s.heap.set c ⟨v, (nodeAt s.heap c).nexts⟩ })
      else (insertAt kf N s v t).map fun s' => (none, s')

/-- A fresh one-node storage, mirroring `NonEmptySkipList::new` (the random
state, seeded from the OS in the source, is a parameter here). -/
def mkNew (N : Nat) (r : Rng) (v : α) : Storage α :=
  ⟨r, 0, 1, [⟨v, List.replicate N none⟩]⟩

end Ops

/-- The SET facade: an optional storage, mirroring `SkipList` in `src/lib.rs`. -/
def SkipListM (α : Type) : Type := Option (Storage α)

section Facade

variable {α κ : Type} [Inhabited α] [LinearOrder κ]

/-- `SkipList::contains` (`src/lib.rs` lines 136-145). -/
def slContains (kf : α → κ) (s : SkipListM α) (x : κ) : Option Bool :=
  match s with
  | none => some false
  | some st => containsS kf st x

/-- `SkipList::insert` (`src/lib.rs` lines 104-114); `r` seeds the storage
created on the empty path. -/
def slInsert (kf : α → κ) (N : Nat) (r : Rng) (s : SkipListM α) (v : α) :
    Option (SkipListM α) :=
  match s with
  | none => some (some (mkNew N r v))
  | some st => (insertS kf N st v).map some

/-- `SkipList::remove` (`src/lib.rs` lines 117-133). -/
def slRemove (kf : α → κ) (N : Nat) (s : SkipListM α) (x : κ) :
    Option (Option α × SkipListM α) :=
  match s with
  | none => some (none, none)
  | some st =>
    (removeS kf N st x).map fun p =>
      match p with
      | (.nothing, st') => (none, some st')
      | (.one v, st') => (some v, some st')
      | (.last v, _) => (some v, none)

/-- The level-0 walk of `Drop for SkipList` on a facade value. -/
def slDrop (s : SkipListM α) : Option Unit :=
  match s with
  | none => some ()
  | some st => dropWalk st.heap (st.heap.length + 1) st.head

/-- The MAP facade state: `SkipMap` in `src/skipmap.rs` wraps an optional
storage over entries; an entry is a key-value pair whose `Ord` compares the
key only, so the key projection is `Prod.fst`. -/
def SkipMapM (K V : Type) : Type := Option (Storage (K × V))

/-- `SkipMap::insert` (`src/skipmap.rs` lines 75-84): on the empty map create
a one-entry storage, otherwise upsert; the returned option is the value
previously stored at the key, if any. -/
def smInsert {K V : Type} [LinearOrder K] [Inhabited K] [Inhabited V]
    (N : Nat) (r : Rng) (s : SkipMapM K V) (k : K) (v : V) :
    Option (Option V × SkipMapM K V) :=
  match s with
  | none => some (none, some (mkNew N r (k, v)))
  | some st => (upsertS Prod.fst N st (k, v)).map fun p =>
      (p.1.map Prod.snd, some p.2)

/-- `SkipMap::get` (`src/skipmap.rs` lines 63-72). -/
def smGet {K V : Type} [LinearOrder K] [Inhabited K] [Inhabited V]
    (s : SkipMapM K V) (k : K) : Option (Option V) :=
  match s with
  | none => some none
  | some st => (getS Prod.fst st k).map fun o => o.map Prod.snd

end Facade

section Exec

variable {κ : Type} [Inhabited κ] [LinearOrder κ]

/-- One SET operation: an insert (with the random state that would seed a
fresh storage) or a remove. -/
inductive Op (κ : Type) where
  | ins (r : Rng) (v : κ)
  | rem (x : κ)

/-- Execute one SET operation. -/
def step (N : Nat) (s : SkipListM κ) : Op κ → Option (SkipListM κ)
  | .ins r v => slInsert id N r s v
  | .rem x => (slRemove id N s x).map Prod.snd

/-- Execute a sequence of SET operations from a given state. -/
def execFrom (N : Nat) (s : SkipListM κ) : List (Op κ) → Option (SkipListM κ)
  | [] => some s
  | op :: rest => (step N s op).bind fun s1 => execFrom N s1 rest

/-- Execute a sequence of SET operations from the empty skip list. -/
def execOps (N : Nat) (ops : List (Op κ)) : Option (SkipListM κ) :=
  execFrom N none ops

/-- The reference multiset: inserts add one occurrence, removes erase one. -/
def modelFrom (m : Multiset κ) : List (Op κ) → Multiset κ
  | [] => m
  | .ins _ v :: rest => modelFrom (v ::ₘ m) rest
  | .rem x :: rest => modelFrom (m.erase x) rest

/-- The reference multiset of a whole operation sequence. -/
def opsModel (ops : List (Op κ)) : Multiset κ := modelFrom 0 ops

end Exec

section Chains

variable {α κ : Type} [Inhabited α]

/-- The fueled chain of addresses reached from `a` by level-`i` links. -/
def chainF (h : Heap α) (i : Nat) : Nat → Option Nat → List Nat
  | _, none => []
  | 0, some _ => []
  | fuel + 1, some a => a :: chainF h i fuel (nxt h a i)

/-- The level-`i` chain of a storage, from the head, with ample fuel. -/
def chains (s : Storage α) (i : Nat) : List Nat :=
  chainF s.heap i (s.heap.length + 1) (some s.head)

/-- The stored values along level 0, in chain order. -/
def vals (s : Storage α) : List α := (chains s 0).map fun a => (nodeAt s.heap a).val

/-- The keys along level 0, in chain order. -/
def keysL (kf : α → κ) (s : Storage α) : List κ := (chains s 0).map (vk kf s.heap)

/-- The keys of a facade state, as a multiset. -/
def keysOf (kf : α → κ) [DecidableEq κ] (s : SkipListM α) : Multiset κ :=
  match s with
  | none => 0
  | some st => (keysL kf st : List κ)

end Chains

/-! ### Heap access lemmas -/

section Basics

variable {α κ : Type} [Inhabited α] [LinearOrder κ]

theorem nodeAt_eq_getElem {h : Heap α} {a : Nat} (ha : a < h.length) :
    nodeAt h a = h[a] := by
  simp [nodeAt, List.getElem?_eq_getElem ha]

theorem nodeAt_mem {h : Heap α} {a : Nat} (ha : a < h.length) : nodeAt h a ∈ h := by
  rw [nodeAt_eq_getElem ha]; exact List.getElem_mem ha

theorem nodeAt_set_self {h : Heap α} {a : Nat} (ha : a < h.length) (n : SkipNode α) :
    nodeAt (h.set a n) a = n := by
  simp [nodeAt, List.getElem?_set_self (by simpa using ha)]

theorem nodeAt_set_ne {h : Heap α} {a b : Nat} (hne : b ≠ a) (n : SkipNode α) :
    nodeAt (h.set a n) b = nodeAt h b := by
  simp [nodeAt, List.getElem?_set_ne (Ne.symm hne)]

theorem nodeAt_append {h l : Heap α} {a : Nat} (ha : a < h.length) :
    nodeAt (h ++ l) a = nodeAt h a := by
  simp [nodeAt, List.getElem?_append_left ha]

theorem nodeAt_append_self {h : Heap α} (n : SkipNode α) :
    nodeAt (h ++ [n]) h.length = n := by
  simp [nodeAt, List.getElem?_append_right (Nat.le_refl _)]

theorem nodeAt_append_len {h : Heap α} {a : Nat} (ha : a = h.length)
    (n : SkipNode α) : nodeAt (h ++ [n]) a = n := by
  subst ha
  exact nodeAt_append_self n

theorem getD_set_self {l : List (Option Nat)} {i : Nat} (hi : i < l.length)
    (p : Option Nat) : (l.set i p).getD i none = p := by
  simp [List.getElem?_set_self (by simpa using hi)]

theorem getD_set_ne {l : List (Option Nat)} {i j : Nat} (hne : j ≠ i)
    (p : Option Nat) : (l.set i p).getD j none = l.getD j none := by
  simp [List.getElem?_set_ne (Ne.symm hne)]

theorem setNext_eq_some {n : SkipNode α} {i : Nat} (hi : i < n.nexts.length)
    (p : Option Nat) : setNext n i p = some ⟨n.val, n.nexts.set i p⟩ := by
  simp [setNext, hi]

theorem setNext_spec {n n' : SkipNode α} {i : Nat} {p : Option Nat}
    (h : setNext n i p = some n') :
    n'.val = n.val ∧ n'.nexts = n.nexts.set i p ∧ i < n.nexts.length := by
  by_cases hi : i < n.nexts.length
  · rw [setNext_eq_some hi] at h
    cases h
    exact ⟨rfl, rfl, hi⟩
  · simp [setNext, hi] at h

theorem getElem?_eq_getD {l : List (Option Nat)} {i : Nat} (hi : i < l.length) :
    l[i]? = some (l.getD i none) := by
  simp [List.getElem?_eq_getElem hi]

/-- Heap well-formedness: every valid address holds a node whose `nexts` has
length `N` and whose links all point inside the heap. -/
def HeapWF (N : Nat) (h : Heap α) : Prop :=
  ∀ a, a < h.length → (nodeAt h a).nexts.length = N ∧
    ∀ j b, nxt h a j = some b → b < h.length

theorem HeapWF.nexts_length {N : Nat} {h : Heap α} (hw : HeapWF N h) {a : Nat}
    (ha : a < h.length) : (nodeAt h a).nexts.length = N :=
  (hw a ha).1

theorem HeapWF.nxt_lt {N : Nat} {h : Heap α} (hw : HeapWF N h) {a i b : Nat}
    (ha : a < h.length) (hx : nxt h a i = some b) : b < h.length :=
  (hw a ha).2 i b hx

theorem HeapWF.nxt_eq_none {N : Nat} {h : Heap α} (hw : HeapWF N h) {a i : Nat}
    (ha : a < h.length) (hi : N ≤ i) : nxt h a i = none := by
  unfold nxt
  exact List.getD_eq_default _ _ (by rw [hw.nexts_length ha]; exact hi)

end Basics

/-! ### Chains as propositions -/

section ChainProp

variable {α κ : Type} [Inhabited α] [LinearOrder κ]

/-- `IsChain h i hd l`: `l` is the complete level-`i` chain starting at `hd`:
it starts at `hd`, consecutive entries are linked, and the last entry has no
level-`i` link. -/
def IsChain (h : Heap α) (i : Nat) (hd : Nat) (l : List Nat) : Prop :=
  l.head? = some hd ∧ List.Chain' (fun a b => nxt h a i = some b) l ∧
    ∀ a, l.getLast? = some a → nxt h a i = none

theorem IsChain.ne_nil {h : Heap α} {i hd : Nat} {l : List Nat}
    (hc : IsChain h i hd l) : l ≠ [] := by
  intro he
  rw [he] at hc
  exact Option.noConfusion hc.1

theorem IsChain.eq_cons {h : Heap α} {i hd : Nat} {l : List Nat}
    (hc : IsChain h i hd l) : ∃ t, l = hd :: t := by
  cases l with
  | nil => exact absurd rfl hc.ne_nil
  | cons a t => exact ⟨t, by rw [show a = hd by simpa using hc.1]⟩

theorem IsChain.head_mem {h : Heap α} {i hd : Nat} {l : List Nat}
    (hc : IsChain h i hd l) : hd ∈ l := by
  obtain ⟨t, rfl⟩ := hc.eq_cons
  exact List.mem_cons_self hd t

theorem isChain_singleton {h : Heap α} {i hd : Nat} (hn : nxt h hd i = none) :
    IsChain h i hd [hd] :=
  ⟨rfl, List.chain'_singleton hd, fun a ha => by
    simp only [List.getLast?_singleton, Option.some_inj] at ha
    exact ha ▸ hn⟩

theorem isChain_cons {h : Heap α} {i hd b : Nat} {t : List Nat}
    (hx : nxt h hd i = some b) (hc : IsChain h i b (b :: t)) :
    IsChain h i hd (hd :: b :: t) := by
  refine ⟨rfl, List.chain'_cons.2 ⟨hx, hc.2.1⟩, fun a ha => hc.2.2 a ?_⟩
  simpa using ha

theorem IsChain.tail {h : Heap α} {i hd b : Nat} {t : List Nat}
    (hc : IsChain h i hd (hd :: b :: t)) :
    nxt h hd i = some b ∧ IsChain h i b (b :: t) := by
  obtain ⟨h1, h2, h3⟩ := hc
  rw [List.chain'_cons] at h2
  exact ⟨h2.1, rfl, h2.2, fun a ha => h3 a (by simpa using ha)⟩

theorem IsChain.last_nxt {h : Heap α} {i hd : Nat} {l : List Nat}
    (hc : IsChain h i hd l) {a : Nat} (ha : l.getLast? = some a) :
    nxt h a i = none := hc.2.2 a ha

/-- A chain is determined by its start. -/
theorem IsChain.unique {h : Heap α} {i hd : Nat} {l l' : List Nat}
    (hc : IsChain h i hd l) (hc' : IsChain h i hd l') : l = l' := by
  induction l generalizing hd l' with
  | nil => exact absurd rfl hc.ne_nil
  | cons a t ih =>
    obtain ⟨t0, he⟩ := hc.eq_cons
    cases he
    obtain ⟨t', rfl⟩ := hc'.eq_cons
    cases t with
    | nil =>
      cases t' with
      | nil => rfl
      | cons b u =>
        have hx := (hc'.tail).1
        have hn := hc.last_nxt (show [a].getLast? = some a by simp)
        rw [hn] at hx
        cases hx
    | cons b u =>
      cases t' with
      | nil =>
        have hx := (hc.tail).1
        have hn := hc'.last_nxt (show [a].getLast? = some a by simp)
        rw [hn] at hx
        cases hx
      | cons b' u' =>
        have h1 := hc.tail
        have h2 := hc'.tail
        have hb : b = b' := by
          have := h1.1.symm.trans h2.1
          simpa using this
        cases hb
        rw [ih h1.2 h2.2]

/-- A chain only depends on the level-`i` successor map on its members. -/
theorem IsChain.congr {h h' : Heap α} {i hd : Nat} {l : List Nat}
    (hc : IsChain h i hd l) (he : ∀ a ∈ l, nxt h' a i = nxt h a i) :
    IsChain h' i hd l := by
  induction l generalizing hd with
  | nil => exact absurd rfl hc.ne_nil
  | cons a t ih =>
    obtain ⟨t0, hcons⟩ := hc.eq_cons
    cases hcons
    cases t with
    | nil =>
      exact isChain_singleton
        ((he a (List.mem_cons_self ..)).trans
          (hc.last_nxt (show [a].getLast? = some a by simp)))
    | cons b u =>
      obtain ⟨hx, hrest⟩ := hc.tail
      exact isChain_cons ((he a (List.mem_cons_self ..)).trans hx)
        (ih hrest fun a' ha' => he a' (List.mem_cons_of_mem _ ha'))

/-- A suffix of a chain, starting at a member, is itself a chain. -/
theorem IsChain.suffix {h : Heap α} {i : Nat} {u : List Nat} :
    ∀ {hd a : Nat} {v : List Nat},
      IsChain h i hd (u ++ a :: v) → IsChain h i a (a :: v) := by
  induction u with
  | nil =>
    intro hd a v hc
    obtain ⟨t, he⟩ := hc.eq_cons
    rw [List.nil_append] at he
    cases he
    exact hc
  | cons b u ih =>
    intro hd a v hc
    have hc2 : IsChain h i hd (hd :: (u ++ a :: v)) := by
      obtain ⟨t, he⟩ := hc.eq_cons
      rw [List.cons_append] at he
      cases he
      exact hc
    obtain ⟨c, w, hw⟩ := List.exists_cons_of_ne_nil
      (show u ++ a :: v ≠ [] by simp)
    rw [hw] at hc2
    have h3 := hc2.tail.2
    rw [← hw] at h3
    exact ih h3

/-- Every member of a chain in a well-formed heap is a valid address. -/
theorem IsChain.addr_lt {N : Nat} {h : Heap α} {i hd : Nat} {l : List Nat}
    (hc : IsChain h i hd l) (hw : HeapWF N h) (hhd : hd < h.length) :
    ∀ a ∈ l, a < h.length := by
  induction l generalizing hd with
  | nil => exact fun a ha => absurd ha (List.not_mem_nil a)
  | cons a t ih =>
    obtain ⟨t0, he⟩ := hc.eq_cons
    cases he
    intro b hb
    rcases List.mem_cons.1 hb with rfl | hb
    · exact hhd
    · cases t with
      | nil => cases hb
      | cons b' u =>
        obtain ⟨hx, hrest⟩ := hc.tail
        exact ih hrest (hw.nxt_lt hhd hx) b hb

/-- The fueled chain computation reproduces a chain proposition. -/
theorem chainF_eq_of_isChain {h : Heap α} {i hd : Nat} {l : List Nat}
    (hc : IsChain h i hd l) {fuel : Nat} (hf : l.length ≤ fuel) :
    chainF h i fuel (some hd) = l := by
  induction l generalizing hd fuel with
  | nil => exact absurd rfl hc.ne_nil
  | cons a t ih =>
    obtain ⟨t0, he⟩ := hc.eq_cons
    cases he
    cases fuel with
    | zero => exact absurd hf (by simp)
    | succ f =>
      cases t with
      | nil =>
        have hn := hc.last_nxt (show [a].getLast? = some a by simp)
        simp [chainF, hn]
      | cons b u =>
        obtain ⟨hx, hrest⟩ := hc.tail
        rw [chainF, hx, ih hrest (by simpa using Nat.le_of_succ_le_succ hf)]

end ChainProp

/-! ### List helpers -/

section ListHelpers

theorem getLastD_eq_of_ne_nil {l : List Nat} (hl : l ≠ []) (d d' : Nat) :
    l.getLastD d = l.getLastD d' := by
  simp [List.getLast?_eq_getLast l hl]

theorem getLastD_mem {l : List Nat} (hl : l ≠ []) (d : Nat) : l.getLastD d ∈ l := by
  rw [List.getLastD_eq_getLast?, List.getLast?_eq_getLast l hl, Option.getD_some]
  exact List.getLast_mem hl

theorem getLast?_eq_getLastD {l : List Nat} (hl : l ≠ []) (d : Nat) :
    l.getLast? = some (l.getLastD d) := by
  rw [List.getLastD_eq_getLast?, List.getLast?_eq_getLast l hl]
  rfl

theorem getLastD_append_cons (u w : List Nat) (a d : Nat) :
    (u ++ a :: w).getLastD d = w.getLastD a := by
  rw [← List.getLastD_cons d a w]
  rw [List.getLastD_eq_getLast?, List.getLast?_append,
    List.getLast?_eq_getLast (a :: w) (by simp), List.getLastD_eq_getLast?,
    List.getLast?_eq_getLast (a :: w) (by simp)]
  rfl

theorem takeWhile_eq_filter {p : Nat → Bool} {l : List Nat}
    (hp : l.Pairwise (fun a b => p b = true → p a = true)) :
    l.takeWhile p = l.filter p := by
  induction l with
  | nil => rfl
  | cons a t ih =>
    rw [List.pairwise_cons] at hp
    by_cases hpa : p a = true
    · rw [List.takeWhile_cons_of_pos hpa, List.filter_cons_of_pos hpa, ih hp.2]
    · rw [List.takeWhile_cons_of_neg hpa, List.filter_cons_of_neg hpa]
      have : t.filter p = [] :=
        List.filter_eq_nil_iff.2 fun b hb hpb => hpa (hp.1 b hb hpb)
      rw [this]

theorem nodup_length_le {l : List Nat} (hn : l.Nodup) {n : Nat}
    (hb : ∀ a ∈ l, a < n) : l.length ≤ n := by
  classical
  have hsub : l.toFinset ⊆ Finset.range n := fun a ha =>
    Finset.mem_range.2 (hb a (List.mem_toFinset.1 ha))
  have := Finset.card_le_card hsub
  rwa [List.toFinset_card_of_nodup hn, Finset.card_range] at this

end ListHelpers

/-! ### Traversal correctness -/

section Traverse

variable {α κ : Type} [Inhabited α] [LinearOrder κ]

/-- The traversal predicate: the stored key is strictly below the probe. -/
def below (kf : α → κ) (h : Heap α) (x : κ) (a : Nat) : Bool :=
  decide (vk kf h a < x)

theorem walk_spec {kf : α → κ} {h : Heap α} {x : κ} {i a : Nat} {w : List Nat}
    (hc : IsChain h i a (a :: w))
    (hb : ∀ b ∈ a :: w, i < (nodeAt h b).nexts.length)
    {fuel : Nat} (hf : w.length < fuel) :
    walk kf h x i fuel a = some ((w.takeWhile (below kf h x)).getLastD a) := by
  induction w generalizing a fuel with
  | nil =>
    cases fuel with
    | zero => cases hf
    | succ f =>
      have hn : nxt h a i = none := hc.last_nxt (show [a].getLast? = some a by simp)
      have hsn : (nodeAt h a).nexts[i]? = some none := by
        rw [getElem?_eq_getD (hb a (by simp))]
        exact congrArg some hn
      rw [walk, hsn]
      rfl
  | cons b w' ih =>
    cases fuel with
    | zero => cases hf
    | succ f =>
      obtain ⟨hx, hrest⟩ := hc.tail
      have hsb : (nodeAt h a).nexts[i]? = some (some b) := by
        rw [getElem?_eq_getD (hb a (by simp))]
        exact congrArg some hx
      rw [walk, hsb]
      show (if vk kf h b < x then walk kf h x i f b else some a) = _
      by_cases hlt : vk kf h b < x
      · rw [if_pos hlt, ih hrest (fun b' hb' => hb b' (List.mem_cons_of_mem _ hb'))
          (by simpa using Nat.le_of_succ_le_succ hf)]
        have hpb : below kf h x b = true := by simp [below, hlt]
        rw [List.takeWhile_cons_of_pos hpb, List.getLastD_cons]
      · rw [if_neg hlt]
        have hpb : ¬ below kf h x b = true := by simp [below, hlt]
        rw [List.takeWhile_cons_of_neg hpb]
        rfl

/-- Key-sortedness of a chain, phrased on addresses. -/
def SortedKeys (kf : α → κ) (h : Heap α) (l : List Nat) : Prop :=
  l.Pairwise fun a b => vk kf h a ≤ vk kf h b

theorem SortedKeys.takeWhile_filter {kf : α → κ} {h : Heap α} {x : κ}
    {l : List Nat} (hs : SortedKeys kf h l) :
    l.takeWhile (below kf h x) = l.filter (below kf h x) :=
  takeWhile_eq_filter (hs.imp fun hab hpb => by
    simp only [below, decide_eq_true_eq] at hpb ⊢
    exact lt_of_le_of_lt hab hpb)

theorem SortedKeys.sublist {kf : α → κ} {h : Heap α} {l l' : List Nat}
    (hs : SortedKeys kf h l) (hsub : l' <+ l) : SortedKeys kf h l' :=
  List.Pairwise.sublist hsub hs

/-- The descend correctness: starting anywhere inside the filtered region of
the top chain, the trace records, at every level, the last node of that
level's filtered region. -/
theorem descendT_go {kf : α → κ} {h : Heap α} {x : κ} {N : Nat}
    (hw : HeapWF N h) {hd : Nat} (hhd : hd < h.length)
    (c : Nat → List Nat) {L : Nat} (hLN : L < N)
    (hch : ∀ j, j ≤ L → IsChain h j hd (c j))
    (hnest : ∀ j, j + 1 ≤ L → c (j + 1) <+ c j)
    (hsor : ∀ j, j ≤ L → SortedKeys kf h (c j))
    {fuel : Nat} (hfuel : ∀ j, j ≤ L → (c j).length ≤ fuel) :
    ∀ {a : Nat}, a ∈ (c L).filter (below kf h x) →
      ∃ T : List Nat, descendT kf h x fuel a L = some T ∧ T.length = L + 1 ∧
        ∀ j, j ≤ L → T.getD j 0 = ((c j).filter (below kf h x)).getLastD hd := by
  induction L with
  | zero =>
    intro a ha
    obtain ⟨ha0, hpa⟩ := List.mem_filter.1 ha
    obtain ⟨u, w, hsplit⟩ := List.append_of_mem ha0
    have hcs : IsChain h 0 a (a :: w) := (hsplit ▸ hch 0 (le_refl 0)).suffix
    have hmem0 : ∀ b ∈ c 0, b < h.length :=
      (hch 0 (le_refl 0)).addr_lt hw hhd
    have hbnd : ∀ b ∈ a :: w, 0 < (nodeAt h b).nexts.length := by
      intro b hbm
      have hbc : b ∈ c 0 := by
        rw [hsplit]
        rcases List.mem_cons.1 hbm with rfl | hbw
        · exact List.mem_append_right _ (List.mem_cons_self ..)
        · exact List.mem_append_right _ (List.mem_cons_of_mem _ hbw)
      rw [hw.nexts_length (hmem0 b hbc)]
      exact Nat.lt_of_lt_of_le (Nat.zero_lt_succ _) hLN
    have hflen : w.length < fuel := by
      have := hfuel 0 (le_refl 0)
      rw [hsplit] at this
      simp only [List.length_append, List.length_cons] at this
      omega
    rw [descendT, walk_spec hcs hbnd hflen]
    refine ⟨_, rfl, rfl, ?_⟩
    intro j hj
    interval_cases j
    have hsw : SortedKeys kf h w :=
      (hsor 0 (le_refl 0)).sublist
        (by rw [hsplit]
            exact ((List.sublist_cons_self a w).trans (List.sublist_append_right u _)))
    simp only [List.getD_eq_getElem?_getD, List.getElem?_cons_zero, Option.getD_some]
    rw [hsw.takeWhile_filter, hsplit, List.filter_append,
      List.filter_cons_of_pos hpa, getLastD_append_cons]
  | succ L ih =>
    intro a ha
    obtain ⟨haL, hpa⟩ := List.mem_filter.1 ha
    obtain ⟨u, w, hsplit⟩ := List.append_of_mem haL
    have hcs : IsChain h (L + 1) a (a :: w) := (hsplit ▸ hch _ (le_refl _)).suffix
    have hmemL : ∀ b ∈ c (L + 1), b < h.length :=
      (hch _ (le_refl _)).addr_lt hw hhd
    have hbnd : ∀ b ∈ a :: w, L + 1 < (nodeAt h b).nexts.length := by
      intro b hbm
      have hbc : b ∈ c (L + 1) := by
        rw [hsplit]
        rcases List.mem_cons.1 hbm with rfl | hbw
        · exact List.mem_append_right _ (List.mem_cons_self ..)
        · exact List.mem_append_right _ (List.mem_cons_of_mem _ hbw)
      rw [hw.nexts_length (hmemL b hbc)]
      exact hLN
    have hflen : w.length < fuel := by
      have := hfuel _ (le_refl _)
      rw [hsplit] at this
      simp only [List.length_append, List.length_cons] at this
      omega
    have hsw : SortedKeys kf h w :=
      (hsor _ (le_refl _)).sublist
        (by rw [hsplit]
            exact ((List.sublist_cons_self a w).trans (List.sublist_append_right u _)))
    -- the walk result at level L+1
    have hwalk : walk kf h x (L + 1) fuel a =
        some ((w.takeWhile (below kf h x)).getLastD a) :=
      walk_spec hcs hbnd hflen
    set b := (w.takeWhile (below kf h x)).getLastD a with hbdef
    -- b is the last filtered node at level L+1
    have hT : ((c (L + 1)).filter (below kf h x)).getLastD hd = b := by
      rw [hsplit, List.filter_append, List.filter_cons_of_pos hpa,
        getLastD_append_cons, hbdef, hsw.takeWhile_filter]
    -- b is a filtered member of level L+1, hence of level L
    have hbmem : b ∈ (c (L + 1)).filter (below kf h x) := by
      rw [hsplit, List.filter_append, List.filter_cons_of_pos hpa, hbdef,
        hsw.takeWhile_filter]
      refine List.mem_append_right _ ?_
      rcases hq : w.filter (below kf h x) with _ | ⟨q, qs⟩
      · simp
      · rw [← hq]
        have : (w.filter (below kf h x)).getLastD a ∈ w.filter (below kf h x) :=
          getLastD_mem (by rw [hq]; exact List.cons_ne_nil q qs) a
        exact List.mem_cons_of_mem _ this
    have hbmemL : b ∈ (c L).filter (below kf h x) :=
      List.Sublist.mem hbmem ((hnest L (le_refl _)).filter _)
    obtain ⟨T, hTeq, hTlen, hTspec⟩ :=
      ih (Nat.lt_of_succ_lt hLN)
        (fun j hj => hch j (Nat.le_succ_of_le hj))
        (fun j hj => hnest j (Nat.le_succ_of_le hj))
        (fun j hj => hsor j (Nat.le_succ_of_le hj))
        (fun j hj => hfuel j (Nat.le_succ_of_le hj)) hbmemL
    refine ⟨T ++ [b], ?_, by simp [hTlen], ?_⟩
    · rw [descendT, hwalk]
      simp only [Option.bind_eq_bind, Option.some_bind, hTeq, Option.some_bind]
      rfl
    · intro j hj
      rcases Nat.lt_or_ge j (L + 1) with hjL | hjL
      · rw [List.getD_eq_getElem?_getD,
          List.getElem?_append_left (by rw [hTlen]; exact hjL),
          ← List.getD_eq_getElem?_getD]
        exact hTspec j (Nat.le_of_lt_succ hjL)
      · have hj1 : j = L + 1 := Nat.le_antisymm hj hjL
        subst hj1
        rw [List.getD_eq_getElem?_getD,
          List.getElem?_append_right (by rw [hTlen]),
          hTlen]
        simp only [Nat.sub_self, List.getElem?_cons_zero, Option.getD_some]
        exact hT.symm

end Traverse

/-! ### The storage invariant -/

section Invariant

variable {α κ : Type} [Inhabited α] [LinearOrder κ]

/-- The per-level chain family of an invariant state and its properties:
each live level is a complete chain from the head; the level-0 chain has no
duplicate addresses and is sorted by key; higher levels are nested
subsequences; no reachable node links at or above `levels`; and a node links
at a live level only if it belongs to that level's chain. -/
structure ChainsOk (kf : α → κ) (s : Storage α) (c : Nat → List Nat) : Prop where
  isch : ∀ i, i < s.levels → IsChain s.heap i s.head (c i)
  nodup : (c 0).Nodup
  sorted : SortedKeys kf s.heap (c 0)
  nest : ∀ i, i + 1 < s.levels → c (i + 1) <+ c i
  high : ∀ a ∈ c 0, ∀ i, s.levels ≤ i → nxt s.heap a i = none
  tower : ∀ a ∈ c 0, ∀ i, i < s.levels → nxt s.heap a i ≠ none → a ∈ c i

/-- The full storage invariant of externally observable states. -/
structure Inv (kf : α → κ) (N : Nat) (s : Storage α) : Prop where
  one_le : 1 ≤ s.levels
  le_N : s.levels ≤ N
  head_lt : s.head < s.heap.length
  wf : HeapWF N s.heap
  chainsOk : ∃ c, ChainsOk kf s c

theorem ChainsOk.sub_zero {kf : α → κ} {s : Storage α} {c : Nat → List Nat}
    (hc : ChainsOk kf s c) : ∀ i, i < s.levels → c i <+ c 0 := by
  intro i
  induction i with
  | zero => exact fun _ => List.Sublist.refl _
  | succ j ih => exact fun hj => (hc.nest j hj).trans (ih (Nat.lt_of_succ_lt hj))

theorem ChainsOk.mem_zero {kf : α → κ} {s : Storage α} {c : Nat → List Nat}
    (hc : ChainsOk kf s c) {i a : Nat} (hi : i < s.levels) (ha : a ∈ c i) :
    a ∈ c 0 :=
  (hc.sub_zero i hi).mem ha

theorem ChainsOk.sorted_i {kf : α → κ} {s : Storage α} {c : Nat → List Nat}
    (hc : ChainsOk kf s c) {i : Nat} (hi : i < s.levels) :
    SortedKeys kf s.heap (c i) :=
  hc.sorted.sublist (hc.sub_zero i hi)

theorem ChainsOk.nodup_i {kf : α → κ} {s : Storage α} {c : Nat → List Nat}
    (hc : ChainsOk kf s c) {i : Nat} (hi : i < s.levels) : (c i).Nodup :=
  (hc.sub_zero i hi).nodup hc.nodup

theorem Inv.mem_lt {kf : α → κ} {N : Nat} {s : Storage α}
    (hinv : Inv kf N s) {c : Nat → List Nat} (hc : ChainsOk kf s c)
    {i : Nat} (hi : i < s.levels) : ∀ a ∈ c i, a < s.heap.length :=
  (hc.isch i hi).addr_lt hinv.wf hinv.head_lt

theorem Inv.length_le {kf : α → κ} {N : Nat} {s : Storage α}
    (hinv : Inv kf N s) {c : Nat → List Nat} (hc : ChainsOk kf s c)
    {i : Nat} (hi : i < s.levels) : (c i).length ≤ s.heap.length :=
  nodup_length_le (hc.nodup_i hi) (hinv.mem_lt hc hi)

/-- In an invariant state, the fueled chain computation agrees with the
chain family. -/
theorem Inv.chains_eq {kf : α → κ} {N : Nat} {s : Storage α}
    (hinv : Inv kf N s) {c : Nat → List Nat} (hc : ChainsOk kf s c)
    {i : Nat} (hi : i < s.levels) : chains s i = c i :=
  chainF_eq_of_isChain (hc.isch i hi)
    (Nat.le_succ_of_le (hinv.length_le hc hi))

theorem getD_default_irrel {l : List Nat} {n : Nat} (hn : n < l.length)
    (d d' : Nat) : l.getD n d = l.getD n d' := by
  simp [List.getElem?_eq_getElem hn]

/-- The successor of the last filtered node is the head of the unfiltered
remainder. -/
theorem IsChain.last_append {h : Heap α} {i hd : Nat} {A B : List Nat}
    (hc : IsChain h i hd (A ++ B)) {p : Nat} (hp : A.getLast? = some p) :
    nxt h p i = B.head? := by
  obtain ⟨-, hch, hlast⟩ := hc
  rw [List.chain'_append] at hch
  cases B with
  | nil =>
    refine hlast p ?_
    rw [List.append_nil, hp]
  | cons b B' =>
    exact hch.2.2 p (by rw [hp]; rfl) b rfl

end Invariant

/-! ### Lookup correctness -/

section Lookup

variable {α κ : Type} [Inhabited α] [LinearOrder κ]

theorem containsS_spec {kf : α → κ} {N : Nat} {s : Storage α}
    (hinv : Inv kf N s) (x : κ) :
    containsS kf s x = some (decide (x ∈ keysL kf s)) := by
  obtain ⟨c, hc⟩ := hinv.chainsOk
  have h0 : 0 < s.levels := hinv.one_le
  have hkeys : keysL kf s = (c 0).map (vk kf s.heap) := by
    rw [keysL, hinv.chains_eq hc h0]
  obtain ⟨t0, ht0⟩ := (hc.isch 0 h0).eq_cons
  by_cases hgt : vk kf s.heap s.head > x
  · rw [containsS, if_pos hgt]
    have : ¬ x ∈ keysL kf s := by
      rw [hkeys, ht0]
      intro hx
      simp only [List.map_cons, List.mem_cons, List.mem_map] at hx
      rcases hx with hx | ⟨a, ha, hax⟩
      · exact absurd hx.symm (ne_of_gt hgt)
      · have hs := hc.sorted
        rw [SortedKeys, ht0, List.pairwise_cons] at hs
        have := hs.1 a ha
        rw [hax] at this
        exact absurd (lt_of_lt_of_le hgt this) (lt_irrefl x)
    simp [this]
  · by_cases heq : vk kf s.heap s.head = x
    · rw [containsS, if_neg hgt, if_pos heq]
      have : x ∈ keysL kf s := by
        rw [hkeys, ht0, List.map_cons]
        exact heq ▸ List.mem_cons_self ..
      simp [this]
    · -- strictly below: descend
      have hlt : vk kf s.heap s.head < x :=
        lt_of_le_of_ne (not_lt.1 hgt) heq
      have hL : s.levels - 1 < N :=
        Nat.lt_of_lt_of_le (Nat.sub_lt hinv.one_le Nat.one_pos)
          (le_of_eq rfl) |>.trans_le hinv.le_N
      have hlev : ∀ j, j ≤ s.levels - 1 → j < s.levels := by
        intro j hj
        omega
      have hhead_mem : s.head ∈ (c (s.levels - 1)).filter (below kf s.heap x) := by
        obtain ⟨tL, htL⟩ := (hc.isch _ (hlev _ (le_refl _))).eq_cons
        rw [htL]
        refine List.mem_filter.2 ⟨List.mem_cons_self .., ?_⟩
        simp [below, hlt]
      obtain ⟨T, hT, hTlen, hTspec⟩ :=
        descendT_go (x := x) hinv.wf hinv.head_lt c hL
          (fun j hj => hc.isch j (hlev j hj))
          (fun j hj => hc.nest j (hlev _ hj))
          (fun j hj => hc.sorted_i (hlev j hj))
          (fun j hj => Nat.le_succ_of_le (hinv.length_le hc (hlev j hj)))
          hhead_mem
      rw [containsS, if_neg hgt, if_neg heq]
      rw [hT]
      simp only [Option.bind_eq_bind, Option.some_bind]
      have hTk : T.getD 0 s.head = ((c 0).filter (below kf s.heap x)).getLastD s.head := by
        rw [getD_default_irrel (by omega) s.head 0]
        exact hTspec 0 (Nat.zero_le _)
      set P := below kf s.heap x with hP
      set A := (c 0).filter P with hA
      set B := (c 0).dropWhile P with hB
      clear_value P A B
      have hsplit : c 0 = A ++ B := by
        rw [hA, hB, hP, ← (hc.sorted).takeWhile_filter, List.takeWhile_append_dropWhile]
      have hAne : A ≠ [] := by
        rw [hA, ht0]
        intro hnil
        have : s.head ∈ List.filter P (s.head :: t0) :=
          List.mem_filter.2 ⟨List.mem_cons_self .., by simp [hP, below, hlt]⟩
        rw [hnil] at this
        cases this
      have hp0 : A.getLast? = some (A.getLastD s.head) := by
        cases hAq : A with
        | nil => exact absurd hAq hAne
        | cons q qs =>
          rw [← hAq, List.getLastD_eq_getLast?,
            List.getLast?_eq_getLast A (by rw [hAq]; exact List.cons_ne_nil q qs)]
          rfl
      have hnext : nxt s.heap (T.getD 0 s.head) 0 = B.head? := by
        rw [hTk]
        exact (hsplit ▸ hc.isch 0 h0).last_append hp0
      have hp0mem : T.getD 0 s.head ∈ c 0 := by
        rw [hTk]
        exact (hsplit ▸ List.mem_append_left B (getLastD_mem hAne s.head))
      have hp0lt : T.getD 0 s.head < s.heap.length :=
        hinv.mem_lt hc h0 _ hp0mem
      have hbound : 0 < (nodeAt s.heap (T.getD 0 s.head)).nexts.length := by
        rw [hinv.wf.nexts_length hp0lt]
        omega
      rw [getElem?_eq_getD hbound]
      show (match some (nxt s.heap (T.getD 0 s.head) 0) with
        | none => none
        | some none => some false
        | some (some cc) => some (decide (vk kf s.heap cc = x))) = _
      rw [hnext]
      cases hBnil : B with
      | nil =>
        show some false = _
        have hxout : ¬ x ∈ keysL kf s := by
          rw [hkeys, hsplit, hBnil, List.append_nil]
          intro hx
          obtain ⟨a, ha, hax⟩ := List.mem_map.1 hx
          rw [hA, hP] at ha
          have := (List.mem_filter.1 ha).2
          simp only [below, decide_eq_true_eq] at this
          exact absurd (hax ▸ this) (lt_irrefl x)
        simp [hxout]
      | cons b B' =>
        have hBcons : B = b :: B' := hBnil
        have hbB : b ∈ B := by rw [hBcons]; exact List.mem_cons_self ..
        have hbmem : b ∈ c 0 := hsplit ▸ List.mem_append_right A hbB
        have hbge : x ≤ vk kf s.heap b := by
          have := List.head?_dropWhile_not P (c 0)
          rw [← hB, hBcons] at this
          rw [hP] at this
          simp only [List.head?_cons, below, decide_eq_false_iff_not, not_lt] at this
          exact this
        show some (decide (vk kf s.heap b = x)) = some (decide (x ∈ keysL kf s))
        congr 1
        rw [decide_eq_decide]
        constructor
        · intro hbx
          rw [hkeys]
          exact List.mem_map.2 ⟨b, hbmem, hbx⟩
        · intro hx
          rw [hkeys] at hx
          obtain ⟨a, ha, hax⟩ := List.mem_map.1 hx
          rw [hsplit] at ha
          rcases List.mem_append.1 ha with haA | haB
          · rw [hA, hP] at haA
            have := (List.mem_filter.1 haA).2
            simp only [below, decide_eq_true_eq] at this
            exact absurd (hax ▸ this) (lt_irrefl x)
          · have hsB : SortedKeys kf s.heap B :=
              hc.sorted.sublist (hsplit ▸ List.sublist_append_right A B)
            rw [SortedKeys, hBcons, List.pairwise_cons] at hsB
            rcases List.mem_cons.1 (hBcons ▸ haB) with rfl | haB'
            · exact hax
            · have hba := hsB.1 a haB'
              rw [hax] at hba
              exact le_antisymm hba hbge

end Lookup

/-! ### The fresh one-node storage -/

section Fresh

variable {α κ : Type} [Inhabited α] [LinearOrder κ]

theorem getD_replicate_none {N i : Nat} :
    (List.replicate N (none : Option Nat)).getD i none = none := by
  rcases Nat.lt_or_ge i N with h | h
  · have hlt : i < (List.replicate N (none : Option Nat)).length := by simpa using h
    simp [List.getElem?_eq_getElem hlt]
  · have hge : (List.replicate N (none : Option Nat)).length ≤ i := by simpa using h
    simp [List.getElem?_eq_none hge]

theorem nxt_mkNew (N : Nat) (r : Rng) (v : α) (i : Nat) :
    nxt (mkNew N r v).heap 0 i = none := by
  unfold nxt nodeAt mkNew
  simp [getD_replicate_none]

theorem chainsOk_mkNew (kf : α → κ) (N : Nat) (r : Rng) (v : α) :
    ChainsOk kf (mkNew N r v) (fun _ => [0]) := by
  refine ⟨?_, by simp, by simp [SortedKeys], ?_, ?_, ?_⟩
  · exact fun i _ => isChain_singleton (nxt_mkNew N r v i)
  · exact fun i _ => List.Sublist.refl _
  · intro a ha i _
    rcases List.mem_singleton.1 ha with rfl
    exact nxt_mkNew N r v i
  · intro a ha i _ hne
    rcases List.mem_singleton.1 ha with rfl
    exact absurd (nxt_mkNew N r v i) hne

theorem Inv_mkNew (kf : α → κ) {N : Nat} (hN : 1 ≤ N) (r : Rng) (v : α) :
    Inv kf N (mkNew N r v) := by
  refine ⟨le_refl 1, hN, by simp [mkNew], ?_, ⟨_, chainsOk_mkNew kf N r v⟩⟩
  intro a ha
  have ha0 : a = 0 := by simpa [mkNew] using ha
  subst ha0
  constructor
  · simp [mkNew, nodeAt]
  · intro j b hb
    rw [nxt_mkNew N r v j] at hb
    cases hb

theorem keysL_mkNew (kf : α → κ) {N : Nat} (hN : 1 ≤ N) (r : Rng) (v : α) :
    keysL kf (mkNew N r v) = [kf v] := by
  rw [keysL, (Inv_mkNew kf hN r v).chains_eq (chainsOk_mkNew kf N r v)
    (Inv_mkNew kf hN r v).one_le]
  simp [vk, mkNew, nodeAt]

end Fresh

/-! ### Head-replacement insertion -/

section HeadInsert

variable {α κ : Type} [Inhabited α] [LinearOrder κ]

/-- Replace the head of a chain, in a heap where the new head's link equals
the old head's and the remainder links unchanged. -/
theorem IsChain.rehead {h h' : Heap α} {i hd nhd : Nat} {t : List Nat}
    (hc : IsChain h i hd (hd :: t))
    (hn : nxt h' nhd i = nxt h hd i)
    (ht : ∀ a ∈ t, nxt h' a i = nxt h a i) :
    IsChain h' i nhd (nhd :: t) := by
  cases t with
  | nil =>
    exact isChain_singleton
      (hn.trans (hc.last_nxt (show [hd].getLast? = some hd by simp)))
  | cons b u =>
    obtain ⟨hx, hrest⟩ := hc.tail
    exact isChain_cons (hn.trans hx) (hrest.congr ht)

theorem moveLinks_spec {N : Nat} :
    ∀ (cnt level : Nat) (oldh newh : SkipNode α),
      oldh.nexts.length = N → newh.nexts.length = N → level + cnt ≤ N →
      ∃ o' n', moveLinks oldh newh level cnt = some (o', n') ∧
        o'.val = oldh.val ∧ n'.val = newh.val ∧
        o'.nexts.length = N ∧ n'.nexts.length = N ∧
        (∀ j, j < level ∨ level + cnt ≤ j →
          o'.nexts.getD j none = oldh.nexts.getD j none ∧
          n'.nexts.getD j none = newh.nexts.getD j none) ∧
        (∀ j, level ≤ j → j < level + cnt →
          o'.nexts.getD j none = none ∧
          n'.nexts.getD j none = oldh.nexts.getD j none) := by
  intro cnt
  induction cnt with
  | zero =>
    intro level oldh newh hol hnl hb
    exact ⟨oldh, newh, rfl, rfl, rfl, hol, hnl,
      fun j _ => ⟨rfl, rfl⟩, fun j h1 h2 => absurd h2 (by omega)⟩
  | succ cnt ih =>
    intro level oldh newh hol hnl hb
    have hlev : level < oldh.nexts.length := by omega
    have hlevn : level < newh.nexts.length := by omega
    have hget : oldh.nexts[level]? = some (oldh.nexts.getD level none) :=
      getElem?_eq_getD hlev
    obtain ⟨o', n', hrec, ho'v, hn'v, ho'l, hn'l, hout, hin⟩ :=
      ih (level + 1) ⟨oldh.val, oldh.nexts.set level none⟩
        ⟨newh.val, newh.nexts.set level (oldh.nexts.getD level none)⟩
        (by simpa using hol) (by simpa using hnl) (by omega)
    refine ⟨o', n', ?_, ho'v, hn'v, ho'l, hn'l, ?_, ?_⟩
    · rw [moveLinks, hget]
      simp only [Option.bind_eq_bind, Option.some_bind,
        setNext_eq_some hlev, setNext_eq_some hlevn, Option.some_bind]
      exact hrec
    · intro j hj
      have hjne : j ≠ level := by omega
      have := hout j (by omega)
      rw [getD_set_ne hjne, getD_set_ne hjne] at this
      exact this
    · intro j hj1 hj2
      rcases Nat.eq_or_lt_of_le hj1 with heq | hjgt
      · subst heq
        have h1 := hout level (Or.inl (Nat.lt_succ_self level))
        rw [getD_set_self hlev, getD_set_self hlevn] at h1
        exact h1
      · have h1 := hin j hjgt (by omega)
        rw [getD_set_ne (by omega)] at h1
        exact h1

/-- Full description of the head-replacement insert: the produced state, its
link structure, and the preserved invariant with the new chain family. -/
theorem insertHead_spec {kf : α → κ} {N : Nat} {s : Storage α}
    (hinv : Inv kf N s) {c : Nat → List Nat} (hc : ChainsOk kf s c)
    {v : α} (hvle : kf v ≤ vk kf s.heap s.head) :
    ∃ s', insertHead N s v = some s' ∧
      s'.rng = s.rng ∧
      s'.levels = s.levels ∧
      s'.head = s.heap.length ∧
      s'.heap.length = s.heap.length + 1 ∧
      (nodeAt s'.heap s'.head).val = v ∧
      (∀ a, a < s.heap.length → (nodeAt s'.heap a).val = (nodeAt s.heap a).val) ∧
      nxt s'.heap s'.head 0 = some s.head ∧
      (∀ i, 1 ≤ i → i < s.levels →
        nxt s'.heap s'.head i = nxt s.heap s.head i ∧ nxt s'.heap s.head i = none) ∧
      ChainsOk kf s'
        (fun i => if i = 0 then s.heap.length :: c 0
          else s.heap.length :: (c i).tail) ∧
      Inv kf N s' := by
  have hN1 : 1 ≤ N := le_trans hinv.one_le hinv.le_N
  have hol : (nodeAt s.heap s.head).nexts.length = N :=
    hinv.wf.nexts_length hinv.head_lt
  obtain ⟨o', n', hml, ho'v, hn'v, ho'l, hn'l, hout, hin⟩ :=
    moveLinks_spec (N := N) (s.levels - 1) 1 (nodeAt s.heap s.head)
      ⟨v, (List.replicate N none).set 0 (some s.head)⟩
      hol (by simpa using hN1)
      (by have h1 := hinv.one_le; have h2 := hinv.le_N; omega)
  have heq : insertHead N s v =
      some ⟨s.rng, s.heap.length, s.levels, (s.heap.set s.head o') ++ [n']⟩ := by
    rw [insertHead]
    have h1 : setNext (⟨v, List.replicate N none⟩ : SkipNode α) 0 (some s.head) =
        some ⟨v, (List.replicate N none).set 0 (some s.head)⟩ :=
      setNext_eq_some (by simpa using hN1) _
    rw [h1]
    simp only [Option.bind_eq_bind, Option.some_bind]
    rw [hml]
    rfl
  set nheap : Heap α := (s.heap.set s.head o') ++ [n'] with hnheap
  have hlen_set : (s.heap.set s.head o').length = s.heap.length := by simp
  have hlen : nheap.length = s.heap.length + 1 := by simp [hnheap]
  have hnodeNew : nodeAt nheap s.heap.length = n' := by
    rw [hnheap, ← hlen_set]
    exact nodeAt_append_self n'
  have hnodeOld : nodeAt nheap s.head = o' := by
    rw [hnheap, nodeAt_append (by simpa using hinv.head_lt),
      nodeAt_set_self hinv.head_lt]
  have hnodeOther : ∀ a, a < s.heap.length → a ≠ s.head →
      nodeAt nheap a = nodeAt s.heap a := by
    intro a ha hne
    rw [hnheap, nodeAt_append (by simpa using ha), nodeAt_set_ne hne]
  have hbounds : 1 + (s.levels - 1) = s.levels := by
    have := hinv.one_le; omega
  have hnxtNew : ∀ j, nxt nheap s.heap.length j =
      if j = 0 then some s.head
      else if j < s.levels then nxt s.heap s.head j
      else none := by
    intro j
    rw [nxt, hnodeNew]
    rcases Nat.eq_zero_or_pos j with rfl | hj0
    · rw [if_pos rfl, (hout 0 (Or.inl Nat.one_pos)).2,
        getD_set_self (by simpa using hN1)]
    · rcases Nat.lt_or_ge j s.levels with hjlt | hjge
      · rw [if_neg (by omega), if_pos hjlt, (hin j hj0 (by omega)).2]
        rfl
      · rw [if_neg (by omega), if_neg (by omega),
          (hout j (Or.inr (by omega))).2, getD_set_ne (by omega)]
        exact getD_replicate_none
  have hnxtOld : ∀ j, nxt nheap s.head j =
      if 1 ≤ j ∧ j < s.levels then none else nxt s.heap s.head j := by
    intro j
    rw [nxt, hnodeOld]
    rcases Nat.eq_zero_or_pos j with rfl | hj0
    · rw [if_neg (by omega), (hout 0 (Or.inl Nat.one_pos)).1]
      rfl
    · rcases Nat.lt_or_ge j s.levels with hjlt | hjge
      · rw [if_pos ⟨hj0, hjlt⟩, (hin j hj0 (by omega)).1]
      · rw [if_neg (by omega), (hout j (Or.inr (by omega))).1]
        rfl
  have hnxtOther : ∀ a, a < s.heap.length → a ≠ s.head → ∀ j,
      nxt nheap a j = nxt s.heap a j := by
    intro a ha hne j
    rw [nxt, nxt, hnodeOther a ha hne]
  have hvkNew : vk kf nheap s.heap.length = kf v := by
    rw [vk, hnodeNew, hn'v]
  have hvalOld : ∀ a, a < s.heap.length →
      (nodeAt nheap a).val = (nodeAt s.heap a).val := by
    intro a ha
    by_cases hne : a = s.head
    · subst hne
      rw [hnodeOld]
      exact ho'v
    · rw [hnodeOther a ha hne]
  have hvkOld : ∀ a, a < s.heap.length → vk kf nheap a = vk kf s.heap a := by
    intro a ha
    rw [vk, vk, hvalOld a ha]
  have hmem0 : ∀ a ∈ c 0, a < s.heap.length := hinv.mem_lt hc hinv.one_le
  have hmemi : ∀ i, i < s.levels → ∀ a ∈ c i, a < s.heap.length :=
    fun i hi => hinv.mem_lt hc hi
  obtain ⟨t0, ht0⟩ := (hc.isch 0 hinv.one_le).eq_cons
  have hheadle : ∀ b ∈ c 0, vk kf s.heap s.head ≤ vk kf s.heap b := by
    intro b hb
    have hs := hc.sorted
    rw [SortedKeys, ht0, List.pairwise_cons] at hs
    rcases List.mem_cons.1 (ht0 ▸ hb) with rfl | hbt
    · exact le_refl _
    · exact hs.1 b hbt
  -- the new chain at level 0
  have hch0 : IsChain nheap 0 s.heap.length (s.heap.length :: c 0) := by
    have hcont : IsChain nheap 0 s.head (c 0) := by
      refine (hc.isch 0 hinv.one_le).congr ?_
      intro a ha
      by_cases hne : a = s.head
      · subst hne
        rw [hnxtOld 0, if_neg (by omega)]
      · exact hnxtOther a (hmem0 a ha) hne 0
    rw [ht0] at hcont ⊢
    exact isChain_cons (by rw [hnxtNew 0, if_pos rfl]) hcont
  -- the new chains at higher levels
  have hchi : ∀ i, 1 ≤ i → i < s.levels →
      IsChain nheap i s.heap.length (s.heap.length :: (c i).tail) := by
    intro i hi1 hilt
    obtain ⟨ti, hti⟩ := (hc.isch i hilt).eq_cons
    have htail : (c i).tail = ti := by rw [hti]; rfl
    rw [htail]
    have hhatail : ∀ a ∈ ti, a ≠ s.head := by
      intro a ha
      have hnd := hc.nodup_i hilt
      rw [hti, List.nodup_cons] at hnd
      intro hcon
      exact hnd.1 (hcon ▸ ha)
    refine IsChain.rehead (h := s.heap) (show IsChain s.heap i s.head (s.head :: ti) from hti ▸ hc.isch i hilt) ?_ ?_
    · rw [hnxtNew i, if_neg (by omega), if_pos hilt]
    · intro a ha
      exact hnxtOther a
        (hmemi i hilt a (by rw [hti]; exact List.mem_cons_of_mem _ ha))
        (hhatail a ha) i
  have hok : ChainsOk kf ⟨s.rng, s.heap.length, s.levels, nheap⟩
      (fun i => if i = 0 then s.heap.length :: c 0
        else s.heap.length :: (c i).tail) := by
    refine ⟨?_, ?_, ?_, ?_, ?_, ?_⟩ <;> dsimp only
    · intro i hilt
      rcases Nat.eq_zero_or_pos i with rfl | hi0
      · exact hch0
      · rw [if_neg (by omega)]
        exact hchi i hi0 hilt
    · show (s.heap.length :: c 0).Nodup
      exact List.nodup_cons.2 ⟨fun hmem => absurd (hmem0 _ hmem) (lt_irrefl _), hc.nodup⟩
    · show SortedKeys kf nheap (s.heap.length :: c 0)
      rw [SortedKeys, List.pairwise_cons]
      constructor
      · intro b hb
        rw [hvkNew, hvkOld b (hmem0 b hb)]
        exact le_trans hvle (hheadle b hb)
      · refine hc.sorted.imp_of_mem ?_
        intro a b ha hb hab
        rw [hvkOld a (hmem0 a ha), hvkOld b (hmem0 b hb)]
        exact hab
    · intro i hilt
      rcases Nat.eq_zero_or_pos i with rfl | hi0
      · show (s.heap.length :: (c (0 + 1)).tail) <+ (s.heap.length :: c 0)
        rw [List.cons_sublist_cons]
        exact ((c (0 + 1)).tail_sublist).trans (hc.sub_zero (0 + 1) hilt)
      · rw [if_neg (by omega : ¬ i + 1 = 0), if_neg (by omega : ¬ i = 0)]
        rw [List.cons_sublist_cons]
        obtain ⟨ti, hti⟩ := (hc.isch i (by omega)).eq_cons
        obtain ⟨ti1, hti1⟩ := (hc.isch (i+1) hilt).eq_cons
        have := hc.nest i hilt
        rw [hti, hti1] at this
        rw [hti, hti1]
        exact (List.cons_sublist_cons.1 this)
    · intro a ha j hj
      have ha2 : a ∈ s.heap.length :: c 0 := ha
      rcases List.mem_cons.1 ha2 with rfl | ha0
      · rw [hnxtNew j, if_neg (by have := hinv.one_le; omega), if_neg (by omega)]
      · by_cases hne : a = s.head
        · subst hne
          rw [hnxtOld j, if_neg (by omega)]
          exact hc.high _ ha0 j hj
        · rw [hnxtOther a (hmem0 a ha0) hne j]
          exact hc.high a ha0 j hj
    · intro a ha j hjlt hne
      have ha2 : a ∈ s.heap.length :: c 0 := ha
      rcases List.mem_cons.1 ha2 with rfl | ha0
      · rcases Nat.eq_zero_or_pos j with rfl | hj0
        · show s.heap.length ∈ s.heap.length :: c 0
          exact List.mem_cons_self ..
        · rw [if_neg (by omega : ¬ j = 0)]
          exact List.mem_cons_self ..
      · by_cases hhd : a = s.head
        · subst hhd
          rcases Nat.eq_zero_or_pos j with rfl | hj0
          · show s.head ∈ s.heap.length :: c 0
            rw [ht0]
            exact List.mem_cons_of_mem _ (List.mem_cons_self ..)
          · rw [hnxtOld j, if_pos ⟨hj0, hjlt⟩] at hne
            exact absurd rfl hne
        · rw [hnxtOther a (hmem0 a ha0) hhd j] at hne
          have hmemj : a ∈ c j := hc.tower a ha0 j hjlt hne
          rcases Nat.eq_zero_or_pos j with rfl | hj0
          · show a ∈ s.heap.length :: c 0
            exact List.mem_cons_of_mem _ ha0
          · rw [if_neg (by omega : ¬ j = 0)]
            obtain ⟨tj, htj⟩ := (hc.isch j hjlt).eq_cons
            rcases List.mem_cons.1 (htj ▸ hmemj) with rfl | hmt
            · exact absurd rfl hhd
            · refine List.mem_cons_of_mem _ ?_
              rw [htj]
              exact hmt
  have hwf2 : HeapWF N nheap := by
    intro a ha
    rw [hlen] at ha
    rcases Nat.lt_or_ge a s.heap.length with halt | hage
    · by_cases hne : a = s.head
      · subst hne
        refine ⟨by rw [hnodeOld]; exact ho'l, ?_⟩
        intro j b hb
        rw [hnxtOld j] at hb
        by_cases hcase : 1 ≤ j ∧ j < s.levels
        · rw [if_pos hcase] at hb; cases hb
        · rw [if_neg hcase] at hb
          rw [hlen]
          exact Nat.lt_succ_of_lt (hinv.wf.nxt_lt hinv.head_lt hb)
      · refine ⟨by rw [hnodeOther a halt hne]; exact hinv.wf.nexts_length halt, ?_⟩
        intro j b hb
        rw [hnxtOther a halt hne j] at hb
        rw [hlen]
        exact Nat.lt_succ_of_lt (hinv.wf.nxt_lt halt hb)
    · have haeq : a = s.heap.length := by omega
      subst haeq
      refine ⟨by rw [hnodeNew]; exact hn'l, ?_⟩
      intro j b hb
      rw [hnxtNew j] at hb
      rcases Nat.eq_zero_or_pos j with rfl | hj0
      · rw [if_pos rfl] at hb
        cases hb
        rw [hlen]
        exact Nat.lt_succ_of_lt hinv.head_lt
      · rw [if_neg (by omega)] at hb
        by_cases hjlt : j < s.levels
        · rw [if_pos hjlt] at hb
          rw [hlen]
          exact Nat.lt_succ_of_lt (hinv.wf.nxt_lt hinv.head_lt hb)
        · rw [if_neg hjlt] at hb; cases hb
  exact ⟨⟨s.rng, s.heap.length, s.levels, nheap⟩, heq, rfl, rfl, rfl, hlen,
    (by dsimp only; rw [hnodeNew]; exact hn'v), fun a ha => hvalOld a ha,
    by rw [hnxtNew 0]; rfl,
    fun i hi1 hilt => ⟨by rw [hnxtNew i, if_neg (by omega), if_pos hilt],
      by rw [hnxtOld i, if_pos ⟨hi1, hilt⟩]⟩,
    hok,
    ⟨hinv.one_le, hinv.le_N,
      (by show s.heap.length < nheap.length; rw [hlen]; omega),
      hwf2, ⟨_, hok⟩⟩⟩

end HeadInsert

/-! ### Descend-and-splice insertion -/

section SpliceInsert

variable {α κ : Type} [Inhabited α] [LinearOrder κ]

theorem SortedKeys.dropWhile_filter {kf : α → κ} {h : Heap α} {x : κ}
    {l : List Nat} (hs : SortedKeys kf h l) :
    l.dropWhile (below kf h x) = l.filter (fun a => ! below kf h x a) := by
  induction l with
  | nil => rfl
  | cons a t ih =>
    rw [SortedKeys, List.pairwise_cons] at hs
    by_cases hpa : below kf h x a = true
    · rw [List.dropWhile_cons_of_pos hpa, List.filter_cons_of_neg (by simp [hpa]),
        ih hs.2]
    · rw [List.dropWhile_cons_of_neg hpa, List.filter_cons_of_pos (by simp [hpa])]
      have ht : t.filter (fun a => ! below kf h x a) = t := by
        refine List.filter_eq_self.2 fun b hb => ?_
        simp only [below, decide_eq_true_eq, Bool.not_eq_true', decide_eq_false_iff_not,
          not_lt] at hpa ⊢
        exact le_trans hpa (hs.1 b hb)
      rw [ht]

/-- Transport a chain along an equation between intended heads. -/
theorem IsChain.with_head {h : Heap α} {i a hd : Nat} {l : List Nat}
    (hc : IsChain h i a l) (he : a = hd) : IsChain h i hd l :=
  ⟨by rw [hc.1, he], hc.2.1, hc.2.2⟩

/-- Re-point a chain at its actual first element. -/
theorem IsChain.head_align {h : Heap α} {i hd : Nat} {l : List Nat} {a : Nat}
    (hc : IsChain h i hd l) (ha : l.head? = some a) : IsChain h i a l :=
  ⟨ha, hc.2.1, hc.2.2⟩

/-- Splicing a fresh node after the last element of a prefix: the chain with
the new node inserted is a chain of the updated heap. -/
theorem isChain_splice {h h' : Heap α} {i cA : Nat} {B : List Nat} :
    ∀ {A : List Nat} {hd p : Nat},
      IsChain h i hd (A ++ B) → (A ++ B).Nodup → A.getLast? = some p →
      (∀ a ∈ A ++ B, a ≠ p → nxt h' a i = nxt h a i) →
      nxt h' p i = some cA → nxt h' cA i = B.head? →
      IsChain h' i hd (A ++ cA :: B) := by
  intro A
  induction A with
  | nil => intro hd p _ _ hAp _ _ _; cases hAp
  | cons a A1 ih =>
    intro hd p hold hnd hAp hsame hp hcA
    have hahd : a = hd := by
      have h1 := hold.1
      rw [List.cons_append, List.head?_cons] at h1
      exact Option.some_inj.1 h1
    cases hA1 : A1 with
    | nil =>
      subst hA1
      have hpa : a = p := by simpa using hAp
      have hrest : IsChain h' i cA (cA :: B) := by
        cases hB : B with
        | nil => exact isChain_singleton (by rw [hcA, hB]; rfl)
        | cons b B2 =>
          subst hB
          have hold2 : IsChain h i a (a :: b :: B2) :=
            (hold.head_align (by rw [List.singleton_append, List.head?_cons]))
          obtain ⟨hx, htl⟩ := hold2.tail
          refine isChain_cons (by rw [hcA]; rfl) (htl.congr ?_)
          intro z hz
          refine hsame z (by
            rw [List.singleton_append]
            exact List.mem_cons_of_mem _ hz) ?_
          have hnd2 : a ∉ b :: B2 := by
            rw [List.singleton_append, List.nodup_cons] at hnd
            exact hnd.1
          intro hcon
          exact hnd2 ((hcon.trans hpa.symm) ▸ hz)
      show IsChain h' i hd (a :: cA :: B)
      exact (isChain_cons (hpa ▸ hp) hrest).with_head hahd
    | cons a1 A2 =>
      subst hA1
      have hAp2 : (a1 :: A2).getLast? = some p := by
        rw [List.getLast?_cons_cons] at hAp
        exact hAp
      have hpmem : p ∈ a1 :: A2 := List.mem_of_getLast?_eq_some hAp2
      have hanotin : a ∉ (a1 :: A2) ++ B := by
        rw [List.cons_append, List.nodup_cons] at hnd
        exact hnd.1
      have hanep : a ≠ p := fun hcon =>
        hanotin (List.mem_append_left B (hcon ▸ hpmem))
      have hold2 : IsChain h i a (a :: a1 :: (A2 ++ B)) :=
        hold.head_align (by rw [List.cons_append, List.head?_cons])
      obtain ⟨hx, htl⟩ := hold2.tail
      have hx2 : nxt h' a i = some a1 := by
        rw [hsame a (by rw [List.cons_append]; exact List.mem_cons_self ..) hanep]
        exact hx
      have hold3 : IsChain h i a1 ((a1 :: A2) ++ B) := htl
      have hnd3 : ((a1 :: A2) ++ B).Nodup := by
        rw [List.cons_append, List.nodup_cons] at hnd
        exact hnd.2
      have hsame3 : ∀ z ∈ (a1 :: A2) ++ B, z ≠ p → nxt h' z i = nxt h z i := by
        intro z hz hzp
        exact hsame z (by rw [List.cons_append]; exact List.mem_cons_of_mem _ hz) hzp
      have hrec := ih hold3 hnd3 hAp2 hsame3 hp hcA
      have : IsChain h' i a (a :: ((a1 :: A2) ++ cA :: B)) := isChain_cons hx2 hrec
      exact this.with_head hahd

/-- The predecessor used when splicing at level `j`: the traced node below
the live level count, the head itself on the growth level. -/
def prevAt (s : Storage α) (T : List Nat) (j : Nat) : Nat :=
  if j < s.levels then T.getD j 0 else s.head

/-- The loop invariant of the per-level splicing loop, entered at level `ℓ`:
levels below `ℓ` are spliced, all other slots are as in the original heap. -/
structure Mid (kf : α → κ) (N : Nat) (s : Storage α) (x : κ) (v : α)
    (c : Nat → List Nat) (T : List Nat) (ℓ : Nat) (h : Heap α) (lv : Nat) :
    Prop where
  hlv : lv = max s.levels ℓ
  hlen : h.length = s.heap.length + 1
  hwf : HeapWF N h
  hvalc : (nodeAt h s.heap.length).val = v
  hvalo : ∀ a, a < s.heap.length → (nodeAt h a).val = (nodeAt s.heap a).val
  hcnxt : ∀ j, nxt h s.heap.length j =
    if j = 0 then ((c 0).dropWhile (below kf s.heap x)).head?
    else if 1 ≤ j ∧ j < ℓ ∧ j < s.levels
      then ((c j).dropWhile (below kf s.heap x)).head?
    else none
  honxt : ∀ a, a < s.heap.length → ∀ j, nxt h a j =
    if j < ℓ ∧ a = prevAt s T j then some s.heap.length else nxt s.heap a j

theorem insLoop_spec {kf : α → κ} {N : Nat} {s : Storage α} {x : κ} {v : α}
    {c : Nat → List Nat} {T : List Nat} {r : Nat}
    (hinv : Inv kf N s) (hc : ChainsOk kf s c)
    (hTmem : ∀ j, j < s.levels → T.getD j 0 ∈ c j)
    (hTnext : ∀ j, j < s.levels →
      nxt s.heap (T.getD j 0) j = ((c j).dropWhile (below kf s.heap x)).head?)
    {bound : Nat} (hbound : bound = min (s.levels + 1) N) :
    ∀ (fuel ℓ : Nat) (h : Heap α) (lv : Nat), 1 ≤ ℓ → ℓ ≤ bound →
      bound - ℓ ≤ fuel → Mid kf N s x v c T ℓ h lv →
      ∃ h' lv' K,
        insLoop kf r T s.head s.heap.length bound fuel ℓ (h, lv) =
          some (h', lv') ∧
        ℓ ≤ K + 1 ∧ K + 1 ≤ bound ∧ Mid kf N s x v c T (K + 1) h' lv' := by
  intro fuel
  induction fuel with
  | zero =>
    intro ℓ h lv hℓ1 hℓb hfuel hmid
    have hℓeq : ℓ = bound := by omega
    exact ⟨h, lv, ℓ - 1, rfl, by omega, by omega, by
      have : ℓ - 1 + 1 = ℓ := by omega
      rw [this]
      exact hmid⟩
  | succ f ih =>
    intro ℓ h lv hℓ1 hℓb hfuel hmid
    by_cases hstop : bound ≤ ℓ
    · refine ⟨h, lv, ℓ - 1, ?_, by omega, by omega, ?_⟩
      · rw [insLoop, if_pos hstop]
      · have : ℓ - 1 + 1 = ℓ := by omega
        rw [this]
        exact hmid
    · by_cases hbit : r.testBit ℓ
      · -- splice step at level ℓ
        have hℓlt : ℓ < bound := by omega
        have hℓN : ℓ < N := by omega
        have hlvb : lv ≤ ℓ ↔ s.levels ≤ ℓ := by
          rw [hmid.hlv]
          omega
        have hpa_eq : (if lv ≤ ℓ then s.head else T.getD ℓ 0) = prevAt s T ℓ := by
          rw [prevAt]
          by_cases hcase : s.levels ≤ ℓ
          · rw [if_pos (hlvb.2 hcase), if_neg (by omega)]
          · rw [if_neg (fun hcon => hcase (hlvb.1 hcon)), if_pos (by omega)]
        have hpa_lt : prevAt s T ℓ < s.heap.length := by
          rw [prevAt]
          by_cases hcase : ℓ < s.levels
          · rw [if_pos hcase]
            exact hinv.mem_lt hc hcase _ (hTmem ℓ hcase)
          · rw [if_neg hcase]
            exact hinv.head_lt
        have hpa_lt2 : prevAt s T ℓ < h.length := by
          rw [hmid.hlen]; omega
        have hcA_lt : s.heap.length < h.length := by rw [hmid.hlen]; omega
        have hpa_ne : prevAt s T ℓ ≠ s.heap.length := by omega
        have hpl : nxt h (prevAt s T ℓ) ℓ =
            (if ℓ < s.levels
              then ((c ℓ).dropWhile (below kf s.heap x)).head? else none) := by
          rw [hmid.honxt _ hpa_lt ℓ, if_neg (by omega)]
          by_cases hcase : ℓ < s.levels
          · rw [if_pos hcase, prevAt, if_pos hcase]
            exact hTnext ℓ hcase
          · rw [if_neg hcase, prevAt, if_neg hcase]
            refine hc.high s.head ?_ ℓ (by omega)
            exact (hc.isch 0 hinv.one_le).head_mem
        have hlenpa : (nodeAt h (prevAt s T ℓ)).nexts.length = N :=
          hmid.hwf.nexts_length hpa_lt2
        have hlencA : (nodeAt h s.heap.length).nexts.length = N :=
          hmid.hwf.nexts_length hcA_lt
        have hread : (nodeAt h (prevAt s T ℓ)).nexts[ℓ]? =
            some (nxt h (prevAt s T ℓ) ℓ) :=
          getElem?_eq_getD (by rw [hlenpa]; exact hℓN)
        have hstep : insLoop kf r T s.head s.heap.length bound (f + 1) ℓ (h, lv) =
            insLoop kf r T s.head s.heap.length bound f (ℓ + 1)
              ((h.set s.heap.length
                  ⟨(nodeAt h s.heap.length).val,
                    (nodeAt h s.heap.length).nexts.set ℓ
                      (nxt h (prevAt s T ℓ) ℓ)⟩).set (prevAt s T ℓ)
                  ⟨(nodeAt h (prevAt s T ℓ)).val,
                    (nodeAt h (prevAt s T ℓ)).nexts.set ℓ (some s.heap.length)⟩,
                if lv ≤ ℓ then lv + 1 else lv) := by
          rw [insLoop, if_neg hstop, if_neg (by simpa using hbit)]
          dsimp only
          rw [hpa_eq, hread]
          simp only [Option.bind_eq_bind, Option.some_bind]
          rw [setNext_eq_some (by rw [hlencA]; exact hℓN)]
          simp only [Option.some_bind]
          rw [nodeAt_set_ne hpa_ne, setNext_eq_some (by rw [hlenpa]; exact hℓN)]
          simp only [Option.some_bind]
        set h2 : Heap α := (h.set s.heap.length
            ⟨(nodeAt h s.heap.length).val,
              (nodeAt h s.heap.length).nexts.set ℓ
                (nxt h (prevAt s T ℓ) ℓ)⟩).set (prevAt s T ℓ)
            ⟨(nodeAt h (prevAt s T ℓ)).val,
              (nodeAt h (prevAt s T ℓ)).nexts.set ℓ (some s.heap.length)⟩
          with hh2
        set lv2 := if lv ≤ ℓ then lv + 1 else lv with hlv2
        have hlen2 : h2.length = s.heap.length + 1 := by
          rw [hh2]
          simpa using hmid.hlen
        have hnode2cA : nodeAt h2 s.heap.length =
            ⟨(nodeAt h s.heap.length).val,
              (nodeAt h s.heap.length).nexts.set ℓ (nxt h (prevAt s T ℓ) ℓ)⟩ := by
          rw [hh2, nodeAt_set_ne (Ne.symm hpa_ne),
            nodeAt_set_self hcA_lt]
        have hnode2pa : nodeAt h2 (prevAt s T ℓ) =
            ⟨(nodeAt h (prevAt s T ℓ)).val,
              (nodeAt h (prevAt s T ℓ)).nexts.set ℓ (some s.heap.length)⟩ := by
          rw [hh2, nodeAt_set_self (by simpa using hpa_lt2)]
        have hnode2other : ∀ a, a ≠ s.heap.length → a ≠ prevAt s T ℓ →
            nodeAt h2 a = nodeAt h a := by
          intro a h1a h2a
          rw [hh2, nodeAt_set_ne h2a, nodeAt_set_ne h1a]
        have hnxt2cA : ∀ j, nxt h2 s.heap.length j =
            if j = ℓ then nxt h (prevAt s T ℓ) ℓ else nxt h s.heap.length j := by
          intro j
          rw [nxt, hnode2cA]
          by_cases hj : j = ℓ
          · subst hj
            rw [if_pos rfl]
            exact getD_set_self (by rw [hlencA]; exact hℓN) _
          · rw [if_neg hj]
            exact getD_set_ne hj _
        have hnxt2pa : ∀ j, nxt h2 (prevAt s T ℓ) j =
            if j = ℓ then some s.heap.length else nxt h (prevAt s T ℓ) j := by
          intro j
          rw [nxt, hnode2pa]
          by_cases hj : j = ℓ
          · subst hj
            rw [if_pos rfl]
            exact getD_set_self (by rw [hlenpa]; exact hℓN) _
          · rw [if_neg hj]
            exact getD_set_ne hj _
        have hnxt2other : ∀ a, a ≠ s.heap.length → a ≠ prevAt s T ℓ → ∀ j,
            nxt h2 a j = nxt h a j := by
          intro a h1a h2a j
          rw [nxt, hnode2other a h1a h2a]
          rfl
        have hval2 : ∀ a, a < h.length → (nodeAt h2 a).val = (nodeAt h a).val := by
          intro a ha
          by_cases h1a : a = s.heap.length
          · subst h1a
            rw [hnode2cA]
          · by_cases h2a : a = prevAt s T ℓ
            · subst h2a
              rw [hnode2pa]
            · rw [hnode2other a h1a h2a]
        have hmid2 : Mid kf N s x v c T (ℓ + 1) h2 lv2 := by
          refine ⟨?_, hlen2, ?_, ?_, ?_, ?_, ?_⟩
          · rw [hlv2, hmid.hlv]
            by_cases hcase : s.levels ≤ ℓ
            · rw [if_pos (by omega)]
              omega
            · rw [if_neg (by omega)]
              omega
          · -- heap well-formedness
            intro a ha
            rw [hlen2] at ha
            have halen : a < h.length := by rw [hmid.hlen]; omega
            constructor
            · by_cases h1a : a = s.heap.length
              · subst h1a
                rw [hnode2cA]
                simpa using hlencA
              · by_cases h2a : a = prevAt s T ℓ
                · subst h2a
                  rw [hnode2pa]
                  simpa using hlenpa
                · rw [hnode2other a h1a h2a]
                  exact hmid.hwf.nexts_length halen
            · intro j b hb
              rw [hlen2, ← hmid.hlen]
              by_cases h1a : a = s.heap.length
              · subst h1a
                rw [hnxt2cA j] at hb
                by_cases hj : j = ℓ
                · rw [if_pos hj] at hb
                  exact hmid.hwf.nxt_lt hpa_lt2 hb
                · rw [if_neg hj] at hb
                  exact hmid.hwf.nxt_lt hcA_lt hb
              · by_cases h2a : a = prevAt s T ℓ
                · subst h2a
                  rw [hnxt2pa j] at hb
                  by_cases hj : j = ℓ
                  · rw [if_pos hj] at hb
                    cases hb
                    exact hcA_lt
                  · rw [if_neg hj] at hb
                    exact hmid.hwf.nxt_lt hpa_lt2 hb
                · rw [hnxt2other a h1a h2a j] at hb
                  exact hmid.hwf.nxt_lt halen hb
          · rw [hval2 _ hcA_lt]
            exact hmid.hvalc
          · intro a ha
            rw [hval2 a (by rw [hmid.hlen]; omega)]
            exact hmid.hvalo a ha
          · -- links of the new node
            intro j
            rw [hnxt2cA j]
            by_cases hj : j = ℓ
            · subst hj
              rw [if_pos rfl, hpl]
              by_cases hcase : j < s.levels
              · rw [if_pos hcase, if_neg (by omega), if_pos ⟨by omega, by omega, hcase⟩]
              · rw [if_neg hcase, if_neg (by omega), if_neg (by omega)]
            · rw [if_neg hj, hmid.hcnxt j]
              by_cases hj0 : j = 0
              · rw [if_pos hj0, if_pos hj0]
              · rw [if_neg hj0, if_neg hj0]
                by_cases hcase : 1 ≤ j ∧ j < ℓ ∧ j < s.levels
                · rw [if_pos hcase, if_pos ⟨hcase.1, by omega, hcase.2.2⟩]
                · by_cases hcase2 : 1 ≤ j ∧ j < ℓ + 1 ∧ j < s.levels
                  · exact absurd (show j = ℓ by omega) hj
                  · rw [if_neg hcase, if_neg hcase2]
          · -- links of the old nodes
            intro a ha j
            by_cases hapa : a = prevAt s T ℓ ∧ j = ℓ
            · obtain ⟨ha1, hj1⟩ := hapa
              subst hj1
              subst ha1
              rw [hnxt2pa j, if_pos rfl, if_pos ⟨by omega, rfl⟩]
            · have hval : nxt h2 a j = nxt h a j := by
                by_cases hpa2 : a = prevAt s T ℓ
                · subst hpa2
                  have hjne : j ≠ ℓ := fun hcon => hapa ⟨rfl, hcon⟩
                  rw [hnxt2pa j, if_neg hjne]
                · exact hnxt2other a (by omega) hpa2 j
              rw [hval, hmid.honxt a ha j]
              by_cases hcase : j < ℓ ∧ a = prevAt s T j
              · rw [if_pos hcase, if_pos ⟨by omega, hcase.2⟩]
              · rw [if_neg hcase]
                by_cases hcase2 : j < ℓ + 1 ∧ a = prevAt s T j
                · exfalso
                  have hjℓ : j = ℓ := by omega
                  subst hjℓ
                  exact hapa ⟨hcase2.2, rfl⟩
                · rw [if_neg hcase2]
        obtain ⟨h', lv', K, hres, hK1, hK2, hmidK⟩ :=
          ih (ℓ + 1) h2 lv2 (by omega) (by omega) (by omega) hmid2
        exact ⟨h', lv', K, by rw [hstep]; exact hres, by omega, hK2, hmidK⟩
      · -- the random bit is zero: stop
        refine ⟨h, lv, ℓ - 1, ?_, by omega, by omega, ?_⟩
        · rw [insLoop, if_neg hstop, if_pos (by simpa using hbit)]
        · have : ℓ - 1 + 1 = ℓ := by omega
          rw [this]
          exact hmid

/-- The filter / remainder split of a sorted chain. -/
theorem sorted_split {kf : α → κ} {h : Heap α} {x : κ} {l : List Nat}
    (hs : SortedKeys kf h l) :
    l = l.filter (below kf h x) ++ l.dropWhile (below kf h x) := by
  rw [← hs.takeWhile_filter, List.takeWhile_append_dropWhile]

/-- Trace facts at one level: the filtered region is nonempty (it starts at
the head), its last element lies in the chain, and that element's link is
the head of the remainder. -/
theorem trace_next {kf : α → κ} {N : Nat} {s : Storage α}
    (hinv : Inv kf N s) {c : Nat → List Nat} (hc : ChainsOk kf s c) {x : κ}
    (hlt : vk kf s.heap s.head < x) {j : Nat} (hj : j < s.levels) :
    ((c j).filter (below kf s.heap x)).getLastD s.head ∈
      (c j).filter (below kf s.heap x) ∧
    ((c j).filter (below kf s.heap x)).getLastD s.head ∈ c j ∧
    nxt s.heap (((c j).filter (below kf s.heap x)).getLastD s.head) j =
      ((c j).dropWhile (below kf s.heap x)).head? := by
  obtain ⟨tj, htj⟩ := (hc.isch j hj).eq_cons
  have hne : (c j).filter (below kf s.heap x) ≠ [] := by
    intro hnil
    have : s.head ∈ (c j).filter (below kf s.heap x) :=
      List.mem_filter.2 ⟨by rw [htj]; exact List.mem_cons_self ..,
        by simp [below, hlt]⟩
    rw [hnil] at this
    cases this
  refine ⟨getLastD_mem hne s.head, ?_, ?_⟩
  · exact (List.filter_sublist (c j)).mem (getLastD_mem hne s.head)
  · have hgl : ((c j).filter (below kf s.heap x)).getLast? =
        some (((c j).filter (below kf s.heap x)).getLastD s.head) := by
      rw [List.getLastD_eq_getLast?, List.getLast?_eq_getLast _ hne]
      rfl
    exact ((sorted_split (x := x) (hc.sorted_i hj)) ▸ hc.isch j hj).last_append hgl

theorem keysL_eq_map {kf : α → κ} (s : Storage α) :
    keysL kf s = (vals s).map kf := by
  rw [keysL, vals, List.map_map]
  rfl

/-- Full description of the descend-and-splice insertion path. -/
theorem insertAt_spec {kf : α → κ} {N : Nat} {s : Storage α}
    (hinv : Inv kf N s) {c : Nat → List Nat} (hc : ChainsOk kf s c)
    {v : α} (hlt : vk kf s.heap s.head < kf v) :
    ∃ T s' K,
      descendT kf s.heap (kf v) (s.heap.length + 1) s.head (s.levels - 1) =
        some T ∧
      insertAt kf N s v T = some s' ∧
      s'.rng = ⟨s.rng.stream, s.rng.idx + 1⟩ ∧
      s'.head = s.head ∧
      s'.levels = max s.levels (K + 1) ∧
      K + 1 ≤ min (s.levels + 1) N ∧
      s'.heap.length = s.heap.length + 1 ∧
      (nodeAt s'.heap s.heap.length).val = v ∧
      (∀ a, a < s.heap.length → (nodeAt s'.heap a).val = (nodeAt s.heap a).val) ∧
      Inv kf N s' ∧
      ChainsOk kf s' (fun j =>
        if j ≤ K ∧ j < s.levels then
          (c j).filter (below kf s.heap (kf v)) ++
            s.heap.length :: (c j).dropWhile (below kf s.heap (kf v))
        else if j < s.levels then c j
        else [s.head, s.heap.length]) := by
  classical
  set x := kf v with hx
  have hL1 : 1 ≤ s.levels := hinv.one_le
  have hLN : s.levels - 1 < N := by
    have := hinv.le_N
    omega
  have hlev : ∀ j, j ≤ s.levels - 1 → j < s.levels := by omega
  have hhead_mem : s.head ∈ (c (s.levels - 1)).filter (below kf s.heap x) := by
    obtain ⟨tL, htL⟩ := (hc.isch _ (hlev _ (le_refl _))).eq_cons
    rw [htL]
    exact List.mem_filter.2 ⟨List.mem_cons_self .., by simp [below, hlt]⟩
  obtain ⟨T, hT, hTlen, hTspec⟩ :=
    descendT_go (x := x) hinv.wf hinv.head_lt c hLN
      (fun j hj => hc.isch j (hlev j hj))
      (fun j hj => hc.nest j (hlev _ hj))
      (fun j hj => hc.sorted_i (hlev j hj))
      (fun j hj => Nat.le_succ_of_le (hinv.length_le hc (hlev j hj)))
      hhead_mem
  have hTspecL : ∀ j, j < s.levels → T.getD j 0 = ((c j).filter (below kf s.heap x)).getLastD s.head :=
    fun j hj => hTspec j (by omega)
  have htr : ∀ j, j < s.levels →
      ((c j).filter (below kf s.heap x)).getLastD s.head ∈ (c j).filter (below kf s.heap x) ∧
      ((c j).filter (below kf s.heap x)).getLastD s.head ∈ c j ∧
      nxt s.heap (((c j).filter (below kf s.heap x)).getLastD s.head) j =
        ((c j).dropWhile (below kf s.heap x)).head? :=
    fun j hj => trace_next hinv hc hlt hj
  have hTmem : ∀ j, j < s.levels → T.getD j 0 ∈ c j := by
    intro j hj
    rw [hTspecL j hj]
    exact (htr j hj).2.1
  have hTnext : ∀ j, j < s.levels →
      nxt s.heap (T.getD j 0) j = ((c j).dropWhile (below kf s.heap x)).head? := by
    intro j hj
    rw [hTspecL j hj]
    exact (htr j hj).2.2
  -- the level-0 predecessor
  have hp0d : T.getD 0 s.head = T.getD 0 0 :=
    getD_default_irrel (by omega) _ _
  have hp0 : T.getD 0 s.head = ((c 0).filter (below kf s.heap x)).getLastD s.head := by
    rw [hp0d]
    exact hTspecL 0 hL1
  have hp0mem : T.getD 0 s.head ∈ c 0 := by
    rw [hp0]
    exact (htr 0 hL1).2.1
  have hp0lt : T.getD 0 s.head < s.heap.length :=
    hinv.mem_lt hc hL1 _ hp0mem
  have hp0next : nxt s.heap (T.getD 0 s.head) 0 = ((c 0).dropWhile (below kf s.heap x)).head? := by
    rw [hp0]
    exact (htr 0 hL1).2.2
  have hN1 : 1 ≤ N := le_trans hL1 hinv.le_N
  have hlenp0 : (nodeAt s.heap (T.getD 0 s.head)).nexts.length = N :=
    hinv.wf.nexts_length hp0lt
  have hread0 : (nodeAt s.heap (T.getD 0 s.head)).nexts[0]? =
      some (nxt s.heap (T.getD 0 s.head) 0) :=
    getElem?_eq_getD (by rw [hlenp0]; omega)
  -- the heap after the level-0 splice
  set h1 : Heap α :=
    (s.heap.set (T.getD 0 s.head)
      ⟨(nodeAt s.heap (T.getD 0 s.head)).val,
        (nodeAt s.heap (T.getD 0 s.head)).nexts.set 0 (some s.heap.length)⟩) ++
      [⟨v, (List.replicate N none).set 0 (nxt s.heap (T.getD 0 s.head) 0)⟩]
    with hh1
  have hmid1 : Mid kf N s x v c T 1 h1 s.levels := by
    have hlen1 : h1.length = s.heap.length + 1 := by simp [hh1]
    have hnode1cA : nodeAt h1 s.heap.length =
        ⟨v, (List.replicate N none).set 0 (nxt s.heap (T.getD 0 s.head) 0)⟩ := by
      rw [hh1]
      exact nodeAt_append_len (by simp) _
    have hnode1p0 : nodeAt h1 (T.getD 0 s.head) =
        ⟨(nodeAt s.heap (T.getD 0 s.head)).val,
          (nodeAt s.heap (T.getD 0 s.head)).nexts.set 0 (some s.heap.length)⟩ := by
      rw [hh1, nodeAt_append (by simpa using hp0lt), nodeAt_set_self hp0lt]
    have hnode1other : ∀ a, a < s.heap.length → a ≠ T.getD 0 s.head →
        nodeAt h1 a = nodeAt s.heap a := by
      intro a ha hne
      rw [hh1, nodeAt_append (by simpa using ha), nodeAt_set_ne hne]
    have hprev0 : prevAt s T 0 = T.getD 0 s.head := by
      rw [prevAt, if_pos (show 0 < s.levels by omega), hp0d]
    refine ⟨by omega, hlen1, ?_, by rw [hnode1cA], ?_, ?_, ?_⟩

    · -- well-formedness
      intro a ha
      rw [hlen1] at ha
      by_cases hacA : a = s.heap.length
      · subst hacA
        refine ⟨by rw [hnode1cA]; simp, ?_⟩
        intro j b hb
        rw [nxt, hnode1cA] at hb
        by_cases hj : j = 0
        · subst hj
          rw [getD_set_self (by simpa using hN1)] at hb
          rw [hp0next] at hb
          have hbm : b ∈ (c 0).dropWhile (below kf s.heap x) :=
            List.mem_of_mem_head? (hb ▸ rfl)
          have : b ∈ c 0 := (List.dropWhile_sublist _).mem hbm
          have := hinv.mem_lt hc hL1 b this
          rw [hlen1]
          omega
        · rw [getD_set_ne hj, getD_replicate_none] at hb
          cases hb
      · by_cases hap0 : a = T.getD 0 s.head
        · subst hap0
          refine ⟨by rw [hnode1p0]; simpa using hlenp0, ?_⟩
          intro j b hb
          rw [nxt, hnode1p0] at hb
          by_cases hj : j = 0
          · subst hj
            rw [getD_set_self (by rw [hlenp0]; omega)] at hb
            cases hb
            rw [hlen1]
            omega
          · rw [getD_set_ne hj] at hb
            have := hinv.wf.nxt_lt hp0lt
              (show nxt s.heap (T.getD 0 s.head) j = some b from hb)
            rw [hlen1]
            omega
        · refine ⟨?_, ?_⟩
          · rw [hnode1other a (by omega) hap0]
            exact hinv.wf.nexts_length (by omega)
          intro j b hb
          rw [nxt, hnode1other a (by omega) hap0] at hb
          have := hinv.wf.nxt_lt (a := a) (by omega) hb
          rw [hlen1]
          omega
    · intro a ha
      by_cases hap0 : a = T.getD 0 s.head
      · subst hap0
        rw [hnode1p0]
      · rw [hnode1other a ha hap0]
    · intro j
      rw [nxt, hnode1cA]
      by_cases hj : j = 0
      · subst hj
        rw [if_pos rfl, getD_set_self (by simpa using hN1)]
        exact hp0next
      · rw [if_neg hj, getD_set_ne hj, getD_replicate_none,
          if_neg (by omega)]
    · intro a ha j
      by_cases hcase : j < 1 ∧ a = prevAt s T j
      · obtain ⟨hj1, ha1⟩ := hcase
        have hj0 : j = 0 := by omega
        subst hj0
        rw [hprev0] at ha1
        subst ha1
        rw [if_pos ⟨by omega, by rw [hprev0]⟩, nxt, hnode1p0,
          getD_set_self (by rw [hlenp0]; omega)]
      · rw [if_neg hcase]
        by_cases hj0 : j = 0
        · subst hj0
          have hne : a ≠ T.getD 0 s.head := by
            intro hcon
            exact hcase ⟨by omega, by rw [hprev0]; exact hcon⟩
          rw [nxt, hnode1other a ha hne]
          rfl
        · by_cases hne : a = T.getD 0 s.head
          · subst hne
            rw [nxt, hnode1p0, getD_set_ne hj0]
            rfl
          · rw [nxt, hnode1other _ ha hne]
            rfl
  obtain ⟨h2, lv2, K, hloop, hK1, hK2, hmidK⟩ :=
    insLoop_spec (r := (s.rng.draw).1) hinv hc hTmem hTnext rfl N 1 h1 s.levels
      (le_refl 1) (by omega) (by omega) hmid1
  have heq : insertAt kf N s v T = some ⟨⟨s.rng.stream, s.rng.idx + 1⟩, s.head, lv2, h2⟩ := by
    rw [insertAt, hread0]
    simp only [Option.bind_eq_bind, Option.some_bind]
    rw [setNext_eq_some (by simpa using hN1)]
    simp only [Option.some_bind]
    rw [setNext_eq_some (by rw [hlenp0]; omega)]
    simp only [Option.some_bind]
    rw [show s.rng.draw = ((s.rng.draw).1, ⟨s.rng.stream, s.rng.idx + 1⟩) from rfl]
    rw [hloop]
    simp only [Option.some_bind]
    rfl
  have hlv2 : lv2 = max s.levels (K + 1) := hmidK.hlv
  have hvk2o : ∀ a, a < s.heap.length → vk kf h2 a = vk kf s.heap a := by
    intro a ha
    show kf (nodeAt h2 a).val = kf (nodeAt s.heap a).val
    rw [hmidK.hvalo a ha]
  have hvk2c : vk kf h2 s.heap.length = x := by
    show kf (nodeAt h2 s.heap.length).val = x
    rw [hmidK.hvalc, hx]
  have hAhead : ∀ j, j < s.levels →
      ∃ u, (c j).filter (below kf s.heap x) = s.head :: u := by
    intro j hj
    obtain ⟨tj, htj⟩ := (hc.isch j hj).eq_cons
    rw [htj, List.filter_cons_of_pos (by simp [below, hlt])]
    exact ⟨_, rfl⟩
  have hAne : ∀ j, j < s.levels → (c j).filter (below kf s.heap x) ≠ [] := by
    intro j hj
    obtain ⟨u, hu⟩ := hAhead j hj
    rw [hu]
    exact List.cons_ne_nil _ _
  have hprevAt : ∀ j, j < s.levels →
      prevAt s T j = ((c j).filter (below kf s.heap x)).getLastD s.head := by
    intro j hj
    rw [prevAt, if_pos hj]
    exact hTspecL j hj
  have hBge : ∀ j, j < s.levels → ∀ b ∈ (c j).dropWhile (below kf s.heap x),
      x ≤ vk kf s.heap b := by
    intro j hj b hb
    rw [(hc.sorted_i hj).dropWhile_filter] at hb
    have h1 := (List.mem_filter.1 hb).2
    simpa [below, not_lt] using h1
  have hmemA : ∀ j, j < s.levels →
      ∀ a ∈ (c j).filter (below kf s.heap x), a ∈ c j :=
    fun j hj a ha => (List.filter_sublist (c j)).mem ha
  have hmemB : ∀ j, j < s.levels →
      ∀ a ∈ (c j).dropWhile (below kf s.heap x), a ∈ c j :=
    fun j hj a ha => (List.dropWhile_sublist _).mem ha
  have hmemlt0 : ∀ a ∈ c 0, a < s.heap.length := hinv.mem_lt hc hL1
  have hmem_split : ∀ a, a ∈ (c 0).filter (below kf s.heap x) ++
      s.heap.length :: (c 0).dropWhile (below kf s.heap x) →
      a ∈ c 0 ∨ a = s.heap.length := by
    intro a ha
    rcases List.mem_append.1 ha with h1 | h1
    · exact Or.inl (hmemA 0 hL1 a h1)
    · rcases List.mem_cons.1 h1 with h2 | h2
      · exact Or.inr h2
      · exact Or.inl (hmemB 0 hL1 a h2)
  -- the chain of the spliced state at a spliced level
  have hchS : ∀ j, j ≤ K → j < s.levels →
      IsChain h2 j s.head
        ((c j).filter (below kf s.heap x) ++
          s.heap.length :: (c j).dropWhile (below kf s.heap x)) := by
    intro j hjK hjL
    refine isChain_splice
      ((sorted_split (x := x) (hc.sorted_i hjL)) ▸ hc.isch j hjL)
      ((sorted_split (x := x) (hc.sorted_i hjL)) ▸ hc.nodup_i hjL)
      (getLast?_eq_getLastD (hAne j hjL) s.head) ?_ ?_ ?_
    · intro a ha hne
      have haj : a ∈ c j := by
        rw [sorted_split (x := x) (hc.sorted_i hjL)]
        exact ha
      have hcond : ¬ (j < K + 1 ∧ a = prevAt s T j) := by
        rintro ⟨-, h2c⟩
        rw [hprevAt j hjL] at h2c
        exact hne h2c
      rw [hmidK.honxt a (hmemlt0 a (hc.mem_zero hjL haj)) j, if_neg hcond]
    · have hpm : ((c j).filter (below kf s.heap x)).getLastD s.head ∈ c j :=
        hmemA j hjL _ (getLastD_mem (hAne j hjL) s.head)
      rw [hmidK.honxt _ (hmemlt0 _ (hc.mem_zero hjL hpm)) j,
        if_pos ⟨by omega, (hprevAt j hjL).symm⟩]
    · rw [hmidK.hcnxt j]
      by_cases hj0 : j = 0
      · subst hj0
        rw [if_pos rfl]
      · rw [if_neg hj0, if_pos ⟨by omega, by omega, hjL⟩]
  -- the chain at an unspliced live level
  have hchU : ∀ j, K < j → j < s.levels → IsChain h2 j s.head (c j) := by
    intro j hjK hjL
    refine (hc.isch j hjL).congr ?_
    intro a ha
    rw [hmidK.honxt a (hmemlt0 a (hc.mem_zero hjL ha)) j, if_neg (by omega)]
  -- the chain at the grown level
  have hchG : s.levels ≤ K →
      IsChain h2 s.levels s.head [s.head, s.heap.length] := by
    intro hLK
    refine isChain_cons ?_ (isChain_singleton ?_)
    · rw [hmidK.honxt s.head hinv.head_lt s.levels,
        if_pos ⟨by omega, by rw [prevAt, if_neg (by omega)]⟩]
    · rw [hmidK.hcnxt s.levels, if_neg (by omega), if_neg (by omega)]
  have hok : ChainsOk kf ⟨⟨s.rng.stream, s.rng.idx + 1⟩, s.head, lv2, h2⟩
      (fun j => if j ≤ K ∧ j < s.levels then
          (c j).filter (below kf s.heap x) ++
            s.heap.length :: (c j).dropWhile (below kf s.heap x)
        else if j < s.levels then c j
        else [s.head, s.heap.length]) := by
    have hc0eq : (if 0 ≤ K ∧ 0 < s.levels then
          (c 0).filter (below kf s.heap x) ++
            s.heap.length :: (c 0).dropWhile (below kf s.heap x)
        else if 0 < s.levels then c 0
        else [s.head, s.heap.length]) =
        (c 0).filter (below kf s.heap x) ++
          s.heap.length :: (c 0).dropWhile (below kf s.heap x) :=
      if_pos ⟨Nat.zero_le K, hL1⟩
    refine ⟨?_, ?_, ?_, ?_, ?_, ?_⟩ <;> dsimp only
    · intro i hi
      rw [hlv2] at hi
      by_cases hiS : i ≤ K ∧ i < s.levels
      · rw [if_pos hiS]
        exact hchS i hiS.1 hiS.2
      · by_cases hiL : i < s.levels
        · rw [if_neg hiS, if_pos hiL]
          exact hchU i (by omega) hiL
        · rw [if_neg hiS, if_neg hiL]
          have hieq : i = s.levels := by omega
          subst hieq
          exact hchG (by omega)
    · rw [hc0eq, List.nodup_middle, List.nodup_cons]
      refine ⟨?_, ?_⟩
      · intro hm
        rw [← sorted_split (x := x) hc.sorted] at hm
        exact absurd (hmemlt0 _ hm) (lt_irrefl _)
      · rw [← sorted_split (x := x) hc.sorted]
        exact hc.nodup
    · rw [hc0eq, SortedKeys, List.pairwise_append]
      refine ⟨?_, ?_, ?_⟩
      · refine List.Pairwise.imp_of_mem ?_
          (hc.sorted.sublist (List.filter_sublist (c 0)))
        intro a b ha hb hab
        show vk kf h2 a ≤ vk kf h2 b
        rw [hvk2o a (hmemlt0 a (hmemA 0 hL1 a ha)),
          hvk2o b (hmemlt0 b (hmemA 0 hL1 b hb))]
        exact hab
      · rw [List.pairwise_cons]
        refine ⟨?_, ?_⟩
        · intro b hb
          show vk kf h2 s.heap.length ≤ vk kf h2 b
          rw [hvk2c, hvk2o b (hmemlt0 b (hmemB 0 hL1 b hb))]
          exact hBge 0 hL1 b hb
        · refine List.Pairwise.imp_of_mem ?_
            (hc.sorted.sublist (List.dropWhile_sublist _))
          intro a b ha hb hab
          show vk kf h2 a ≤ vk kf h2 b
          rw [hvk2o a (hmemlt0 a (hmemB 0 hL1 a ha)),
            hvk2o b (hmemlt0 b (hmemB 0 hL1 b hb))]
          exact hab
      · intro a ha b hb
        have hax : vk kf h2 a < x := by
          rw [hvk2o a (hmemlt0 a (hmemA 0 hL1 a ha))]
          have h1 := (List.mem_filter.1 ha).2
          simpa [below] using h1
        rcases List.mem_cons.1 hb with rfl | hbB
        · show vk kf h2 a ≤ vk kf h2 s.heap.length
          rw [hvk2c]
          exact le_of_lt hax
        · show vk kf h2 a ≤ vk kf h2 b
          refine le_of_lt (lt_of_lt_of_le hax ?_)
          rw [hvk2o b (hmemlt0 b (hmemB 0 hL1 b hbB))]
          exact hBge 0 hL1 b hbB
    · intro i hi
      rw [hlv2] at hi
      by_cases hS1 : i + 1 ≤ K ∧ i + 1 < s.levels
      · rw [if_pos hS1, if_pos (show i ≤ K ∧ i < s.levels by omega)]
        refine List.Sublist.append ((hc.nest i hS1.2).filter _) ?_
        rw [List.cons_sublist_cons, (hc.sorted_i hS1.2).dropWhile_filter,
          (hc.sorted_i (show i < s.levels by omega)).dropWhile_filter]
        exact (hc.nest i hS1.2).filter _
      · by_cases hS2 : i + 1 < s.levels
        · rw [if_neg hS1, if_pos hS2]
          by_cases hS3 : i ≤ K ∧ i < s.levels
          · rw [if_pos hS3]
            refine (hc.nest i hS2).trans ?_
            have h1 : (c i).filter (below kf s.heap x) ++
                (c i).dropWhile (below kf s.heap x) <+
                (c i).filter (below kf s.heap x) ++
                  s.heap.length :: (c i).dropWhile (below kf s.heap x) :=
              List.Sublist.append (List.Sublist.refl _)
                (List.sublist_cons_self _ _)
            rw [← sorted_split (x := x) (hc.sorted_i hS3.2)] at h1
            exact h1
          · rw [if_neg hS3, if_pos (show i < s.levels by omega)]
            exact hc.nest i hS2
        · rw [if_neg hS1, if_neg hS2]
          have hiK : i ≤ K := by omega
          have hiL : i < s.levels := by omega
          rw [if_pos ⟨hiK, hiL⟩]
          obtain ⟨u, hu⟩ := hAhead i hiL
          rw [hu, List.cons_append, List.cons_sublist_cons]
          exact List.Sublist.trans
            (List.cons_sublist_cons.2 (List.nil_sublist _))
            (List.sublist_append_right u _)
    · intro a ha i hige
      rw [hc0eq] at ha
      rw [hlv2] at hige
      rcases hmem_split a ha with ha0 | rfl
      · rw [hmidK.honxt a (hmemlt0 a ha0) i, if_neg (by omega)]
        exact hc.high a ha0 i (by omega)
      · rw [hmidK.hcnxt i, if_neg (by omega), if_neg (by omega)]
    · intro a ha i hilt hne
      rw [hc0eq] at ha
      rw [hlv2] at hilt
      rcases hmem_split a ha with ha0 | rfl
      · rw [hmidK.honxt a (hmemlt0 a ha0) i] at hne
        by_cases hcase : i < K + 1 ∧ a = prevAt s T i
        · obtain ⟨hiK, hap⟩ := hcase
          by_cases hiL : i < s.levels
          · rw [if_pos ⟨by omega, hiL⟩]
            refine List.mem_append_left _ ?_
            rw [hap, hprevAt i hiL]
            exact getLastD_mem (hAne i hiL) s.head
          · rw [if_neg (fun hcon => hiL hcon.2), if_neg hiL]
            rw [hap, prevAt, if_neg hiL]
            exact List.mem_cons_self ..
        · rw [if_neg hcase] at hne
          have hiL : i < s.levels := by
            by_contra hige
            exact hne (hc.high a ha0 i (by omega))
          have hmemi : a ∈ c i := hc.tower a ha0 i hiL hne
          by_cases hiK : i ≤ K
          · rw [if_pos ⟨hiK, hiL⟩]
            rw [sorted_split (x := x) (hc.sorted_i hiL)] at hmemi
            rcases List.mem_append.1 hmemi with h1 | h1
            · exact List.mem_append_left _ h1
            · exact List.mem_append_right _ (List.mem_cons_of_mem _ h1)
          · rw [if_neg (fun hcon => hiK hcon.1), if_pos hiL]
            exact hmemi
      · rw [hmidK.hcnxt i] at hne
        by_cases hi0 : i = 0
        · subst hi0
          rw [hc0eq]
          exact List.mem_append_right _ (List.mem_cons_self ..)
        · rw [if_neg hi0] at hne
          by_cases hcase : 1 ≤ i ∧ i < K + 1 ∧ i < s.levels
          · rw [if_pos ⟨by omega, hcase.2.2⟩]
            exact List.mem_append_right _ (List.mem_cons_self ..)
          · rw [if_neg hcase] at hne
            exact absurd rfl hne
  have hinv2 : Inv kf N ⟨⟨s.rng.stream, s.rng.idx + 1⟩, s.head, lv2, h2⟩ := by
    refine ⟨?_, ?_, ?_, hmidK.hwf, ⟨_, hok⟩⟩
    · show 1 ≤ lv2
      rw [hlv2]
      omega
    · show lv2 ≤ N
      rw [hlv2]
      have h1 := hinv.le_N
      omega
    · show s.head < h2.length
      rw [hmidK.hlen]
      have h1 := hinv.head_lt
      omega
  exact ⟨T, ⟨⟨s.rng.stream, s.rng.idx + 1⟩, s.head, lv2, h2⟩, K, hT, heq, rfl, rfl,
    hmidK.hlv, hK2, hmidK.hlen, hmidK.hvalc, fun a ha => hmidK.hvalo a ha,
    hinv2, hok⟩
/-- `NonEmptySkipList::insert`, both branches: it succeeds under the
invariant, preserves it, grows `levels` by at most one, draws one random
word exactly when the head key is below the inserted key, and adds the
inserted key to the multiset of keys. -/
theorem insertS_spec {kf : α → κ} {N : Nat} {s : Storage α}
    (hinv : Inv kf N s) (v : α) :
    ∃ s', insertS kf N s v = some s' ∧
      Inv kf N s' ∧
      s.levels ≤ s'.levels ∧ s'.levels ≤ s.levels + 1 ∧
      s'.rng = (if vk kf s.heap s.head < kf v
        then ⟨s.rng.stream, s.rng.idx + 1⟩ else s.rng) ∧
      (keysL kf s' : Multiset κ) = kf v ::ₘ (keysL kf s : Multiset κ) := by
  obtain ⟨c, hc⟩ := hinv.chainsOk
  by_cases hge : vk kf s.heap s.head ≥ kf v
  · obtain ⟨s', heq, hrng, hlev, hhd, hlen, hvalh, hvalo, hn0, hhi, hok, hinv'⟩ :=
      insertHead_spec hinv hc hge
    refine ⟨s', ?_, hinv', ?_, ?_, ?_, ?_⟩
    · rw [insertS, if_pos hge]
      exact heq
    · rw [hlev]
    · rw [hlev]
      omega
    · rw [if_neg (not_lt.2 hge), hrng]
    · have hch' : chains s' 0 = s.heap.length :: c 0 :=
        (hinv'.chains_eq hok hinv'.one_le).trans (if_pos rfl)
      have hch : chains s 0 = c 0 := hinv.chains_eq hc hinv.one_le
      have hkeys' : keysL kf s' = kf v :: keysL kf s := by
        rw [keysL, keysL, hch', hch, List.map_cons]
        congr 1
        · show kf (nodeAt s'.heap s.heap.length).val = kf v
          rw [← hhd, hvalh]
        · refine List.map_congr_left ?_
          intro a ha
          show kf (nodeAt s'.heap a).val = kf (nodeAt s.heap a).val
          rw [hvalo a (hinv.mem_lt hc hinv.one_le a ha)]
      rw [hkeys', Multiset.cons_coe]
  · have hlt : vk kf s.heap s.head < kf v := not_le.1 hge
    obtain ⟨T, s', K, hT, heq, hrng, hhd, hlev, hK2, hlen, hvalc, hvalo, hinv', hok⟩ :=
      insertAt_spec hinv hc hlt
    refine ⟨s', ?_, hinv', ?_, ?_, ?_, ?_⟩
    · rw [insertS, if_neg hge]
      simp only [Option.bind_eq_bind]
      rw [hT]
      simp only [Option.some_bind]
      exact heq
    · rw [hlev]
      omega
    · rw [hlev]
      omega
    · rw [if_pos hlt, hrng]
    · have hch' : chains s' 0 =
          (c 0).filter (below kf s.heap (kf v)) ++
            s.heap.length :: (c 0).dropWhile (below kf s.heap (kf v)) :=
        (hinv'.chains_eq hok hinv'.one_le).trans
          (if_pos ⟨Nat.zero_le K, hinv.one_le⟩)
      have hch : chains s 0 = c 0 := hinv.chains_eq hc hinv.one_le
      have hmap : ∀ l : List Nat, (∀ a ∈ l, a ∈ c 0) →
          l.map (vk kf s'.heap) = l.map (vk kf s.heap) := by
        intro l hl
        refine List.map_congr_left ?_
        intro a ha
        show kf (nodeAt s'.heap a).val = kf (nodeAt s.heap a).val
        rw [hvalo a (hinv.mem_lt hc hinv.one_le a (hl a ha))]
      have hvknew : vk kf s'.heap s.heap.length = kf v := by
        show kf (nodeAt s'.heap s.heap.length).val = kf v
        rw [hvalc]
      rw [keysL, keysL, hch', hch, List.map_append, List.map_cons, hvknew,
        hmap _ (fun a ha => (List.filter_sublist _).mem ha),
        hmap _ (fun a ha => (List.dropWhile_sublist _).mem ha),
        show (c 0).map (vk kf s.heap) =
            ((c 0).filter (below kf s.heap (kf v))).map (vk kf s.heap) ++
              ((c 0).dropWhile (below kf s.heap (kf v))).map (vk kf s.heap) by
          rw [← List.map_append, ← sorted_split (x := kf v) hc.sorted],
        Multiset.cons_coe, Multiset.coe_eq_coe]
      exact List.perm_middle

end SpliceInsert

/-! ### Removal -/

section Remove

variable {α κ : Type} [Inhabited α] [LinearOrder κ]

/-- The level-`i` link of a chain's head is the head of its tail. -/
theorem IsChain.head_nxt {h : Heap α} {i hd : Nat} {l : List Nat}
    (hc : IsChain h i hd l) : nxt h hd i = l.tail.head? := by
  obtain ⟨t, rfl⟩ := hc.eq_cons
  cases t with
  | nil => exact hc.last_nxt (show [hd].getLast? = some hd by simp)
  | cons b u => exact hc.tail.1

/-- A chain whose head has no link is the singleton of its head. -/
theorem IsChain.eq_singleton {h : Heap α} {i hd : Nat} {l : List Nat}
    (hc : IsChain h i hd l) (hn : nxt h hd i = none) : l = [hd] := by
  obtain ⟨t, rfl⟩ := hc.eq_cons
  cases t with
  | nil => rfl
  | cons b u =>
    rw [hc.tail.1] at hn
    exact Option.noConfusion hn

/-- In a sublist of `a :: r` that contains `a`, with `a` not in `r`,
`a` comes first. -/
theorem head?_of_sublist_cons {l r : List Nat} {a : Nat}
    (hs : l <+ a :: r) (hm : a ∈ l) (ha : a ∉ r) : l.head? = some a := by
  cases hs with
  | cons a' h => exact absurd (h.mem hm) ha
  | cons₂ h => rfl

theorem sublist_of_cons_not_mem {l r : List Nat} {a : Nat}
    (hs : l <+ a :: r) (ha : a ∉ l) : l <+ r := by
  cases hs with
  | cons a' h => exact h
  | cons₂ h => exact absurd (List.mem_cons_self ..) ha

theorem sublist_remove_middle {l u w : List Nat} {a : Nat}
    (hs : l <+ u ++ a :: w) (ha : a ∉ l) : l <+ u ++ w := by
  rw [List.sublist_append_iff] at hs
  obtain ⟨r1, r2, rfl, h1, h2⟩ := hs
  refine List.Sublist.append h1 (sublist_of_cons_not_mem h2 ?_)
  intro hm
  exact ha (List.mem_append_right _ hm)

/-- Chain membership is downward closed in the level. -/
theorem ChainsOk.mem_down {kf : α → κ} {s : Storage α} {c : Nat → List Nat}
    (hc : ChainsOk kf s c) {a : Nat} :
    ∀ d i, i + d < s.levels → a ∈ c (i + d) → a ∈ c i := by
  intro d
  induction d with
  | zero => exact fun i _ h => h
  | succ e ih =>
    intro i hie ha
    exact ih i (by omega) ((hc.nest (i + e) (by omega)).mem ha)

theorem ChainsOk.mem_le {kf : α → κ} {s : Storage α} {c : Nat → List Nat}
    (hc : ChainsOk kf s c) {a i j : Nat} (hij : i ≤ j) (hj : j < s.levels)
    (ha : a ∈ c j) : a ∈ c i := by
  have h1 : a ∈ c (i + (j - i)) := by
    rw [show i + (j - i) = j by omega]
    exact ha
  exact hc.mem_down (j - i) i (by omega) h1

/-- The level-shrinking loop: it stops at a live link (or at one), below its
start, and every level from the result up to the start is empty at the head. -/
theorem shrink_spec {N : Nat} {h : Heap α} {hd : Nat}
    (hlen : (nodeAt h hd).nexts.length = N) :
    ∀ fuel lv, 1 ≤ lv → lv ≤ N → lv ≤ fuel + 1 →
      ∃ lv', shrink h hd fuel lv = some lv' ∧ 1 ≤ lv' ∧ lv' ≤ lv ∧
        (∀ i, lv' ≤ i → i < lv → nxt h hd i = none) ∧
        (lv' = 1 ∨ nxt h hd (lv' - 1) ≠ none) := by
  intro fuel
  induction fuel with
  | zero =>
    intro lv h1 hN hf
    have hlv : lv = 1 := by omega
    subst hlv
    exact ⟨1, rfl, le_refl 1, le_refl 1,
      fun i hi1 hi2 => absurd hi2 (by omega), Or.inl rfl⟩
  | succ f ih =>
    intro lv h1 hN hf
    by_cases hlv1 : lv ≤ 1
    · have hlv : lv = 1 := by omega
      subst hlv
      exact ⟨1, by rw [shrink, if_pos hlv1], le_refl 1, le_refl 1,
        fun i hi1 hi2 => absurd hi2 (by omega), Or.inl rfl⟩
    · have hread : (nodeAt h hd).nexts[lv - 1]? = some (nxt h hd (lv - 1)) :=
        getElem?_eq_getD (by rw [hlen]; omega)
      cases hln : nxt h hd (lv - 1) with
      | none =>
        obtain ⟨lv', heq, hl1, hl2, hint, hdisj⟩ :=
          ih (lv - 1) (by omega) (by omega) (by omega)
        refine ⟨lv', ?_, hl1, by omega, ?_, hdisj⟩
        · rw [shrink, if_neg hlv1]
          simp only [Option.bind_eq_bind]
          rw [hread]
          simp only [Option.some_bind]
          rw [hln]
          exact heq
        · intro i hi1 hi2
          rcases Nat.lt_or_ge i (lv - 1) with hcase | hcase
          · exact hint i hi1 hcase
          · have hieq : i = lv - 1 := by omega
            rw [hieq]
            exact hln
      | some b =>
        refine ⟨lv, ?_, by omega, le_refl lv,
          fun i hi1 hi2 => absurd hi2 (by omega), Or.inr (by rw [hln]; simp)⟩
        rw [shrink, if_neg hlv1]
        simp only [Option.bind_eq_bind]
        rw [hread]
        simp only [Option.some_bind]
        rw [hln]

/-- Removing the node after the last element of a prefix: the chain with the
victim dropped is a chain of the updated heap. -/
theorem isChain_unsplice {h h' : Heap α} {i cv : Nat} {B : List Nat} :
    ∀ {A : List Nat} {hd p : Nat},
      IsChain h i hd (A ++ cv :: B) → (A ++ cv :: B).Nodup →
      A.getLast? = some p →
      (∀ a ∈ A ++ B, a ≠ p → nxt h' a i = nxt h a i) →
      nxt h' p i = B.head? →
      IsChain h' i hd (A ++ B) := by
  intro A
  induction A with
  | nil => intro hd p _ _ hAp _ _; cases hAp
  | cons a A1 ih =>
    intro hd p hold hnd hAp hsame hp
    have hahd : a = hd := by
      have h1 := hold.1
      rw [List.cons_append, List.head?_cons] at h1
      exact Option.some_inj.1 h1
    cases hA1 : A1 with
    | nil =>
      subst hA1
      have hpa : a = p := by simpa using hAp
      cases hB : B with
      | nil =>
        subst hB
        show IsChain h' i hd [a]
        refine (isChain_singleton ?_).with_head hahd
        rw [hpa]
        exact hp
      | cons b B2 =>
        subst hB
        have hold2 : IsChain h i a (a :: cv :: b :: B2) :=
          hold.head_align (by rw [List.singleton_append, List.head?_cons])
        obtain ⟨hx, htl⟩ := hold2.tail
        obtain ⟨hx2, htl2⟩ := htl.tail
        show IsChain h' i hd (a :: b :: B2)
        refine (isChain_cons (show nxt h' a i = some b by rw [hpa]; exact hp)
          (htl2.congr ?_)).with_head hahd
        intro z hz
        refine hsame z (by
          rw [List.singleton_append]
          exact List.mem_cons_of_mem _ hz) ?_
        have hnd2 : a ∉ cv :: b :: B2 := by
          rw [List.singleton_append, List.nodup_cons] at hnd
          exact hnd.1
        intro hcon
        exact hnd2 (List.mem_cons_of_mem _ ((hcon.trans hpa.symm) ▸ hz))
    | cons a1 A2 =>
      subst hA1
      have hAp2 : (a1 :: A2).getLast? = some p := by
        rw [List.getLast?_cons_cons] at hAp
        exact hAp
      have hpmem : p ∈ a1 :: A2 := List.mem_of_getLast?_eq_some hAp2
      have hanotin : a ∉ (a1 :: A2) ++ cv :: B := by
        rw [List.cons_append, List.nodup_cons] at hnd
        exact hnd.1
      have hanep : a ≠ p := fun hcon =>
        hanotin (List.mem_append_left _ (hcon ▸ hpmem))
      have hold2 : IsChain h i a (a :: a1 :: (A2 ++ cv :: B)) :=
        hold.head_align (by rw [List.cons_append, List.head?_cons])
      obtain ⟨hx, htl⟩ := hold2.tail
      have hx2 : nxt h' a i = some a1 := by
        rw [hsame a (by rw [List.cons_append]; exact List.mem_cons_self ..) hanep]
        exact hx
      have hold3 : IsChain h i a1 ((a1 :: A2) ++ cv :: B) := htl
      have hnd3 : ((a1 :: A2) ++ cv :: B).Nodup := by
        rw [List.cons_append, List.nodup_cons] at hnd
        exact hnd.2
      have hsame3 : ∀ z ∈ (a1 :: A2) ++ B, z ≠ p → nxt h' z i = nxt h z i := by
        intro z hz hzp
        exact hsame z (by rw [List.cons_append]; exact List.mem_cons_of_mem _ hz) hzp
      have hrec := ih hold3 hnd3 hAp2 hsame3 hp
      exact (isChain_cons hx2 hrec).with_head hahd

/-- The head-inheritance loop of the Equal removal case: processing levels
`L` down to `1`, it copies the old head's links into the new head exactly at
the levels not already containing the new head; all other slots keep their
original contents. -/
theorem inheritLoop_spec {kf : α → κ} {N : Nat} {s : Storage α}
    (hinv : Inv kf N s) {c : Nat → List Nat} (hc : ChainsOk kf s c)
    {nh : Nat} {r0 : List Nat} (h0 : c 0 = s.head :: nh :: r0) :
    ∀ (L : Nat) (h : Heap α),
      L < s.levels →
      h.length = s.heap.length →
      (∀ a, a ≠ nh → nodeAt h a = nodeAt s.heap a) →
      (nodeAt h nh).val = (nodeAt s.heap nh).val →
      (nodeAt h nh).nexts.length = (nodeAt s.heap nh).nexts.length →
      (∀ j, L + 1 ≤ j → j < s.levels → nh ∉ c j →
        nxt h nh j = ((c j).tail).head?) →
      (∀ j, j ≤ L ∨ s.levels ≤ j ∨ nh ∈ c j →
        nxt h nh j = nxt s.heap nh j) →
      ∃ h', inheritLoop (nodeAt s.heap s.head) nh h L = some h' ∧
        h'.length = s.heap.length ∧
        (∀ a, a ≠ nh → nodeAt h' a = nodeAt s.heap a) ∧
        (nodeAt h' nh).val = (nodeAt s.heap nh).val ∧
        (nodeAt h' nh).nexts.length = (nodeAt s.heap nh).nexts.length ∧
        (∀ j, 1 ≤ j → j < s.levels → nh ∉ c j →
          nxt h' nh j = ((c j).tail).head?) ∧
        (∀ j, s.levels ≤ j ∨ nh ∈ c j → nxt h' nh j = nxt s.heap nh j) := by
  have hnh0 : nh ∈ c 0 := by
    rw [h0]
    exact List.mem_cons_of_mem _ (List.mem_cons_self ..)
  have hnhlt : nh < s.heap.length := hinv.mem_lt hc hinv.one_le nh hnh0
  have hheadne : s.head ≠ nh := by
    have hnd := hc.nodup
    rw [h0, List.nodup_cons] at hnd
    intro hcon
    exact hnd.1 (hcon ▸ List.mem_cons_self ..)
  have hhl : (nodeAt s.heap s.head).nexts.length = N :=
    hinv.wf.nexts_length hinv.head_lt
  have hmem_iff : ∀ j, 1 ≤ j → j < s.levels →
      (nh ∈ c j ↔ ((c j).tail).head? = some nh) := by
    intro j hj1 hjL
    constructor
    · intro hmem
      obtain ⟨tj, htj⟩ := (hc.isch j hjL).eq_cons
      have hsub : tj <+ nh :: r0 := by
        have h1 := hc.sub_zero j hjL
        rw [htj, h0, List.cons_sublist_cons] at h1
        exact h1
      have hnhr0 : nh ∉ r0 := by
        have hnd := hc.nodup
        rw [h0, List.nodup_cons, List.nodup_cons] at hnd
        exact hnd.2.1
      have hmemt : nh ∈ tj := by
        rw [htj] at hmem
        rcases List.mem_cons.1 hmem with hcon | hm
        · exact absurd hcon.symm hheadne
        · exact hm
      rw [htj]
      exact head?_of_sublist_cons hsub hmemt hnhr0
    · intro hhead
      have : nh ∈ (c j).tail := List.mem_of_mem_head? hhead
      exact (List.tail_sublist (c j)).mem this
  intro L
  induction L with
  | zero =>
    intro h hL hlen hA hval hnlen hH3 hH4
    refine ⟨h, rfl, hlen, hA, hval, hnlen, fun j hj1 hjL hnot => hH3 j hj1 hjL hnot,
      fun j hj => hH4 j (Or.inr hj)⟩
  | succ L ih =>
    intro h hL hlen hA hval hnlen hH3 hH4
    have hLs : L + 1 < s.levels := hL
    have hreadho : (nodeAt s.heap s.head).nexts[L + 1]? =
        some (nxt s.heap s.head (L + 1)) :=
      getElem?_eq_getD (by rw [hhl]; have := hinv.le_N; omega)
    have hreadh0 : (nodeAt s.heap s.head).nexts[0]? =
        some (nxt s.heap s.head 0) :=
      getElem?_eq_getD (by rw [hhl]; have := hinv.le_N; have := hinv.one_le; omega)
    have hnhlen : (nodeAt h nh).nexts.length = N := by
      rw [hnlen]
      exact hinv.wf.nexts_length hnhlt
    have hreadcur : (nodeAt h nh).nexts[L + 1]? = some (nxt h nh (L + 1)) :=
      getElem?_eq_getD (by rw [hnhlen]; have := hinv.le_N; omega)
    have hh0v : nxt s.heap s.head 0 = some nh := by
      rw [(hc.isch 0 hinv.one_le).head_nxt, h0]
      rfl
    have hhov : nxt s.heap s.head (L + 1) = ((c (L + 1)).tail).head? :=
      (hc.isch (L + 1) hLs).head_nxt
    have hcurv : nxt h nh (L + 1) = nxt s.heap nh (L + 1) :=
      hH4 (L + 1) (Or.inl (le_refl _))
    have hcond_iff :
        (nxt s.heap s.head (L + 1) = nxt s.heap s.head 0 ∨
          (nxt h nh (L + 1)).isSome) ↔ nh ∈ c (L + 1) := by
      constructor
      · intro hor
        rcases hor with hfst | hsnd
        · rw [hhov, hh0v] at hfst
          exact (hmem_iff (L + 1) (by omega) hLs).2 hfst
        · rw [hcurv] at hsnd
          have hne : nxt s.heap nh (L + 1) ≠ none := by
            intro hcon
            rw [hcon] at hsnd
            exact Bool.noConfusion hsnd
          exact hc.tower nh hnh0 (L + 1) hLs hne
      · intro hmem
        refine Or.inl ?_
        rw [hhov, hh0v]
        exact (hmem_iff (L + 1) (by omega) hLs).1 hmem
    by_cases hmem : nh ∈ c (L + 1)
    · refine ⟨h, ?_, hlen, hA, hval, hnlen, ?_, fun j hj => hH4 j (Or.inr hj)⟩
      · rw [inheritLoop]
        simp only [Option.bind_eq_bind]
        rw [hreadho]
        simp only [Option.some_bind]
        rw [hreadh0]
        simp only [Option.some_bind]
        rw [hreadcur]
        simp only [Option.some_bind]
        rw [if_pos (hcond_iff.2 hmem)]
      · intro j hj1 hjL hnot
        rcases Nat.lt_or_ge j (L + 2) with hcase | hcase
        · exact absurd (hc.mem_le (by omega) hLs hmem) hnot
        · exact hH3 j hcase hjL hnot
    · have hwrite : setNext (nodeAt h nh) (L + 1) (nxt s.heap s.head (L + 1)) =
          some ⟨(nodeAt h nh).val,
            (nodeAt h nh).nexts.set (L + 1) (nxt s.heap s.head (L + 1))⟩ :=
        setNext_eq_some (by rw [hnhlen]; have := hinv.le_N; omega) _
      have hnhlt2 : nh < h.length := by rw [hlen]; exact hnhlt
      obtain ⟨h', heq, hrest⟩ := ih
        (h.set nh ⟨(nodeAt h nh).val,
          (nodeAt h nh).nexts.set (L + 1) (nxt s.heap s.head (L + 1))⟩)
        (by omega)
        (by rw [List.length_set]; exact hlen)
        (fun a ha => by rw [nodeAt_set_ne ha]; exact hA a ha)
        (by rw [nodeAt_set_self hnhlt2]; exact hval)
        (by rw [nodeAt_set_self hnhlt2]; simpa using hnlen)
        (by
          intro j hj1 hjL hnot
          rw [nxt, nodeAt_set_self hnhlt2]
          rcases Nat.lt_or_ge j (L + 2) with hcase | hcase
          · have hjeq : j = L + 1 := by omega
            subst hjeq
            rw [getD_set_self (by rw [hnhlen]; have := hinv.le_N; omega)]
            rw [hhov]
          · rw [getD_set_ne (by omega)]
            exact hH3 j hcase hjL hnot)
        (by
          intro j hj
          rw [nxt, nodeAt_set_self hnhlt2]
          have hjne : j ≠ L + 1 := by
            rcases hj with hj | hj | hj
            · omega
            · omega
            · intro hcon
              exact hmem (hcon ▸ hj)
          rw [getD_set_ne hjne]
          refine hH4 j ?_
          rcases hj with hj | hj | hj
          · exact Or.inl (by omega)
          · exact Or.inr (Or.inl hj)
          · exact Or.inr (Or.inr hj))
      refine ⟨h', ?_, hrest⟩
      rw [inheritLoop]
      simp only [Option.bind_eq_bind]
      rw [hreadho]
      simp only [Option.some_bind]
      rw [hreadh0]
      simp only [Option.some_bind]
      rw [hreadcur]
      simp only [Option.some_bind]
      rw [if_neg (fun hcon => hmem (hcond_iff.1 hcon))]
      rw [hwrite]
      simp only [Option.some_bind]
      exact heq

/-- Membership of the new head in a higher chain is equivalent to it being
the second element there. -/
theorem mem_iff_tail_head {kf : α → κ} {s : Storage α} {c : Nat → List Nat}
    (hc : ChainsOk kf s c) {nh : Nat} {r0 : List Nat}
    (h0 : c 0 = s.head :: nh :: r0) {j : Nat} (hj1 : 1 ≤ j)
    (hjL : j < s.levels) :
    nh ∈ c j ↔ ((c j).tail).head? = some nh := by
  have hheadne : s.head ≠ nh := by
    have hnd := hc.nodup
    rw [h0, List.nodup_cons] at hnd
    intro hcon
    exact hnd.1 (hcon ▸ List.mem_cons_self ..)
  constructor
  · intro hmem
    obtain ⟨tj, htj⟩ := (hc.isch j hjL).eq_cons
    have hsub : tj <+ nh :: r0 := by
      have h1 := hc.sub_zero j hjL
      rw [htj, h0, List.cons_sublist_cons] at h1
      exact h1
    have hnhr0 : nh ∉ r0 := by
      have hnd := hc.nodup
      rw [h0, List.nodup_cons, List.nodup_cons] at hnd
      exact hnd.2.1
    have hmemt : nh ∈ tj := by
      rw [htj] at hmem
      rcases List.mem_cons.1 hmem with hcon | hm
      · exact absurd hcon.symm hheadne
      · exact hm
    rw [htj]
    exact head?_of_sublist_cons hsub hmemt hnhr0
  · intro hhead
    exact (List.tail_sublist (c j)).mem (List.mem_of_mem_head? hhead)

/-- Head removal (Equal case): the inheritance loop and the shrink both
succeed, the invariant holds at the new head, and the keys lose exactly the
old head's key. -/
theorem removeHead_spec {kf : α → κ} {N : Nat} {s : Storage α}
    (hinv : Inv kf N s) {c : Nat → List Nat} (hc : ChainsOk kf s c)
    {nh : Nat} {r0 : List Nat} (h0 : c 0 = s.head :: nh :: r0) :
    ∃ h' lv',
      inheritLoop (nodeAt s.heap s.head) nh s.heap (s.levels - 1) = some h' ∧
      shrink h' nh s.levels s.levels = some lv' ∧
      Inv kf N ⟨s.rng, nh, lv', h'⟩ ∧
      keysL kf ⟨s.rng, nh, lv', h'⟩ = (keysL kf s).tail := by
  have hnh0 : nh ∈ c 0 := by
    rw [h0]
    exact List.mem_cons_of_mem _ (List.mem_cons_self ..)
  have hnhlt : nh < s.heap.length := hinv.mem_lt hc hinv.one_le nh hnh0
  have hLN := hinv.le_N
  have hL1 := hinv.one_le
  have hheadne : s.head ≠ nh := by
    have hnd := hc.nodup
    rw [h0, List.nodup_cons] at hnd
    intro hcon
    exact hnd.1 (hcon ▸ List.mem_cons_self ..)
  have hnhr0 : nh ∉ r0 := by
    have hnd := hc.nodup
    rw [h0, List.nodup_cons, List.nodup_cons] at hnd
    exact hnd.2.1
  have hheadr0 : s.head ∉ r0 := by
    have hnd := hc.nodup
    rw [h0, List.nodup_cons] at hnd
    intro hcon
    exact hnd.1 (List.mem_cons_of_mem _ hcon)
  obtain ⟨h', heq, hlen, hA, hval, hnlen, hN3, hN4⟩ :=
    inheritLoop_spec hinv hc h0 (s.levels - 1) s.heap (by omega) rfl
      (fun a ha => rfl) rfl rfl
      (fun j hj1 hjL hnot => by omega)
      (fun j hj => rfl)
  have hvk : ∀ a, vk kf h' a = vk kf s.heap a := by
    intro a
    by_cases ha : a = nh
    · subst ha
      show kf (nodeAt h' a).val = kf (nodeAt s.heap a).val
      rw [hval]
    · show kf (nodeAt h' a).val = kf (nodeAt s.heap a).val
      rw [hA a ha]
  have hnxtA : ∀ a, a ≠ nh → ∀ j, nxt h' a j = nxt s.heap a j := by
    intro a ha j
    rw [nxt, nxt, hA a ha]
  have hnhlenN : (nodeAt h' nh).nexts.length = N := by
    rw [hnlen]
    exact hinv.wf.nexts_length hnhlt
  have hwf : HeapWF N h' := by
    intro a ha
    rw [hlen] at ha
    by_cases hanh : a = nh
    · subst hanh
      refine ⟨hnhlenN, ?_⟩
      intro j b hb
      rw [hlen]
      by_cases hjL : j < s.levels
      · by_cases hj0 : j = 0
        · subst hj0
          rw [hN4 0 (Or.inr hnh0)] at hb
          exact hinv.wf.nxt_lt hnhlt hb
        · by_cases hmem : a ∈ c j
          · rw [hN4 j (Or.inr hmem)] at hb
            exact hinv.wf.nxt_lt hnhlt hb
          · rw [hN3 j (by omega) hjL hmem] at hb
            have hbm : b ∈ (c j).tail := List.mem_of_mem_head? hb
            exact hinv.mem_lt hc hjL b ((List.tail_sublist _).mem hbm)
      · rw [hN4 j (Or.inl (by omega))] at hb
        exact hinv.wf.nxt_lt hnhlt hb
    · refine ⟨?_, ?_⟩
      · rw [hA a hanh]
        exact hinv.wf.nexts_length (by omega)
      · intro j b hb
        rw [hnxtA a hanh] at hb
        rw [hlen]
        exact hinv.wf.nxt_lt (by omega) hb
  obtain ⟨lv', heq2, hlv1, hlv2, hint, hdisj⟩ :=
    shrink_spec hnhlenN s.levels s.levels hL1 hLN (by omega)
  -- the chain family of the state after head removal
  have hok : ChainsOk kf ⟨s.rng, nh, lv', h'⟩
      (fun j => if nh ∈ c j then (c j).tail else nh :: (c j).tail) := by
    have hc0 : (if nh ∈ c 0 then (c 0).tail else nh :: (c 0).tail) = nh :: r0 := by
      rw [if_pos hnh0, h0]
      rfl
    refine ⟨?_, ?_, ?_, ?_, ?_, ?_⟩ <;> dsimp only
    · intro i hi
      have hiL : i < s.levels := by omega
      by_cases hmem : nh ∈ c i
      · rw [if_pos hmem]
        obtain ⟨tj, htj⟩ := (hc.isch i hiL).eq_cons
        have hth : tj.head? = some nh := by
          by_cases hi0 : i = 0
          · subst hi0
            injection htj.symm.trans h0 with h1 h2
            rw [h2]
            rfl
          · have h1 := (mem_iff_tail_head hc h0 (by omega) hiL).1 hmem
            rw [htj] at h1
            exact h1
        cases tj with
        | nil => exact absurd hth (by simp)
        | cons b tj' =>
          have hbnh : b = nh := by simpa using hth
          rw [hbnh] at htj
          rw [htj]
          show IsChain h' i nh (nh :: tj')
          have hold := hc.isch i hiL
          rw [htj] at hold
          obtain ⟨hx, htl⟩ := hold.tail
          refine htl.congr ?_
          intro z hz
          rcases List.mem_cons.1 hz with rfl | hz'
          · exact hN4 i (Or.inr hmem)
          · refine hnxtA z ?_ i
            have hnd := hc.nodup_i hiL
            rw [htj, List.nodup_cons, List.nodup_cons] at hnd
            intro hcon
            exact hnd.2.1 (hcon ▸ hz')
      · rw [if_neg hmem]
        have hi1 : 1 ≤ i := by
          by_contra hcon
          have hi0 : i = 0 := by omega
          exact hmem (hi0 ▸ hnh0)
        obtain ⟨tj, htj⟩ := (hc.isch i hiL).eq_cons
        have hnx : nxt h' nh i = tj.head? := by
          have h1 := hN3 i hi1 hiL hmem
          rw [htj] at h1
          exact h1
        rw [htj]
        show IsChain h' i nh (nh :: tj)
        cases tj with
        | nil => exact isChain_singleton hnx
        | cons b tj' =>
          have hold := hc.isch i hiL
          rw [htj] at hold
          obtain ⟨hx, htl⟩ := hold.tail
          refine isChain_cons hnx (htl.congr ?_)
          intro z hz
          refine hnxtA z ?_ i
          intro hcon
          refine hmem (hcon ▸ ((List.tail_sublist (c i)).mem ?_))
          rw [htj]
          exact hz
    · rw [hc0]
      have hnd := hc.nodup
      rw [h0, List.nodup_cons] at hnd
      exact hnd.2
    · rw [hc0]
      have hs := hc.sorted
      rw [h0] at hs
      rw [SortedKeys] at hs ⊢
      refine List.Pairwise.imp ?_ (List.Pairwise.of_cons hs)
      intro a b hab
      show vk kf h' a ≤ vk kf h' b
      rw [hvk a, hvk b]
      exact hab
    · intro i hi
      have hi1L : i + 1 < s.levels := by omega
      have hiL : i < s.levels := by omega
      obtain ⟨t1, ht1⟩ := (hc.isch (i + 1) hi1L).eq_cons
      obtain ⟨t2, ht2⟩ := (hc.isch i hiL).eq_cons
      have hsub : t1 <+ t2 := by
        have h1 := hc.nest i hi1L
        rw [ht1, ht2, List.cons_sublist_cons] at h1
        exact h1
      by_cases hm1 : nh ∈ c (i + 1)
      · have hm2 : nh ∈ c i := hc.mem_le (by omega) hi1L hm1
        rw [if_pos hm1, if_pos hm2, ht1, ht2]
        exact hsub
      · by_cases hm2 : nh ∈ c i
        · rw [if_neg hm1, if_pos hm2, ht1, ht2]
          have hth : t2.head? = some nh := by
            by_cases hi0 : i = 0
            · subst hi0
              injection ht2.symm.trans h0 with h1 h2
              rw [h2]
              rfl
            · have h1 := (mem_iff_tail_head hc h0 (by omega) hiL).1 hm2
              rw [ht2] at h1
              exact h1
          obtain ⟨t2', rfl⟩ : ∃ u, t2 = nh :: u := by
            cases t2 with
            | nil => exact absurd hth (by simp)
            | cons b u =>
              have hb : b = nh := by simpa using hth
              exact ⟨u, by rw [hb]⟩
          have hnint1 : nh ∉ t1 := by
            intro hcon
            exact hm1 (by rw [ht1]; exact List.mem_cons_of_mem _ hcon)
          exact List.cons_sublist_cons.2 (sublist_of_cons_not_mem hsub hnint1)
        · rw [if_neg hm1, if_neg hm2, ht1, ht2]
          exact List.cons_sublist_cons.2 hsub
    · intro a ha i hige
      rw [hc0] at ha
      by_cases hanh : a = nh
      · subst hanh
        by_cases hiL : i < s.levels
        · exact hint i hige hiL
        · rw [hN4 i (Or.inl (by omega))]
          exact hc.high a hnh0 i (by omega)
      · have har0 : a ∈ r0 := by
          rcases List.mem_cons.1 ha with hcon | h1
          · exact absurd hcon hanh
          · exact h1
        have hac0 : a ∈ c 0 := by
          rw [h0]
          exact List.mem_cons_of_mem _ (List.mem_cons_of_mem _ har0)
        rw [hnxtA a hanh]
        by_cases hiL : i < s.levels
        · by_contra hne
          have hmemi : a ∈ c i := hc.tower a hac0 i hiL hne
          obtain ⟨ti, hti⟩ := (hc.isch i hiL).eq_cons
          have hane : a ≠ s.head := by
            intro hcon
            exact hheadr0 (hcon ▸ har0)
          have hati : a ∈ ti := by
            rw [hti] at hmemi
            rcases List.mem_cons.1 hmemi with hcon | h1
            · exact absurd hcon hane
            · exact h1
          have hnone : nxt h' nh i = none := hint i hige hiL
          have hi1 : 1 ≤ i := by omega
          by_cases hmem : nh ∈ c i
          · have hth : ti.head? = some nh := by
              have h1 := (mem_iff_tail_head hc h0 hi1 hiL).1 hmem
              rw [hti] at h1
              exact h1
            obtain ⟨ti', rfl⟩ : ∃ u, ti = nh :: u := by
              cases ti with
              | nil => exact absurd hth (by simp)
              | cons b u =>
                have hb : b = nh := by simpa using hth
                exact ⟨u, by rw [hb]⟩
            have holdn : nxt s.heap nh i = ti'.head? := by
              have hold := hc.isch i hiL
              rw [hti] at hold
              exact hold.tail.2.head_nxt
            have hti'n : ti'.head? = none := by
              rw [← holdn, ← hN4 i (Or.inr hmem)]
              exact hnone
            rw [List.head?_eq_none_iff] at hti'n
            rw [hti'n] at hati
            rcases List.mem_cons.1 hati with hcon | hcon
            · exact hanh hcon
            · exact absurd hcon (List.not_mem_nil a)
          · have hnx : nxt h' nh i = ((c i).tail).head? := hN3 i hi1 hiL hmem
            have htin : ti.head? = none := by
              have h1 := hnx.symm.trans hnone
              rw [hti] at h1
              exact h1
            rw [List.head?_eq_none_iff] at htin
            rw [htin] at hati
            exact absurd hati (List.not_mem_nil a)
        · exact hc.high a hac0 i (by omega)
    · intro a ha i hilt hne
      rw [hc0] at ha
      have hiL : i < s.levels := by omega
      by_cases hanh : a = nh
      · subst hanh
        by_cases hmem : a ∈ c i
        · rw [if_pos hmem]
          by_cases hi0 : i = 0
          · subst hi0
            rw [h0]
            exact List.mem_cons_self ..
          · exact List.mem_of_mem_head?
              ((mem_iff_tail_head hc h0 (by omega) hiL).1 hmem)
        · rw [if_neg hmem]
          exact List.mem_cons_self ..
      · have har0 : a ∈ r0 := by
          rcases List.mem_cons.1 ha with hcon | h1
          · exact absurd hcon hanh
          · exact h1
        have hac0 : a ∈ c 0 := by
          rw [h0]
          exact List.mem_cons_of_mem _ (List.mem_cons_of_mem _ har0)
        rw [hnxtA a hanh] at hne
        have hmemi : a ∈ c i := hc.tower a hac0 i hiL hne
        have hane : a ≠ s.head := by
          intro hcon
          exact hheadr0 (hcon ▸ har0)
        have hati : a ∈ (c i).tail := by
          obtain ⟨ti, hti⟩ := (hc.isch i hiL).eq_cons
          rw [hti] at hmemi ⊢
          rcases List.mem_cons.1 hmemi with hcon | h1
          · exact absurd hcon hane
          · exact h1
        by_cases hmem : nh ∈ c i
        · rw [if_pos hmem]
          exact hati
        · rw [if_neg hmem]
          exact List.mem_cons_of_mem _ hati
  have hinv' : Inv kf N ⟨s.rng, nh, lv', h'⟩ := by
    refine ⟨hlv1, show lv' ≤ N by omega, ?_, hwf, ⟨_, hok⟩⟩
    show nh < h'.length
    rw [hlen]
    exact hnhlt
  refine ⟨h', lv', heq, heq2, hinv', ?_⟩
  have hch' : chains ⟨s.rng, nh, lv', h'⟩ 0 = nh :: r0 :=
    (hinv'.chains_eq hok hinv'.one_le).trans (by
      show (if nh ∈ c 0 then (c 0).tail else nh :: (c 0).tail) = nh :: r0
      rw [if_pos hnh0, h0]
      rfl)
  rw [keysL, keysL, hch', hinv.chains_eq hc hL1, h0, List.map_cons]
  show (nh :: r0).map (vk kf h') = (nh :: r0).map (vk kf s.heap)
  refine List.map_congr_left ?_
  intro a ha
  exact hvk a

/-- Membership of the victim in a higher chain is equivalent to it heading
the not-below remainder there. -/
theorem mem_iff_drop_head {kf : α → κ} {s : Storage α} {c : Nat → List Nat}
    (hc : ChainsOk kf s c) {x : κ} {cv : Nat}
    (hB0 : ((c 0).dropWhile (below kf s.heap x)).head? = some cv)
    (hvcv : vk kf s.heap cv = x) {j : Nat} (hjL : j < s.levels) :
    cv ∈ c j ↔ ((c j).dropWhile (below kf s.heap x)).head? = some cv := by
  constructor
  · intro hmem
    have hcvB : cv ∈ (c j).dropWhile (below kf s.heap x) := by
      have hsplit := sorted_split (x := x) (hc.sorted_i hjL)
      rw [hsplit] at hmem
      rcases List.mem_append.1 hmem with hA | hB
      · have := (List.mem_filter.1 hA).2
        rw [below, hvcv] at this
        simp at this
      · exact hB
    have hsubB : (c j).dropWhile (below kf s.heap x) <+
        (c 0).dropWhile (below kf s.heap x) := by
      rw [(hc.sorted_i hjL).dropWhile_filter, hc.sorted.dropWhile_filter]
      exact (hc.sub_zero j hjL).filter _
    obtain ⟨Bt, hBt⟩ : ∃ u, (c 0).dropWhile (below kf s.heap x) = cv :: u := by
      cases hB : (c 0).dropWhile (below kf s.heap x) with
      | nil => rw [hB] at hB0; exact absurd hB0 (by simp)
      | cons b u =>
        rw [hB] at hB0
        exact ⟨u, by rw [show b = cv by simpa using hB0]⟩
    have hnodupB : cv ∉ Bt := by
      have hnd : ((c 0).dropWhile (below kf s.heap x)).Nodup :=
        (List.dropWhile_sublist _).nodup hc.nodup
      rw [hBt, List.nodup_cons] at hnd
      exact hnd.1
    rw [hBt] at hsubB
    exact head?_of_sublist_cons hsubB hcvB hnodupB
  · intro hhead
    exact (List.dropWhile_sublist _).mem (List.mem_of_mem_head? hhead)

/-- The unlink loop of the Less removal case: ascending from level 0, it
routes the traced predecessor around the victim at exactly the levels that
contain the victim; every other slot keeps its original contents. -/
theorem unlink_spec {kf : α → κ} {N : Nat} {s : Storage α}
    (hinv : Inv kf N s) {c : Nat → List Nat} (hc : ChainsOk kf s c)
    {x : κ} {T : List Nat} {cv : Nat}
    (hTmem : ∀ j, j < s.levels → T.getD j 0 ∈ (c j).filter (below kf s.heap x))
    (hTnext : ∀ j, j < s.levels →
      nxt s.heap (T.getD j 0) j = ((c j).dropWhile (below kf s.heap x)).head?)
    (hB0 : ((c 0).dropWhile (below kf s.heap x)).head? = some cv)
    (hvcv : vk kf s.heap cv = x) :
    ∀ (fuel j : Nat) (h : Heap α), j + fuel = s.levels →
      (∀ i, i < j → cv ∈ c i) →
      h.length = s.heap.length →
      (∀ a, (nodeAt h a).val = (nodeAt s.heap a).val) →
      (∀ a, (nodeAt h a).nexts.length = (nodeAt s.heap a).nexts.length) →
      (∀ a i, nxt h a i =
        if i < j ∧ cv ∈ c i ∧ a = T.getD i 0
        then (((c i).dropWhile (below kf s.heap x)).tail).head?
        else nxt s.heap a i) →
      ∃ h', unlink T cv fuel j h = some h' ∧
        h'.length = s.heap.length ∧
        (∀ a, (nodeAt h' a).val = (nodeAt s.heap a).val) ∧
        (∀ a, (nodeAt h' a).nexts.length = (nodeAt s.heap a).nexts.length) ∧
        (∀ a i, nxt h' a i =
          if i < s.levels ∧ cv ∈ c i ∧ a = T.getD i 0
          then (((c i).dropWhile (below kf s.heap x)).tail).head?
          else nxt s.heap a i) := by
  have hcv0 : cv ∈ c 0 :=
    (List.dropWhile_sublist _).mem (List.mem_of_mem_head? hB0)
  have hcvlt : cv < s.heap.length := hinv.mem_lt hc hinv.one_le cv hcv0
  intro fuel
  induction fuel with
  | zero =>
    intro j h hjf hproc hlen hval hnlen hdesc
    refine ⟨h, rfl, hlen, hval, hnlen, ?_⟩
    intro a i
    have hj : j = s.levels := by omega
    rw [hdesc a i, hj]
  | succ f ih =>
    intro j h hjf hproc hlen hval hnlen hdesc
    have hjL : j < s.levels := by omega
    have hpmem : T.getD j 0 ∈ c j :=
      (List.filter_sublist _).mem (hTmem j hjL)
    have hplt : T.getD j 0 < s.heap.length := hinv.mem_lt hc hjL _ hpmem
    have hplen : (nodeAt h (T.getD j 0)).nexts.length = N := by
      rw [hnlen]
      exact hinv.wf.nexts_length hplt
    have hread : (nodeAt h (T.getD j 0)).nexts[j]? =
        some (nxt h (T.getD j 0) j) :=
      getElem?_eq_getD (by rw [hplen]; have := hinv.le_N; omega)
    have hplv : nxt h (T.getD j 0) j =
        ((c j).dropWhile (below kf s.heap x)).head? := by
      rw [hdesc, if_neg (by omega)]
      exact hTnext j hjL
    by_cases hmem : cv ∈ c j
    · have hhead : ((c j).dropWhile (below kf s.heap x)).head? = some cv :=
        (mem_iff_drop_head hc hB0 hvcv hjL).1 hmem
      have hclen : (nodeAt h cv).nexts.length = N := by
        rw [hnlen]
        exact hinv.wf.nexts_length hcvlt
      have hreadc : (nodeAt h cv).nexts[j]? = some (nxt h cv j) :=
        getElem?_eq_getD (by rw [hclen]; have := hinv.le_N; omega)
      have hcvp : cv ≠ T.getD j 0 := by
        intro hcon
        have h1 := (List.mem_filter.1 (hTmem j hjL)).2
        rw [← hcon, below, hvcv] at h1
        simp at h1
      have hcvlink : nxt h cv j =
          (((c j).dropWhile (below kf s.heap x)).tail).head? := by
        rw [hdesc, if_neg (by
          rintro ⟨h1, h2, h3⟩
          exact hcvp h3)]
        obtain ⟨Bt, hBt⟩ : ∃ u, (c j).dropWhile (below kf s.heap x) = cv :: u := by
          cases hB : (c j).dropWhile (below kf s.heap x) with
          | nil => rw [hB] at hhead; exact absurd hhead (by simp)
          | cons b u =>
            rw [hB] at hhead
            exact ⟨u, by rw [show b = cv by simpa using hhead]⟩
        have hsplit := sorted_split (x := x) (hc.sorted_i hjL)
        have hold : IsChain s.heap j cv
            (cv :: Bt) := by
          have h1 := hc.isch j hjL
          rw [hsplit, hBt] at h1
          exact h1.suffix
        rw [hBt]
        exact hold.head_nxt
      have hwrite : setNext (nodeAt h (T.getD j 0)) j (nxt h cv j) =
          some ⟨(nodeAt h (T.getD j 0)).val,
            (nodeAt h (T.getD j 0)).nexts.set j (nxt h cv j)⟩ :=
        setNext_eq_some (by rw [hplen]; have := hinv.le_N; omega) _
      have hpl2 : T.getD j 0 < h.length := by rw [hlen]; exact hplt
      obtain ⟨h', heq, hrest⟩ := ih (j + 1)
        (h.set (T.getD j 0) ⟨(nodeAt h (T.getD j 0)).val,
          (nodeAt h (T.getD j 0)).nexts.set j (nxt h cv j)⟩)
        (by omega)
        (by
          intro i hi
          rcases Nat.lt_or_ge i j with h1 | h1
          · exact hproc i h1
          · have : i = j := by omega
            rw [this]
            exact hmem)
        (by rw [List.length_set]; exact hlen)
        (by
          intro a
          by_cases hap : a = T.getD j 0
          · subst hap
            rw [nodeAt_set_self hpl2]
            exact hval _
          · rw [nodeAt_set_ne hap]
            exact hval a)
        (by
          intro a
          by_cases hap : a = T.getD j 0
          · subst hap
            rw [nodeAt_set_self hpl2]
            simpa using hnlen _
          · rw [nodeAt_set_ne hap]
            exact hnlen a)
        (by
          intro a i
          by_cases hap : a = T.getD j 0
          · subst hap
            rw [nxt, nodeAt_set_self hpl2]
            by_cases hij : i = j
            · subst hij
              rw [getD_set_self (by rw [hplen]; have := hinv.le_N; omega)]
              rw [if_pos ⟨by omega, hmem, rfl⟩]
              exact hcvlink
            · rw [getD_set_ne hij]
              rw [show (nodeAt h (T.getD j 0)).nexts.getD i none =
                nxt h (T.getD j 0) i from rfl]
              rw [hdesc]
              by_cases hcond : i < j ∧ cv ∈ c i ∧ T.getD j 0 = T.getD i 0
              · rw [if_pos hcond, if_pos ⟨by omega, hcond.2.1, hcond.2.2⟩]
              · rw [if_neg hcond, if_neg (by
                  rintro ⟨h1, h2, h3⟩
                  exact hcond ⟨by omega, h2, h3⟩)]
          · rw [nxt, nodeAt_set_ne hap]
            rw [show (nodeAt h a).nexts.getD i none = nxt h a i from rfl]
            rw [hdesc]
            by_cases hcond : i < j ∧ cv ∈ c i ∧ a = T.getD i 0
            · rw [if_pos hcond, if_pos ⟨by omega, hcond.2.1, hcond.2.2⟩]
            · rw [if_neg hcond, if_neg (by
                rintro ⟨h1, h2, h3⟩
                refine hcond ⟨?_, h2, h3⟩
                rcases Nat.lt_or_ge i j with h4 | h4
                · exact h4
                · have hij2 : i = j := by omega
                  exact absurd h3 (hij2 ▸ hap))])
      refine ⟨h', ?_, hrest⟩
      rw [unlink]
      simp only [Option.bind_eq_bind]
      rw [hread]
      simp only [Option.some_bind]
      rw [if_neg (by rw [hplv, hhead]; simp)]
      rw [hreadc]
      simp only [Option.some_bind]
      rw [hwrite]
      simp only [Option.some_bind]
      exact heq
    · refine ⟨h, ?_, hlen, hval, hnlen, ?_⟩
      · rw [unlink]
        simp only [Option.bind_eq_bind]
        rw [hread]
        simp only [Option.some_bind]
        rw [if_pos (by
          rw [hplv]
          intro hcon
          exact hmem ((mem_iff_drop_head hc hB0 hvcv hjL).2 hcon))]
      · intro a i
        rw [hdesc a i]
        by_cases hcond : i < j ∧ cv ∈ c i ∧ a = T.getD i 0
        · rw [if_pos hcond, if_pos ⟨by omega, hcond.2.1, hcond.2.2⟩]
        · rw [if_neg hcond, if_neg (by
            rintro ⟨h1, h2, h3⟩
            refine hcond ⟨?_, h2, h3⟩
            rcases Nat.lt_or_ge i j with h4 | h4
            · exact h4
            · exact absurd (hc.mem_le h4 h1 h2) hmem)]

/-- Full description of the descend-and-unlink removal path. -/
theorem removeAt_spec {kf : α → κ} {N : Nat} {s : Storage α}
    (hinv : Inv kf N s) {c : Nat → List Nat} (hc : ChainsOk kf s c)
    {x : κ} (hlt : vk kf s.heap s.head < x) {cv : Nat}
    (hB0 : ((c 0).dropWhile (below kf s.heap x)).head? = some cv)
    (hvcv : vk kf s.heap cv = x) :
    ∃ T h' lv',
      descendT kf s.heap x (s.heap.length + 1) s.head (s.levels - 1) = some T ∧
      unlink T cv (min s.levels N) 0 s.heap = some h' ∧
      shrink h' s.head s.levels s.levels = some lv' ∧
      Inv kf N ⟨s.rng, s.head, lv', h'⟩ ∧
      (keysL kf s : Multiset κ) =
        x ::ₘ (keysL kf ⟨s.rng, s.head, lv', h'⟩ : Multiset κ) := by
  have hL1 := hinv.one_le
  have hLN := hinv.le_N
  have hLs : s.levels - 1 < N := by omega
  have hlev : ∀ j, j ≤ s.levels - 1 → j < s.levels := by omega
  have hhead_mem : s.head ∈ (c (s.levels - 1)).filter (below kf s.heap x) := by
    obtain ⟨tL, htL⟩ := (hc.isch _ (hlev _ (le_refl _))).eq_cons
    rw [htL]
    exact List.mem_filter.2 ⟨List.mem_cons_self .., by simp [below, hlt]⟩
  obtain ⟨T, hT, hTlen, hTspec⟩ :=
    descendT_go (x := x) hinv.wf hinv.head_lt c hLs
      (fun j hj => hc.isch j (hlev j hj))
      (fun j hj => hc.nest j (hlev _ hj))
      (fun j hj => hc.sorted_i (hlev j hj))
      (fun j hj => Nat.le_succ_of_le (hinv.length_le hc (hlev j hj)))
      hhead_mem
  have hTspecL : ∀ j, j < s.levels →
      T.getD j 0 = ((c j).filter (below kf s.heap x)).getLastD s.head :=
    fun j hj => hTspec j (by omega)
  have hAhead : ∀ j, j < s.levels →
      ∃ u, (c j).filter (below kf s.heap x) = s.head :: u := by
    intro j hj
    obtain ⟨tj, htj⟩ := (hc.isch j hj).eq_cons
    rw [htj, List.filter_cons_of_pos (by simp [below, hlt])]
    exact ⟨_, rfl⟩
  have hAne : ∀ j, j < s.levels → (c j).filter (below kf s.heap x) ≠ [] := by
    intro j hj
    obtain ⟨u, hu⟩ := hAhead j hj
    rw [hu]
    exact List.cons_ne_nil _ _
  have hTmem : ∀ j, j < s.levels →
      T.getD j 0 ∈ (c j).filter (below kf s.heap x) := by
    intro j hj
    rw [hTspecL j hj]
    exact getLastD_mem (hAne j hj) s.head
  have hTnext : ∀ j, j < s.levels →
      nxt s.heap (T.getD j 0) j =
        ((c j).dropWhile (below kf s.heap x)).head? := by
    intro j hj
    rw [hTspecL j hj]
    exact (trace_next hinv hc hlt hj).2.2
  obtain ⟨h', heq, hlen, hval, hnlen, hdesc⟩ :=
    unlink_spec hinv hc hTmem hTnext hB0 hvcv s.levels 0 s.heap (by omega)
      (fun i hi => absurd hi (by omega)) rfl (fun a => rfl) (fun a => rfl)
      (fun a i => by rw [if_neg (by rintro ⟨h1, -, -⟩; omega)])
  have hequ : unlink T cv (min s.levels N) 0 s.heap = some h' := by
    rw [Nat.min_eq_left hLN]
    exact heq
  have hcv0 : cv ∈ c 0 :=
    (List.dropWhile_sublist _).mem (List.mem_of_mem_head? hB0)
  have hcvlt : cv < s.heap.length := hinv.mem_lt hc hL1 cv hcv0
  have hvk : ∀ a, vk kf h' a = vk kf s.heap a := by
    intro a
    show kf (nodeAt h' a).val = kf (nodeAt s.heap a).val
    rw [hval a]
  have hcvA : ∀ j, j < s.levels →
      cv ∉ (c j).filter (below kf s.heap x) := by
    intro j hj hmem
    have h1 := (List.mem_filter.1 hmem).2
    rw [below, hvcv] at h1
    simp at h1
  have hBt : ∀ j, j < s.levels → cv ∈ c j →
      ∃ u, (c j).dropWhile (below kf s.heap x) = cv :: u := by
    intro j hj hmem
    have hhead := (mem_iff_drop_head hc hB0 hvcv hj).1 hmem
    cases hB : (c j).dropWhile (below kf s.heap x) with
    | nil => rw [hB] at hhead; exact absurd hhead (by simp)
    | cons b u =>
      rw [hB] at hhead
      exact ⟨u, by rw [show b = cv by simpa using hhead]⟩
  have hsplitc : ∀ j, j < s.levels → cv ∈ c j →
      c j = (c j).filter (below kf s.heap x) ++
        cv :: ((c j).dropWhile (below kf s.heap x)).tail := by
    intro j hj hmem
    obtain ⟨u, hu⟩ := hBt j hj hmem
    have h1 := sorted_split (x := x) (hc.sorted_i hj)
    rw [hu] at h1
    rw [hu]
    exact h1
  have hwf : HeapWF N h' := by
    intro a ha
    rw [hlen] at ha
    refine ⟨?_, ?_⟩
    · rw [hnlen]
      exact hinv.wf.nexts_length ha
    · intro j b hb
      rw [hlen]
      rw [hdesc a j] at hb
      by_cases hcond : j < s.levels ∧ cv ∈ c j ∧ a = T.getD j 0
      · rw [if_pos hcond] at hb
        have hbm := List.mem_of_mem_head? hb
        exact hinv.mem_lt hc hcond.1 b
          ((List.dropWhile_sublist _).mem ((List.tail_sublist _).mem hbm))
      · rw [if_neg hcond] at hb
        exact hinv.wf.nxt_lt ha hb
  have hheadlen : (nodeAt h' s.head).nexts.length = N := by
    rw [hnlen]
    exact hinv.wf.nexts_length hinv.head_lt
  obtain ⟨lv', heq2, hlv1, hlv2, hint, hdisj⟩ :=
    shrink_spec hheadlen s.levels s.levels hL1 hLN (by omega)
  -- chains of the state after unlinking, at every live level
  have hchain : ∀ i, i < s.levels → IsChain h' i s.head
      (if cv ∈ c i then (c i).filter (below kf s.heap x) ++
        ((c i).dropWhile (below kf s.heap x)).tail else c i) := by
    intro i hiL
    by_cases hmem : cv ∈ c i
    · rw [if_pos hmem]
      refine isChain_unsplice
        ((hsplitc i hiL hmem) ▸ hc.isch i hiL)
        ((hsplitc i hiL hmem) ▸ hc.nodup_i hiL)
        (getLast?_eq_getLastD (hAne i hiL) s.head) ?_ ?_
      · intro a ha hne
        rw [hdesc a i, if_neg (by
          rintro ⟨h1, h2, h3⟩
          rw [hTspecL i hiL] at h3
          exact hne h3)]
      · rw [hdesc _ i, if_pos ⟨hiL, hmem, (hTspecL i hiL).symm⟩]
    · rw [if_neg hmem]
      refine (hc.isch i hiL).congr ?_
      intro a ha
      rw [hdesc a i, if_neg (by rintro ⟨h1, h2, h3⟩; exact hmem h2)]
  have hcvnot : cv ∉ (c 0).filter (below kf s.heap x) ++
      ((c 0).dropWhile (below kf s.heap x)).tail := by
    intro hmem
    rcases List.mem_append.1 hmem with h1 | h1
    · exact hcvA 0 hL1 h1
    · obtain ⟨u, hu⟩ := hBt 0 hL1 hcv0
      rw [hu] at h1
      have hnd : ((c 0).dropWhile (below kf s.heap x)).Nodup :=
        (List.dropWhile_sublist _).nodup hc.nodup
      rw [hu, List.nodup_cons] at hnd
      exact hnd.1 h1
  have hsub0 : (c 0).filter (below kf s.heap x) ++
      ((c 0).dropWhile (below kf s.heap x)).tail <+ c 0 := by
    have h1 : (c 0).filter (below kf s.heap x) ++
        ((c 0).dropWhile (below kf s.heap x)).tail <+
        (c 0).filter (below kf s.heap x) ++
          cv :: ((c 0).dropWhile (below kf s.heap x)).tail :=
      List.Sublist.append (List.Sublist.refl _) (List.sublist_cons_self _ _)
    rw [← hsplitc 0 hL1 hcv0] at h1
    exact h1
  have hok : ChainsOk kf ⟨s.rng, s.head, lv', h'⟩
      (fun j => if cv ∈ c j then (c j).filter (below kf s.heap x) ++
        ((c j).dropWhile (below kf s.heap x)).tail else c j) := by
    refine ⟨?_, ?_, ?_, ?_, ?_, ?_⟩ <;> dsimp only
    · intro i hi
      exact hchain i (by omega)
    · rw [if_pos hcv0]
      exact hsub0.nodup hc.nodup
    · rw [if_pos hcv0]
      rw [SortedKeys]
      refine List.Pairwise.imp ?_ (List.Pairwise.sublist hsub0 hc.sorted)
      intro a b hab
      show vk kf h' a ≤ vk kf h' b
      rw [hvk a, hvk b]
      exact hab
    · intro i hi
      have hi1L : i + 1 < s.levels := by omega
      have hiL : i < s.levels := by omega
      by_cases hm1 : cv ∈ c (i + 1)
      · have hm2 : cv ∈ c i := hc.mem_le (by omega) hi1L hm1
        rw [if_pos hm1, if_pos hm2]
        refine List.Sublist.append ((hc.nest i hi1L).filter _) ?_
        obtain ⟨u1, hu1⟩ := hBt (i + 1) hi1L hm1
        obtain ⟨u2, hu2⟩ := hBt i hiL hm2
        have hBsub : (c (i + 1)).dropWhile (below kf s.heap x) <+
            (c i).dropWhile (below kf s.heap x) := by
          rw [(hc.sorted_i hi1L).dropWhile_filter, (hc.sorted_i hiL).dropWhile_filter]
          exact (hc.nest i hi1L).filter _
        rw [hu1, hu2] at hBsub ⊢
        exact List.cons_sublist_cons.1 hBsub
      · by_cases hm2 : cv ∈ c i
        · rw [if_neg hm1, if_pos hm2]
          refine sublist_remove_middle (a := cv) (l := c (i + 1)) ?_ ?_
          · rw [← hsplitc i hiL hm2]
            exact hc.nest i hi1L
          · exact hm1
        · rw [if_neg hm1, if_neg hm2]
          exact hc.nest i hi1L
    · intro a ha i hige
      rw [if_pos hcv0] at ha
      by_cases hiL : i < s.levels
      · have hnone : nxt h' s.head i = none := hint i hige hiL
        by_cases hmem : cv ∈ c i
        · have hsing : (if cv ∈ c i then (c i).filter (below kf s.heap x) ++
              ((c i).dropWhile (below kf s.heap x)).tail else c i) = [s.head] :=
            (hchain i hiL).eq_singleton hnone
          rw [if_pos hmem] at hsing
          obtain ⟨u, hu⟩ := hAhead i hiL
          rw [hu, List.cons_append] at hsing
          have h2 := List.cons.injEq .. ▸ hsing
          have hunil : u = [] ∧ ((c i).dropWhile (below kf s.heap x)).tail = [] := by
            have h3 : u ++ ((c i).dropWhile (below kf s.heap x)).tail = [] := by
              have := congrArg List.tail hsing
              simpa using this
            exact List.append_eq_nil.1 h3
          rw [hdesc a i]
          by_cases hcond : i < s.levels ∧ cv ∈ c i ∧ a = T.getD i 0
          · rw [if_pos hcond, hunil.2]
            rfl
          · rw [if_neg hcond]
            by_contra hne
            have hmemi : a ∈ c i := hc.tower a ((hsub0.mem ha)) i hiL hne
            rw [hsplitc i hiL hmem, hu, hunil.1, hunil.2] at hmemi
            rcases List.mem_append.1 hmemi with h4 | h4
            · have hah : a = s.head := by simpa using h4
              refine hcond ⟨hiL, hmem, ?_⟩
              rw [hah, hTspecL i hiL, hu, hunil.1]
              rfl
            · have hacv : a = cv := by simpa using h4
              exact hcvnot (hacv ▸ ha)
        · have hsing : (if cv ∈ c i then (c i).filter (below kf s.heap x) ++
              ((c i).dropWhile (below kf s.heap x)).tail else c i) = [s.head] :=
            (hchain i hiL).eq_singleton hnone
          rw [if_neg hmem] at hsing
          rw [hdesc a i, if_neg (by rintro ⟨h1, h2, h3⟩; exact hmem h2)]
          by_contra hne
          have hmemi : a ∈ c i := hc.tower a (hsub0.mem ha) i hiL hne
          rw [hsing] at hmemi
          have hah : a = s.head := by simpa using hmemi
          rw [hah] at hne
          have h5 : nxt h' s.head i = nxt s.heap s.head i := by
            rw [hdesc _ i, if_neg (by rintro ⟨h1, h2, h3⟩; exact hmem h2)]
          rw [← h5] at hne
          exact hne hnone
      · rw [hdesc a i, if_neg (by rintro ⟨h1, -, -⟩; omega)]
        exact hc.high a (hsub0.mem ha) i (by omega)
    · intro a ha i hilt hne
      rw [if_pos hcv0] at ha
      have hiL : i < s.levels := by omega
      rw [hdesc a i] at hne
      by_cases hcond : i < s.levels ∧ cv ∈ c i ∧ a = T.getD i 0
      · rw [if_pos hcond.2.1]
        refine List.mem_append_left _ ?_
        rw [hcond.2.2, hTspecL i hiL]
        exact getLastD_mem (hAne i hiL) s.head
      · rw [if_neg hcond] at hne
        have hmemi : a ∈ c i := hc.tower a (hsub0.mem ha) i hiL hne
        by_cases hmem : cv ∈ c i
        · rw [if_pos hmem]
          have hacv : a ≠ cv := by
            intro hcon
            exact hcvnot (hcon ▸ ha)
          rw [hsplitc i hiL hmem] at hmemi
          rcases List.mem_append.1 hmemi with h1 | h1
          · exact List.mem_append_left _ h1
          · rcases List.mem_cons.1 h1 with h2 | h2
            · exact absurd h2 hacv
            · exact List.mem_append_right _ h2
        · rw [if_neg hmem]
          exact hmemi
  have hinv' : Inv kf N ⟨s.rng, s.head, lv', h'⟩ := by
    refine ⟨hlv1, show lv' ≤ N by omega, ?_, hwf, ⟨_, hok⟩⟩
    show s.head < h'.length
    rw [hlen]
    exact hinv.head_lt
  refine ⟨T, h', lv', hT, hequ, heq2, hinv', ?_⟩
  have hch' : chains ⟨s.rng, s.head, lv', h'⟩ 0 =
      (c 0).filter (below kf s.heap x) ++
        ((c 0).dropWhile (below kf s.heap x)).tail :=
    (hinv'.chains_eq hok hinv'.one_le).trans (by
      show (if cv ∈ c 0 then (c 0).filter (below kf s.heap x) ++
        ((c 0).dropWhile (below kf s.heap x)).tail else c 0) = _
      rw [if_pos hcv0])
  rw [keysL, keysL, hch', hinv.chains_eq hc hL1]
  have hmap' : ∀ l : List Nat, l.map (vk kf h') = l.map (vk kf s.heap) :=
    fun l => List.map_congr_left (fun a ha => hvk a)
  rw [hmap']
  nth_rewrite 1 [hsplitc 0 hL1 hcv0]
  rw [List.map_append, List.map_cons, List.map_append, hvcv,
    Multiset.cons_coe, Multiset.coe_eq_coe]
  exact List.perm_middle

/-- `NonEmptySkipList::remove`, all branches: it succeeds under the
invariant, never touches the random state, and either reports the key
absent with the state untouched, removes one occurrence of the key
preserving the invariant, or removes the last element. -/
theorem removeS_spec {kf : α → κ} {N : Nat} {s : Storage α}
    (hinv : Inv kf N s) (x : κ) :
    ∃ out, removeS kf N s x = some out ∧
      out.2.rng = s.rng ∧
      ((out.1 = Removal.nothing ∧ out.2 = s ∧ x ∉ keysL kf s) ∨
       (∃ v, out.1 = Removal.one v ∧ kf v = x ∧ Inv kf N out.2 ∧
         (keysL kf s : Multiset κ) = x ::ₘ (keysL kf out.2 : Multiset κ)) ∨
       (∃ v, out.1 = Removal.last v ∧ kf v = x ∧ keysL kf s = [x])) := by
  obtain ⟨c, hc⟩ := hinv.chainsOk
  have hL1 := hinv.one_le
  have hLN := hinv.le_N
  have hN1 : 1 ≤ N := by omega
  have hkeysc : keysL kf s = (c 0).map (vk kf s.heap) := by
    rw [keysL, hinv.chains_eq hc hL1]
  obtain ⟨t0, ht0⟩ := (hc.isch 0 hL1).eq_cons
  by_cases hgt : vk kf s.heap s.head > x
  · refine ⟨(Removal.nothing, s), ?_, rfl, Or.inl ⟨rfl, rfl, ?_⟩⟩
    · rw [removeS]
      show (if vk kf s.heap s.head > x then some (Removal.nothing, s) else _) = _
      rw [if_pos hgt]
    · intro hmem
      rw [hkeysc] at hmem
      obtain ⟨a, ha, hva⟩ := List.mem_map.1 hmem
      rw [ht0] at ha
      rcases List.mem_cons.1 ha with rfl | ha'
      · rw [hva] at hgt
        exact lt_irrefl x hgt
      · have hs := hc.sorted
        rw [ht0, SortedKeys, List.pairwise_cons] at hs
        have h1 := hs.1 a ha'
        rw [hva] at h1
        exact absurd (lt_of_le_of_lt h1 hgt) (lt_irrefl _)
  · by_cases heqx : vk kf s.heap s.head = x
    · have hread : (nodeAt s.heap s.head).nexts[0]? =
          some (nxt s.heap s.head 0) :=
        getElem?_eq_getD (by rw [hinv.wf.nexts_length hinv.head_lt]; omega)
      have hn0 : nxt s.heap s.head 0 = t0.head? := by
        have h1 := (hc.isch 0 hL1).head_nxt
        rw [ht0] at h1
        exact h1
      cases ht0c : t0 with
      | nil =>
        refine ⟨(Removal.last (nodeAt s.heap s.head).val, s), ?_, rfl,
          Or.inr (Or.inr ⟨_, rfl, heqx, ?_⟩)⟩
        · rw [removeS]
          show (if vk kf s.heap s.head > x then _ else _) = _
          rw [if_neg hgt, if_pos heqx, hread, hn0, ht0c]
          rfl
        · rw [hkeysc, ht0, ht0c]
          show [vk kf s.heap s.head] = [x]
          rw [heqx]
      | cons nh r0 =>
        rw [ht0c] at ht0 hn0
        obtain ⟨h', lv', heqi, heqs, hinv', hkeys'⟩ :=
          removeHead_spec hinv hc ht0
        refine ⟨(Removal.one (nodeAt s.heap s.head).val, ⟨s.rng, nh, lv', h'⟩),
          ?_, rfl, Or.inr (Or.inl ⟨_, rfl, heqx, hinv', ?_⟩)⟩
        · rw [removeS]
          show (if vk kf s.heap s.head > x then _ else _) = _
          rw [if_neg hgt, if_pos heqx, hread, hn0]
          show (do
            let h1 ← inheritLoop (nodeAt s.heap s.head) nh s.heap (s.levels - 1)
            let lv ← shrink h1 nh s.levels s.levels
            pure (Removal.one (nodeAt s.heap s.head).val,
              { s with head := nh, heap := h1, levels := lv })) = _
          rw [heqi]
          simp only [Option.some_bind, Option.bind_eq_bind]
          rw [heqs]
          rfl
        · show (keysL kf s : Multiset κ) =
            x ::ₘ (keysL kf ⟨s.rng, nh, lv', h'⟩ : Multiset κ)
          rw [hkeys', hkeysc, ht0, List.map_cons, heqx, Multiset.cons_coe]
          rfl
    · have hlt : vk kf s.heap s.head < x := by
        rcases lt_trichotomy (vk kf s.heap s.head) x with h1 | h1 | h1
        · exact h1
        · exact absurd h1 heqx
        · exact absurd h1 hgt
      have hLs : s.levels - 1 < N := by omega
      have hlev : ∀ j, j ≤ s.levels - 1 → j < s.levels := by omega
      have hhead_mem : s.head ∈ (c (s.levels - 1)).filter (below kf s.heap x) := by
        obtain ⟨tL, htL⟩ := (hc.isch _ (hlev _ (le_refl _))).eq_cons
        rw [htL]
        exact List.mem_filter.2 ⟨List.mem_cons_self .., by simp [below, hlt]⟩
      obtain ⟨T, hT, hTlen, hTspec⟩ :=
        descendT_go (x := x) hinv.wf hinv.head_lt c hLs
          (fun j hj => hc.isch j (hlev j hj))
          (fun j hj => hc.nest j (hlev _ hj))
          (fun j hj => hc.sorted_i (hlev j hj))
          (fun j hj => Nat.le_succ_of_le (hinv.length_le hc (hlev j hj)))
          hhead_mem
      have hp0 : T.getD 0 s.head =
          ((c 0).filter (below kf s.heap x)).getLastD s.head := by
        rw [getD_default_irrel (by omega) s.head 0]
        exact hTspec 0 (by omega)
      have hp0f : T.getD 0 s.head ∈ (c 0).filter (below kf s.heap x) := by
        rw [hp0]
        exact (trace_next hinv hc hlt hL1).1
      have hp0m : T.getD 0 s.head ∈ c 0 := (List.filter_sublist _).mem hp0f
      have hp0lt : T.getD 0 s.head < s.heap.length := hinv.mem_lt hc hL1 _ hp0m
      have hp0next : nxt s.heap (T.getD 0 s.head) 0 =
          ((c 0).dropWhile (below kf s.heap x)).head? := by
        rw [hp0]
        exact (trace_next hinv hc hlt hL1).2.2
      have hread0 : (nodeAt s.heap (T.getD 0 s.head)).nexts[0]? =
          some (nxt s.heap (T.getD 0 s.head) 0) :=
        getElem?_eq_getD (by rw [hinv.wf.nexts_length hp0lt]; omega)
      have hAx : ∀ a ∈ (c 0).filter (below kf s.heap x),
          vk kf s.heap a < x := by
        intro a ha
        have h1 := (List.mem_filter.1 ha).2
        simpa [below] using h1
      have hBx : ∀ a ∈ (c 0).dropWhile (below kf s.heap x),
          x ≤ vk kf s.heap a := by
        intro a ha
        rw [hc.sorted.dropWhile_filter] at ha
        have h1 := (List.mem_filter.1 ha).2
        simpa [below, not_lt] using h1
      have hmemx : x ∈ keysL kf s →
          ∃ a ∈ (c 0).dropWhile (below kf s.heap x), vk kf s.heap a = x := by
        intro hmem
        rw [hkeysc] at hmem
        obtain ⟨a, ha, hva⟩ := List.mem_map.1 hmem
        rw [sorted_split (x := x) hc.sorted] at ha
        rcases List.mem_append.1 ha with h1 | h1
        · have h2 := hAx a h1
          rw [hva] at h2
          exact absurd h2 (lt_irrefl x)
        · exact ⟨a, h1, hva⟩
      cases hB0c : ((c 0).dropWhile (below kf s.heap x)).head? with
      | none =>
        refine ⟨(Removal.nothing, s), ?_, rfl, Or.inl ⟨rfl, rfl, ?_⟩⟩
        · rw [removeS]
          show (if vk kf s.heap s.head > x then _ else _) = _
          rw [if_neg hgt, if_neg heqx]
          simp only [Option.bind_eq_bind]
          rw [hT]
          simp only [Option.some_bind]
          rw [hread0, hp0next, hB0c]
        · intro hmem
          obtain ⟨a, ha, hva⟩ := hmemx hmem
          rw [List.head?_eq_none_iff] at hB0c
          rw [hB0c] at ha
          exact absurd ha (List.not_mem_nil a)
      | some cv =>
        have hcvB : cv ∈ (c 0).dropWhile (below kf s.heap x) :=
          List.mem_of_mem_head? hB0c
        by_cases hvcv : vk kf s.heap cv = x
        · obtain ⟨T2, h', lv', hT2, hequ, heq2, hinv', hkeys'⟩ :=
            removeAt_spec hinv hc hlt hB0c hvcv
          have hTT : T2 = T := by
            rw [hT] at hT2
            exact (Option.some_inj.1 hT2).symm
          rw [hTT] at hequ
          refine ⟨(Removal.one (nodeAt s.heap cv).val, ⟨s.rng, s.head, lv', h'⟩),
            ?_, rfl, Or.inr (Or.inl ⟨_, rfl, hvcv, hinv', hkeys'⟩)⟩
          rw [removeS]
          show (if vk kf s.heap s.head > x then _ else _) = _
          rw [if_neg hgt, if_neg heqx]
          simp only [Option.bind_eq_bind]
          rw [hT]
          simp only [Option.some_bind]
          rw [hread0, hp0next, hB0c]
          show (if vk kf s.heap cv ≠ x then some (Removal.nothing, s) else _) = _
          rw [if_neg (by simp [hvcv])]
          rw [Nat.min_eq_left hLN] at hequ
          rw [show min s.levels N = s.levels from Nat.min_eq_left hLN, hequ]
          simp only [Option.some_bind]
          rw [heq2]
          rfl
        · refine ⟨(Removal.nothing, s), ?_, rfl, Or.inl ⟨rfl, rfl, ?_⟩⟩
          · rw [removeS]
            show (if vk kf s.heap s.head > x then _ else _) = _
            rw [if_neg hgt, if_neg heqx]
            simp only [Option.bind_eq_bind]
            rw [hT]
            simp only [Option.some_bind]
            rw [hread0, hp0next, hB0c]
            show (if vk kf s.heap cv ≠ x then some (Removal.nothing, s) else _) = _
            rw [if_pos hvcv]
          · intro hmem
            obtain ⟨a, ha, hva⟩ := hmemx hmem
            have h1 : x ≤ vk kf s.heap cv := hBx cv hcvB
            have h2 : vk kf s.heap cv ≤ vk kf s.heap a := by
              have hs : SortedKeys kf s.heap
                  ((c 0).dropWhile (below kf s.heap x)) :=
                hc.sorted.sublist (List.dropWhile_sublist _)
              obtain ⟨u, hu⟩ : ∃ u, (c 0).dropWhile (below kf s.heap x) = cv :: u := by
                cases hB : (c 0).dropWhile (below kf s.heap x) with
                | nil => rw [hB] at hB0c; exact absurd hB0c (by simp)
                | cons b u =>
                  rw [hB] at hB0c
                  exact ⟨u, by rw [show b = cv by simpa using hB0c]⟩
              rw [hu, SortedKeys, List.pairwise_cons] at hs
              rw [hu] at ha
              rcases List.mem_cons.1 ha with rfl | ha'
              · exact le_refl _
              · exact hs.1 a ha'
            rw [hva] at h2
            exact hvcv (le_antisymm h2 h1)

end Remove

/-! ### Facade-level specifications -/

section FacadeSpec

variable {α κ : Type} [Inhabited α] [LinearOrder κ]

/-- A facade state is good when its storage, if any, satisfies the invariant. -/
def GoodM (kf : α → κ) (N : Nat) (s : SkipListM α) : Prop :=
  ∀ st, s = some st → Inv kf N st

theorem slContains_keys {kf : α → κ} {N : Nat} [DecidableEq κ]
    {s : SkipListM α} (hg : GoodM kf N s) (x : κ) :
    slContains kf s x = some (decide (x ∈ keysOf kf s)) := by
  cases s with
  | none =>
    show some false = some (decide (x ∈ (0 : Multiset κ)))
    simp
  | some st =>
    show containsS kf st x = some (decide (x ∈ keysOf kf (some st)))
    rw [containsS_spec (hg st rfl) x]
    congr 1
    rw [decide_eq_decide]
    exact Multiset.mem_coe.symm

theorem slInsert_spec {kf : α → κ} {N : Nat} [DecidableEq κ] (hN : 1 ≤ N)
    {s : SkipListM α} (hg : GoodM kf N s) (r : Rng) (v : α) :
    ∃ s', slInsert kf N r s v = some (some s') ∧ Inv kf N s' ∧
      keysOf kf (some s') = kf v ::ₘ keysOf kf s := by
  cases s with
  | none =>
    refine ⟨mkNew N r v, rfl, Inv_mkNew kf hN r v, ?_⟩
    show ((keysL kf (mkNew N r v) : List κ) : Multiset κ) = kf v ::ₘ 0
    rw [keysL_mkNew kf hN r v]
    rfl
  | some st =>
    obtain ⟨s', heq, hinv', h1, h2, h3, hkeys⟩ := insertS_spec (hg st rfl) v
    refine ⟨s', ?_, hinv', hkeys⟩
    show (insertS kf N st v).map some = some (some s')
    rw [heq]
    rfl

theorem slRemove_spec {kf : α → κ} {N : Nat} [DecidableEq κ]
    {s : SkipListM α} (hg : GoodM kf N s) (x : κ) :
    ∃ out s', slRemove kf N s x = some (out, s') ∧ GoodM kf N s' ∧
      keysOf kf s' = (keysOf kf s).erase x ∧
      (out = none ∧ x ∉ keysOf kf s ∨
        (∃ v, out = some v ∧ kf v = x ∧ x ∈ keysOf kf s)) := by
  cases s with
  | none =>
    refine ⟨none, none, rfl, fun st h => Option.noConfusion h, ?_,
      Or.inl ⟨rfl, ?_⟩⟩
    · show (0 : Multiset κ) = (0 : Multiset κ).erase x
      rw [Multiset.erase_zero]
    · show x ∉ (0 : Multiset κ)
      simp
  | some st =>
    obtain ⟨out, heq, hrng, hdisj⟩ := removeS_spec (hg st rfl) x
    obtain ⟨o1, o2⟩ := out
    rcases hdisj with ⟨h1, h2, h3⟩ | ⟨v, h1, h2, h3, h4⟩ | ⟨v, h1, h2, h3⟩
    · have h1' : o1 = Removal.nothing := h1
      have h2' : o2 = st := h2
      subst h1'
      rw [h2'] at heq
      refine ⟨none, some st, ?_, hg, ?_, Or.inl ⟨rfl, ?_⟩⟩
      · show (removeS kf N st x).map _ = _
        rw [heq]
        rfl
      · show ((keysL kf st : List κ) : Multiset κ) =
          ((keysL kf st : List κ) : Multiset κ).erase x
        rw [Multiset.erase_of_not_mem (by rw [Multiset.mem_coe]; exact h3)]
      · intro hc
        exact h3 (Multiset.mem_coe.1 hc)
    · have h1' : o1 = Removal.one v := h1
      subst h1'
      refine ⟨some v, some o2, ?_,
        fun st' hst' => (Option.some_inj.1 hst') ▸ h3, ?_,
        Or.inr ⟨v, rfl, h2, ?_⟩⟩
      · show (removeS kf N st x).map _ = _
        rw [heq]
        rfl
      · show ((keysL kf o2 : List κ) : Multiset κ) =
          ((keysL kf st : List κ) : Multiset κ).erase x
        rw [h4, Multiset.erase_cons_head]
      · show x ∈ ((keysL kf st : List κ) : Multiset κ)
        rw [h4]
        exact Multiset.mem_cons_self ..
    · have h1' : o1 = Removal.last v := h1
      subst h1'
      refine ⟨some v, none, ?_, fun st' hst' => Option.noConfusion hst', ?_,
        Or.inr ⟨v, rfl, h2, ?_⟩⟩
      · show (removeS kf N st x).map _ = _
        rw [heq]
        rfl
      · show (0 : Multiset κ) = ((keysL kf st : List κ) : Multiset κ).erase x
        rw [h3]
        simp
      · show x ∈ ((keysL kf st : List κ) : Multiset κ)
        rw [h3]
        simp

/-- The deallocation walk succeeds along any complete level-0 chain. -/
theorem dropWalk_chain {N : Nat} {h : Heap α} (hw : HeapWF N h) (hN : 1 ≤ N) :
    ∀ (l : List Nat) (a : Nat) (fuel : Nat), IsChain h 0 a l →
      (∀ b ∈ l, b < h.length) → l.length ≤ fuel →
      dropWalk h fuel a = some () := by
  intro l
  induction l with
  | nil => intro a fuel hchain _ _; exact absurd rfl hchain.ne_nil
  | cons b t ih =>
    intro a fuel hchain hmem hf
    have hba : b = a := by simpa using hchain.1
    subst hba
    cases fuel with
    | zero => exact absurd hf (by simp)
    | succ f =>
      have halt : b < h.length := hmem b (List.mem_cons_self ..)
      have hread : (nodeAt h b).nexts[0]? = some (nxt h b 0) :=
        getElem?_eq_getD (by rw [hw.nexts_length halt]; omega)
      have hn : nxt h b 0 = t.head? := hchain.head_nxt
      show (match (nodeAt h b).nexts[0]? with
        | none => none
        | some none => some ()
        | some (some z) => dropWalk h f z) = some ()
      rw [hread, hn]
      cases t with
      | nil => rfl
      | cons b2 t2 =>
        show dropWalk h f b2 = some ()
        exact ih b2 f hchain.tail.2
          (fun z hz => hmem z (List.mem_cons_of_mem _ hz))
          (by simpa using Nat.le_of_succ_le_succ hf)

theorem slDrop_spec {kf : α → κ} {N : Nat} (hN : 1 ≤ N) {s : SkipListM α}
    (hg : GoodM kf N s) : slDrop s = some () := by
  cases s with
  | none => rfl
  | some st =>
    have hinv := hg st rfl
    obtain ⟨c, hc⟩ := hinv.chainsOk
    show dropWalk st.heap (st.heap.length + 1) st.head = some ()
    refine dropWalk_chain hinv.wf hN (c 0) st.head _
      (hc.isch 0 hinv.one_le) (hinv.mem_lt hc hinv.one_le) ?_
    have := hinv.length_le hc hinv.one_le
    omega

end FacadeSpec

section ExecSpec

variable {κ : Type} [Inhabited κ] [LinearOrder κ]

theorem step_spec {N : Nat} (hN : 1 ≤ N) {s : SkipListM κ}
    (hg : GoodM id N s) (op : Op κ) :
    ∃ s', step N s op = some s' ∧ GoodM id N s' ∧
      keysOf id s' = (match op with
        | .ins _ v => v ::ₘ keysOf id s
        | .rem x => (keysOf id s).erase x) := by
  cases op with
  | ins r v =>
    obtain ⟨st', heq, hinv', hkeys⟩ := slInsert_spec hN hg r v
    exact ⟨some st', heq, fun u hu => (Option.some_inj.1 hu) ▸ hinv', hkeys⟩
  | rem x =>
    obtain ⟨out, s', heq, hg', hkeys, hdisj⟩ := slRemove_spec hg x
    refine ⟨s', ?_, hg', hkeys⟩
    show (slRemove id N s x).map Prod.snd = some s'
    rw [heq]
    rfl

theorem execFrom_spec {N : Nat} (hN : 1 ≤ N) :
    ∀ (ops : List (Op κ)) (s : SkipListM κ), GoodM id N s →
      ∃ s', execFrom N s ops = some s' ∧ GoodM id N s' ∧
        keysOf id s' = modelFrom (keysOf id s) ops := by
  intro ops
  induction ops with
  | nil => exact fun s hg => ⟨s, rfl, hg, rfl⟩
  | cons op rest ih =>
    intro s hg
    obtain ⟨s1, h1, hg1, hk1⟩ := step_spec hN hg op
    obtain ⟨s', h2, hg2, hk2⟩ := ih s1 hg1
    refine ⟨s', ?_, hg2, ?_⟩
    · show (step N s op).bind _ = some s'
      rw [h1]
      simpa using h2
    · cases op with
      | ins r v =>
        show keysOf id s' = modelFrom (v ::ₘ keysOf id s) rest
        rw [hk2, hk1]
      | rem x =>
        show keysOf id s' = modelFrom ((keysOf id s).erase x) rest
        rw [hk2, hk1]

theorem execOps_spec {N : Nat} (hN : 1 ≤ N) (ops : List (Op κ)) :
    ∃ s', execOps N ops = some s' ∧ GoodM id N s' ∧
      keysOf id s' = opsModel ops :=
  execFrom_spec hN ops none (fun st h => Option.noConfusion h)

end ExecSpec

/-! ### Map-level specifications -/

section MapSpec

variable {α κ : Type} [Inhabited α] [LinearOrder κ]

/-- The shared descend derivation: the trace exists and its bottom entry is
the last filtered node, whose link heads the remainder. -/
theorem descend_trace {kf : α → κ} {N : Nat} {s : Storage α}
    (hinv : Inv kf N s) {c : Nat → List Nat} (hc : ChainsOk kf s c)
    {x : κ} (hlt : vk kf s.heap s.head < x) :
    ∃ T, descendT kf s.heap x (s.heap.length + 1) s.head (s.levels - 1) =
        some T ∧
      (∀ j, j < s.levels → T.getD j 0 =
        ((c j).filter (below kf s.heap x)).getLastD s.head) ∧
      T.getD 0 s.head = ((c 0).filter (below kf s.heap x)).getLastD s.head ∧
      T.getD 0 s.head < s.heap.length ∧
      nxt s.heap (T.getD 0 s.head) 0 =
        ((c 0).dropWhile (below kf s.heap x)).head? := by
  have hL1 := hinv.one_le
  have hLN := hinv.le_N
  have hLs : s.levels - 1 < N := by omega
  have hlev : ∀ j, j ≤ s.levels - 1 → j < s.levels := by omega
  have hhead_mem : s.head ∈ (c (s.levels - 1)).filter (below kf s.heap x) := by
    obtain ⟨tL, htL⟩ := (hc.isch _ (hlev _ (le_refl _))).eq_cons
    rw [htL]
    exact List.mem_filter.2 ⟨List.mem_cons_self .., by simp [below, hlt]⟩
  obtain ⟨T, hT, hTlen, hTspec⟩ :=
    descendT_go (x := x) hinv.wf hinv.head_lt c hLs
      (fun j hj => hc.isch j (hlev j hj))
      (fun j hj => hc.nest j (hlev _ hj))
      (fun j hj => hc.sorted_i (hlev j hj))
      (fun j hj => Nat.le_succ_of_le (hinv.length_le hc (hlev j hj)))
      hhead_mem
  have hTspecL : ∀ j, j < s.levels →
      T.getD j 0 = ((c j).filter (below kf s.heap x)).getLastD s.head :=
    fun j hj => hTspec j (by omega)
  have hp0 : T.getD 0 s.head =
      ((c 0).filter (below kf s.heap x)).getLastD s.head := by
    rw [getD_default_irrel (by omega) s.head 0]
    exact hTspecL 0 hL1
  have hp0lt : T.getD 0 s.head < s.heap.length := by
    rw [hp0]
    exact hinv.mem_lt hc hL1 _
      ((List.filter_sublist _).mem (trace_next hinv hc hlt hL1).1)
  refine ⟨T, hT, hTspecL, hp0, hp0lt, ?_⟩
  rw [hp0]
  exact (trace_next hinv hc hlt hL1).2.2

/-- The modelled lookup, run on the descend branch. -/
theorem getS_run {kf : α → κ} {N : Nat} {s : Storage α}
    (hinv : Inv kf N s) {c : Nat → List Nat} (hc : ChainsOk kf s c)
    {x : κ} (hlt : vk kf s.heap s.head < x) :
    getS kf s x = some
      (match ((c 0).dropWhile (below kf s.heap x)).head? with
        | none => none
        | some a => if vk kf s.heap a = x then some (nodeAt s.heap a).val
            else none) := by
  obtain ⟨T, hT, hTspecL, hp0, hp0lt, hp0next⟩ := descend_trace hinv hc hlt
  have hread : (nodeAt s.heap (T.getD 0 s.head)).nexts[0]? =
      some (nxt s.heap (T.getD 0 s.head) 0) :=
    getElem?_eq_getD (by
      rw [hinv.wf.nexts_length hp0lt]
      have h1 := hinv.one_le
      have h2 := hinv.le_N
      omega)
  rw [getS, if_neg (not_lt.2 (le_of_lt hlt)), if_neg (ne_of_lt hlt)]
  simp only [Option.bind_eq_bind]
  rw [hT]
  simp only [Option.some_bind]
  rw [hread, hp0next]
  cases hB : ((c 0).dropWhile (below kf s.heap x)).head? with
  | none => rfl
  | some a =>
    show (if vk kf s.heap a = x then some (some (nodeAt s.heap a).val)
        else some none) = some (if vk kf s.heap a = x
        then some (nodeAt s.heap a).val else none)
    by_cases hva : vk kf s.heap a = x
    · rw [if_pos hva, if_pos hva]
    · rw [if_neg hva, if_neg hva]

/-- The modelled upsert, run on the descend branch. -/
theorem upsertS_run {kf : α → κ} {N : Nat} {s : Storage α}
    (hinv : Inv kf N s) {c : Nat → List Nat} (hc : ChainsOk kf s c)
    {v : α} (hlt : vk kf s.heap s.head < kf v) :
    ∃ T, descendT kf s.heap (kf v) (s.heap.length + 1) s.head (s.levels - 1) =
        some T ∧
      upsertS kf N s v =
        (match ((c 0).dropWhile (below kf s.heap (kf v))).head? with
          | none => (insertAt kf N s v T).map fun s' => (none, s')
          | some a =>
            if vk kf s.heap a = kf v then
              some (some (nodeAt s.heap a).val,
                { s with heap := s.heap.set a ⟨v, (nodeAt s.heap a).nexts⟩ })
            else (insertAt kf N s v T).map fun s' => (none, s')) := by
  obtain ⟨T, hT, hTspecL, hp0, hp0lt, hp0next⟩ := descend_trace hinv hc hlt
  have hread : (nodeAt s.heap (T.getD 0 s.head)).nexts[0]? =
      some (nxt s.heap (T.getD 0 s.head) 0) :=
    getElem?_eq_getD (by
      rw [hinv.wf.nexts_length hp0lt]
      have h1 := hinv.one_le
      have h2 := hinv.le_N
      omega)
  refine ⟨T, hT, ?_⟩
  rw [upsertS, if_neg (not_lt.2 (le_of_lt hlt)), if_neg (ne_of_lt hlt)]
  simp only [Option.bind_eq_bind]
  rw [hT]
  simp only [Option.some_bind]
  rw [hread, hp0next]
  cases hB : ((c 0).dropWhile (below kf s.heap (kf v))).head? with
  | none => rfl
  | some a => rfl

/-- Dropping the below-prefix of a splice leaves the new node in front. -/
theorem dropWhile_spliced {p : Nat → Bool} {len : Nat} (B : List Nat)
    (hlen : p len = false) :
    ∀ A : List Nat, (∀ a ∈ A, p a = true) →
      (A ++ len :: B).dropWhile p = len :: B := by
  intro A
  induction A with
  | nil =>
    intro _
    rw [List.nil_append, List.dropWhile_cons_of_neg (by rw [hlen]; simp)]
  | cons a A1 ih =>
    intro hA
    rw [List.cons_append,
      List.dropWhile_cons_of_pos (by rw [hA a (List.mem_cons_self ..)]),
      ih (fun z hz => hA z (List.mem_cons_of_mem _ hz))]

/-- Swapping a node's value for one with the same key preserves links, keys,
the chain family, and the invariant. -/
theorem swap_preserves {kf : α → κ} {N : Nat} {s : Storage α}
    (hinv : Inv kf N s) {c : Nat → List Nat} (hc : ChainsOk kf s c)
    {a : Nat} (ha : a < s.heap.length) {v : α}
    (hkv : kf v = vk kf s.heap a) :
    (∀ b i, nxt (s.heap.set a ⟨v, (nodeAt s.heap a).nexts⟩) b i =
      nxt s.heap b i) ∧
    (∀ b, vk kf (s.heap.set a ⟨v, (nodeAt s.heap a).nexts⟩) b =
      vk kf s.heap b) ∧
    ChainsOk kf { s with heap := s.heap.set a ⟨v, (nodeAt s.heap a).nexts⟩ } c ∧
    Inv kf N { s with heap := s.heap.set a ⟨v, (nodeAt s.heap a).nexts⟩ } := by
  have hnxt : ∀ b i, nxt (s.heap.set a ⟨v, (nodeAt s.heap a).nexts⟩) b i =
      nxt s.heap b i := by
    intro b i
    by_cases hba : b = a
    · subst hba
      rw [nxt, nodeAt_set_self ha]
      rfl
    · rw [nxt, nodeAt_set_ne hba]
      rfl
  have hvk : ∀ b, vk kf (s.heap.set a ⟨v, (nodeAt s.heap a).nexts⟩) b =
      vk kf s.heap b := by
    intro b
    by_cases hba : b = a
    · subst hba
      show kf (nodeAt (s.heap.set b ⟨v, (nodeAt s.heap b).nexts⟩) b).val =
        kf (nodeAt s.heap b).val
      rw [nodeAt_set_self ha]
      exact hkv
    · show kf (nodeAt (s.heap.set a ⟨v, (nodeAt s.heap a).nexts⟩) b).val =
        kf (nodeAt s.heap b).val
      rw [nodeAt_set_ne hba]
  have hok : ChainsOk kf
      { s with heap := s.heap.set a ⟨v, (nodeAt s.heap a).nexts⟩ } c := by
    refine ⟨?_, hc.nodup, ?_, hc.nest, ?_, ?_⟩ <;> dsimp only
    · intro i hi
      exact (hc.isch i hi).congr (fun z hz => hnxt z i)
    · rw [SortedKeys]
      refine List.Pairwise.imp ?_ hc.sorted
      intro z w hzw
      show vk kf _ z ≤ vk kf _ w
      rw [hvk z, hvk w]
      exact hzw
    · intro z hz i hige
      rw [hnxt z i]
      exact hc.high z hz i hige
    · intro z hz i hilt hne
      rw [hnxt z i] at hne
      exact hc.tower z hz i hilt hne
  refine ⟨hnxt, hvk, hok, ?_⟩
  refine ⟨hinv.one_le, hinv.le_N, ?_, ?_, ⟨_, hok⟩⟩
  · show s.head < (s.heap.set a ⟨v, (nodeAt s.heap a).nexts⟩).length
    rw [List.length_set]
    exact hinv.head_lt
  · intro b hb
    rw [List.length_set] at hb
    refine ⟨?_, ?_⟩
    · by_cases hba : b = a
      · subst hba
        rw [nodeAt_set_self ha]
        exact hinv.wf.nexts_length hb
      · rw [nodeAt_set_ne hba]
        exact hinv.wf.nexts_length hb
    · intro i z hz
      rw [hnxt b i] at hz
      rw [List.length_set]
      exact hinv.wf.nxt_lt hb hz

/-- Every key stored along the level-0 chain is a member of `keysL`. -/
theorem chain_key_mem {kf : α → κ} {N : Nat} {s : Storage α}
    (hinv : Inv kf N s) {c : Nat → List Nat} (hc : ChainsOk kf s c)
    {a : Nat} (ha : a ∈ c 0) : vk kf s.heap a ∈ keysL kf s := by
  rw [keysL, hinv.chains_eq hc hinv.one_le]
  exact List.mem_map_of_mem _ ha

theorem head_key_mem {kf : α → κ} {N : Nat} {s : Storage α}
    (hinv : Inv kf N s) {c : Nat → List Nat} (hc : ChainsOk kf s c) :
    vk kf s.heap s.head ∈ keysL kf s :=
  chain_key_mem hinv hc (hc.isch 0 hinv.one_le).head_mem

/-- The invariant chain family can always be taken to be the computed one. -/
theorem ChainsOk.computed {kf : α → κ} {N : Nat} {s : Storage α}
    (hinv : Inv kf N s) {c : Nat → List Nat} (hc : ChainsOk kf s c) :
    ChainsOk kf s (fun j => chains s j) := by
  refine ⟨?_, ?_, ?_, ?_, ?_, ?_⟩ <;> dsimp only
  · intro i hi
    rw [hinv.chains_eq hc hi]
    exact hc.isch i hi
  · rw [hinv.chains_eq hc hinv.one_le]
    exact hc.nodup
  · rw [hinv.chains_eq hc hinv.one_le]
    exact hc.sorted
  · intro i hi
    rw [hinv.chains_eq hc hi, hinv.chains_eq hc (by omega)]
    exact hc.nest i hi
  · intro a ha i hige
    rw [hinv.chains_eq hc hinv.one_le] at ha
    exact hc.high a ha i hige
  · intro a ha i hilt hne
    rw [hinv.chains_eq hc hinv.one_le] at ha
    rw [hinv.chains_eq hc hilt]
    exact hc.tower a ha i hilt hne

/-- The upsert at the head's own key swaps the value in place. -/
theorem upsertS_eq_head {kf : α → κ} {N : Nat} (s : Storage α) (v : α)
    (hv : vk kf s.heap s.head = kf v) :
    upsertS kf N s v = some (some (nodeAt s.heap s.head).val,
      { s with heap := s.heap.set s.head ⟨v, (nodeAt s.heap s.head).nexts⟩ }) := by
  rw [upsertS, if_neg (by rw [hv]; exact lt_irrefl _), if_pos hv]

/-- The lookup at the head's own key returns the head's value. -/
theorem getS_eq_head {kf : α → κ} (s : Storage α) (x : κ)
    (hv : vk kf s.heap s.head = x) :
    getS kf s x = some (some (nodeAt s.heap s.head).val) := by
  rw [getS, if_neg (by rw [hv]; exact lt_irrefl _), if_pos hv]

/-- The upsert finding its key at the remainder's first node swaps there. -/
theorem upsertS_found {kf : α → κ} {N : Nat} {s : Storage α}
    (hinv : Inv kf N s) {c : Nat → List Nat} (hc : ChainsOk kf s c)
    {v : α} (hlt : vk kf s.heap s.head < kf v) {a : Nat}
    (hB : ((c 0).dropWhile (below kf s.heap (kf v))).head? = some a)
    (hva : vk kf s.heap a = kf v) :
    upsertS kf N s v = some (some (nodeAt s.heap a).val,
      { s with heap := s.heap.set a ⟨v, (nodeAt s.heap a).nexts⟩ }) := by
  obtain ⟨T, hT, hups⟩ := upsertS_run hinv hc hlt
  rw [hups, hB]
  show (if vk kf s.heap a = kf v then _ else _) = _
  rw [if_pos hva]

/-- The upsert of an absent key takes the raw insertion path. -/
theorem upsertS_absent {kf : α → κ} {N : Nat} {s : Storage α}
    (hinv : Inv kf N s) {c : Nat → List Nat} (hc : ChainsOk kf s c)
    {v : α} (hlt : vk kf s.heap s.head < kf v)
    (hnot : kf v ∉ keysL kf s) :
    ∃ T, descendT kf s.heap (kf v) (s.heap.length + 1) s.head (s.levels - 1) =
        some T ∧
      upsertS kf N s v = (insertAt kf N s v T).map fun s' => (none, s') := by
  obtain ⟨T, hT, hups⟩ := upsertS_run hinv hc hlt
  refine ⟨T, hT, ?_⟩
  rw [hups]
  cases hB : ((c 0).dropWhile (below kf s.heap (kf v))).head? with
  | none => rfl
  | some a =>
    show (if vk kf s.heap a = kf v then _ else _) = _
    refine if_neg ?_
    intro hva
    refine hnot ?_
    rw [← hva]
    exact chain_key_mem hinv hc
      ((List.dropWhile_sublist _).mem (List.mem_of_mem_head? hB))

/-- The lookup finding its key at the remainder's first node returns it. -/
theorem getS_found {kf : α → κ} {N : Nat} {s : Storage α}
    (hinv : Inv kf N s) {c : Nat → List Nat} (hc : ChainsOk kf s c)
    {x : κ} (hlt : vk kf s.heap s.head < x) {a : Nat}
    (hB : ((c 0).dropWhile (below kf s.heap x)).head? = some a)
    (hva : vk kf s.heap a = x) :
    getS kf s x = some (some (nodeAt s.heap a).val) := by
  rw [getS_run hinv hc hlt, hB]
  show some (if vk kf s.heap a = x then _ else _) = _
  rw [if_pos hva]

end MapSpec


/-! ### Claims -/

section Claims

/-- C3: on the MAP, inserting a key `k` that is not currently present
returns none; a later insert of `(k, v2)` over the stored `(k, v1)` returns
`some v1` (the displaced value) and a subsequent `get k` yields `v2`.
The MAP's backing storage (`NonEmptyStorage`) is not under `src/`; its
`upsert` and `get` are the spec-modelled `upsertS` and `getS`. -/
theorem skipmap_upsert_get_replaces {K V : Type} [LinearOrder K] [Inhabited K]
    [Inhabited V] {N : Nat} (r : Rng) {s : SkipMapM K V}
    (hg : GoodM Prod.fst N s) {k : K} (hk : k ∉ keysOf Prod.fst s)
    (v1 v2 : V) :
    ∃ (s1 s2 : SkipMapM K V),
      smInsert N r s k v1 = some (none, s1) ∧
      smInsert N r s1 k v2 = some (some v1, s2) ∧
      smGet s2 k = some (some v2) := by
  cases s with
  | none =>
    have h2 : upsertS Prod.fst N (mkNew N r (k, v1)) ((k, v2) : K × V) =
        some (some (nodeAt (mkNew N r (k, v1)).heap
          (mkNew N r (k, v1)).head).val, { mkNew N r (k, v1) with
            heap := (mkNew N r (k, v1)).heap.set (mkNew N r (k, v1)).head
              ⟨(k, v2), (nodeAt (mkNew N r (k, v1)).heap
                (mkNew N r (k, v1)).head).nexts⟩ }) :=
      upsertS_eq_head (mkNew N r (k, v1)) ((k, v2) : K × V) rfl
    have h3 : getS Prod.fst ({ mkNew N r (k, v1) with
        heap := (mkNew N r (k, v1)).heap.set (mkNew N r (k, v1)).head
          ⟨(k, v2), (nodeAt (mkNew N r (k, v1)).heap
            (mkNew N r (k, v1)).head).nexts⟩ } : Storage (K × V)) k =
        some (some ((k, v2) : K × V)) :=
      getS_eq_head _ k rfl
    refine ⟨some (mkNew N r (k, v1)), some ({ mkNew N r (k, v1) with
        heap := (mkNew N r (k, v1)).heap.set (mkNew N r (k, v1)).head
          ⟨(k, v2), (nodeAt (mkNew N r (k, v1)).heap
            (mkNew N r (k, v1)).head).nexts⟩ } : Storage (K × V)),
      rfl, ?_, ?_⟩
    · show (upsertS Prod.fst N (mkNew N r (k, v1)) ((k, v2) : K × V)).map _ = _
      rw [h2]
      rfl
    · show (getS Prod.fst _ k).map _ = _
      rw [h3]
      rfl
  | some st =>
    have hinv := hg st rfl
    obtain ⟨c, hc⟩ := hinv.chainsOk
    have hknot : k ∉ keysL Prod.fst st := fun hmem => hk (Multiset.mem_coe.2 hmem)
    rcases lt_trichotomy (vk Prod.fst st.heap st.head) k with hlt | heqk | hgt
    · -- head key below k: the splice path
      obtain ⟨T, s1, Kk, hT, heqI, hrng1, hhd1, hlev1, hK2, hlen1, hvalc1,
        hvalo1, hinv1, hok1⟩ :=
        insertAt_spec hinv hc (v := ((k, v1) : K × V)) hlt
      obtain ⟨T2, hT2, hups⟩ :=
        upsertS_absent hinv hc (v := ((k, v1) : K × V)) hlt hknot
      have hTT : T2 = T := Option.some_inj.1 ((hT2.symm).trans hT)
      rw [hTT] at hups
      have hup1 : upsertS Prod.fst N st ((k, v1) : K × V) = some (none, s1) := by
        rw [hups, heqI]
        rfl
      have hlen1symm : st.heap.length < s1.heap.length := by omega
      have hvkn : vk Prod.fst s1.heap st.heap.length = k := by
        show Prod.fst (nodeAt s1.heap st.heap.length).val = k
        rw [hvalc1]
      have hlt1 : vk Prod.fst s1.heap s1.head < Prod.fst ((k, v2) : K × V) := by
        show Prod.fst (nodeAt s1.heap s1.head).val < k
        rw [hhd1, hvalo1 st.head hinv.head_lt]
        exact hlt
      have hch1 : chains s1 0 =
          (c 0).filter (below Prod.fst st.heap (Prod.fst ((k, v1) : K × V))) ++
            st.heap.length :: (c 0).dropWhile
              (below Prod.fst st.heap (Prod.fst ((k, v1) : K × V))) :=
        (hinv1.chains_eq hok1 hinv1.one_le).trans
          (if_pos ⟨Nat.zero_le _, hinv.one_le⟩)
      have hdrop1 : (chains s1 0).dropWhile
          (below Prod.fst s1.heap (Prod.fst ((k, v2) : K × V))) =
          st.heap.length :: (c 0).dropWhile
            (below Prod.fst st.heap (Prod.fst ((k, v1) : K × V))) := by
        rw [hch1]
        refine dropWhile_spliced _ ?_ _ ?_
        · show below Prod.fst s1.heap k st.heap.length = false
          simp only [below]
          rw [show vk Prod.fst s1.heap st.heap.length = k from hvkn]
          simp
        · intro a ha
          have ham : a ∈ c 0 := (List.filter_sublist _).mem ha
          have halt : a < st.heap.length := hinv.mem_lt hc hinv.one_le a ham
          have hb := (List.mem_filter.1 ha).2
          show below Prod.fst s1.heap k a = true
          simp only [below] at hb ⊢
          show decide (Prod.fst (nodeAt s1.heap a).val < k) = true
          rw [hvalo1 a halt]
          exact hb
      have hB1 : ((chains s1 0).dropWhile
          (below Prod.fst s1.heap (Prod.fst ((k, v2) : K × V)))).head? =
          some st.heap.length := by
        rw [hdrop1]
        rfl
      have hup2 : upsertS Prod.fst N s1 ((k, v2) : K × V) =
          some (some (nodeAt s1.heap st.heap.length).val, { s1 with
            heap := s1.heap.set st.heap.length ⟨(k, v2),
              (nodeAt s1.heap st.heap.length).nexts⟩ }) :=
        upsertS_found hinv1 (hok1.computed hinv1) hlt1 hB1 hvkn
      -- the state after the swap
      obtain ⟨hnxt2, hvk2, hok2, hinv2⟩ :=
        swap_preserves hinv1 (hok1.computed hinv1) hlen1symm
          (v := ((k, v2) : K × V)) (by rw [hvkn])
      have hlt2 : vk Prod.fst ({ s1 with
            heap := s1.heap.set st.heap.length ⟨(k, v2),
              (nodeAt s1.heap st.heap.length).nexts⟩ } :
          Storage (K × V)).heap s1.head < k := by
        show vk Prod.fst (s1.heap.set st.heap.length
          ⟨(k, v2), (nodeAt s1.heap st.heap.length).nexts⟩) s1.head < k
        rw [hvk2 s1.head]
        exact hlt1
      have hdrop2 : (chains s1 0).dropWhile
          (below Prod.fst ({ s1 with
            heap := s1.heap.set st.heap.length ⟨(k, v2),
              (nodeAt s1.heap st.heap.length).nexts⟩ } :
          Storage (K × V)).heap k) =
          st.heap.length :: (c 0).dropWhile
            (below Prod.fst st.heap (Prod.fst ((k, v1) : K × V))) := by
        show (chains s1 0).dropWhile
          (below Prod.fst (s1.heap.set st.heap.length
            ⟨(k, v2), (nodeAt s1.heap st.heap.length).nexts⟩) k) = _
        rw [hch1]
        refine dropWhile_spliced _ ?_ _ ?_
        · show below Prod.fst _ k st.heap.length = false
          simp only [below]
          rw [show vk Prod.fst (s1.heap.set st.heap.length
              ⟨(k, v2), (nodeAt s1.heap st.heap.length).nexts⟩)
              st.heap.length = vk Prod.fst s1.heap st.heap.length from
            hvk2 st.heap.length, hvkn]
          simp
        · intro a ha
          have ham : a ∈ c 0 := (List.filter_sublist _).mem ha
          have halt : a < st.heap.length := hinv.mem_lt hc hinv.one_le a ham
          have hb := (List.mem_filter.1 ha).2
          show below Prod.fst _ k a = true
          simp only [below] at hb ⊢
          rw [show vk Prod.fst (s1.heap.set st.heap.length
              ⟨(k, v2), (nodeAt s1.heap st.heap.length).nexts⟩) a =
            vk Prod.fst s1.heap a from hvk2 a]
          show decide (Prod.fst (nodeAt s1.heap a).val < k) = true
          rw [hvalo1 a halt]
          exact hb
      have hB2 : ((chains s1 0).dropWhile
          (below Prod.fst ({ s1 with
            heap := s1.heap.set st.heap.length ⟨(k, v2),
              (nodeAt s1.heap st.heap.length).nexts⟩ } :
          Storage (K × V)).heap k)).head? =
          some st.heap.length := by
        rw [hdrop2]
        rfl
      have hva2 : vk Prod.fst ({ s1 with
            heap := s1.heap.set st.heap.length ⟨(k, v2),
              (nodeAt s1.heap st.heap.length).nexts⟩ } :
          Storage (K × V)).heap st.heap.length = k := by
        show vk Prod.fst (s1.heap.set st.heap.length
          ⟨(k, v2), (nodeAt s1.heap st.heap.length).nexts⟩) st.heap.length = k
        rw [hvk2 st.heap.length]
        exact hvkn
      have hget : getS Prod.fst ({ s1 with
            heap := s1.heap.set st.heap.length ⟨(k, v2),
              (nodeAt s1.heap st.heap.length).nexts⟩ } :
          Storage (K × V)) k =
          some (some (nodeAt ({ s1 with
            heap := s1.heap.set st.heap.length ⟨(k, v2),
              (nodeAt s1.heap st.heap.length).nexts⟩ } :
          Storage (K × V)).heap st.heap.length).val) :=
        getS_found hinv2 hok2 hlt2 hB2 hva2
      have hvalswap : (nodeAt ({ s1 with
            heap := s1.heap.set st.heap.length ⟨(k, v2),
              (nodeAt s1.heap st.heap.length).nexts⟩ } :
          Storage (K × V)).heap st.heap.length).val = ((k, v2) : K × V) := by
        show (nodeAt (s1.heap.set st.heap.length
          ⟨(k, v2), (nodeAt s1.heap st.heap.length).nexts⟩)
            st.heap.length).val = ((k, v2) : K × V)
        rw [nodeAt_set_self hlen1symm]
      refine ⟨some s1, some ({ s1 with
          heap := s1.heap.set st.heap.length ⟨(k, v2),
            (nodeAt s1.heap st.heap.length).nexts⟩ } : Storage (K × V)),
        ?_, ?_, ?_⟩
      · show (upsertS Prod.fst N st ((k, v1) : K × V)).map _ = _
        rw [hup1]
        rfl
      · show (upsertS Prod.fst N s1 ((k, v2) : K × V)).map _ = _
        rw [hup2, hvalc1]
        rfl
      · show (getS Prod.fst _ k).map _ = _
        rw [hget, hvalswap]
        rfl
    · exact absurd (heqk ▸ head_key_mem hinv hc) hknot
    · -- head key above k: the head-insert path
      have hle : Prod.fst ((k, v1) : K × V) ≤ vk Prod.fst st.heap st.head :=
        le_of_lt hgt
      obtain ⟨s1, heqH, hrng1, hlev1, hhd1, hlen1, hvalh1, hvalo1, hn01, hhi1,
        hok1, hinv1⟩ := insertHead_spec hinv hc hle
      have hvk1 : vk Prod.fst s1.heap s1.head = Prod.fst ((k, v2) : K × V) := by
        show Prod.fst (nodeAt s1.heap s1.head).val = k
        rw [hvalh1]
      have hup1 : upsertS Prod.fst N st ((k, v1) : K × V) = some (none, s1) := by
        rw [upsertS, if_pos hgt, heqH]
        rfl
      have hup2 : upsertS Prod.fst N s1 ((k, v2) : K × V) =
          some (some (nodeAt s1.heap s1.head).val, { s1 with
            heap := s1.heap.set s1.head ⟨(k, v2),
              (nodeAt s1.heap s1.head).nexts⟩ }) :=
        upsertS_eq_head s1 ((k, v2) : K × V) hvk1
      have hvk2 : vk Prod.fst (s1.heap.set s1.head
          ⟨(k, v2), (nodeAt s1.heap s1.head).nexts⟩) s1.head = k := by
        show Prod.fst (nodeAt (s1.heap.set s1.head
          ⟨(k, v2), (nodeAt s1.heap s1.head).nexts⟩) s1.head).val = k
        rw [nodeAt_set_self hinv1.head_lt]
      have hget : getS Prod.fst ({ s1 with
          heap := s1.heap.set s1.head ⟨(k, v2),
            (nodeAt s1.heap s1.head).nexts⟩ } : Storage (K × V)) k =
          some (some (nodeAt ({ s1 with
            heap := s1.heap.set s1.head ⟨(k, v2),
              (nodeAt s1.heap s1.head).nexts⟩ } : Storage (K × V)).heap
            s1.head).val) :=
        getS_eq_head _ k hvk2
      have hvalswap : (nodeAt (s1.heap.set s1.head
          ⟨(k, v2), (nodeAt s1.heap s1.head).nexts⟩) s1.head).val =
          ((k, v2) : K × V) := by
        rw [nodeAt_set_self hinv1.head_lt]
      refine ⟨some s1, some ({ s1 with
          heap := s1.heap.set s1.head ⟨(k, v2),
            (nodeAt s1.heap s1.head).nexts⟩ } : Storage (K × V)),
        ?_, ?_, ?_⟩
      · show (upsertS Prod.fst N st ((k, v1) : K × V)).map _ = _
        rw [hup1]
        rfl
      · show (upsertS Prod.fst N s1 ((k, v2) : K × V)).map _ = _
        rw [hup2, hvalh1]
        rfl
      · show (getS Prod.fst _ k).map _ = _
        rw [hget, hvalswap]
        rfl


/-- C3 witness: the claim applied on the empty map with key 5 and values
10 then 20. -/
theorem skipmap_upsert_get_replaces_witness :
    ∃ (s1 s2 : SkipMapM Nat Nat),
      smInsert 2 ⟨fun _ => 0, 0⟩ (none : SkipMapM Nat Nat) 5 10 = some (none, s1) ∧
      smInsert 2 ⟨fun _ => 0, 0⟩ s1 5 20 = some (some 10, s2) ∧
      smGet s2 5 = some (some 20) :=
  skipmap_upsert_get_replaces ⟨fun _ => 0, 0⟩
    (fun st h => Option.noConfusion h)
    (show (5 : Nat) ∉ keysOf Prod.fst (none : SkipMapM Nat Nat) by
      simp [keysOf]) 10 20

/-- C1: over every sequence of insert and remove operations, `contains v`
answers exactly whether `v` is in the reference multiset (one occurrence
added per insert, one erased per remove), and `contains` on the empty
container is false. -/
theorem contains_iff_model {κ : Type} [Inhabited κ] [LinearOrder κ]
    {N : Nat} (hN : 1 ≤ N) (ops : List (Op κ)) (v : κ) :
    (execOps N ops).bind (fun s => slContains id s v) =
      some (decide (v ∈ opsModel ops)) ∧
    slContains (id : κ → κ) none v = some false := by
  obtain ⟨s', heq, hg, hkeys⟩ := execOps_spec hN ops
  refine ⟨?_, rfl⟩
  rw [heq]
  show slContains id s' v = _
  rw [slContains_keys hg v, hkeys]

/-- C1 witness: a single insert of 5, probed at 5. -/
theorem contains_iff_model_witness :
    (execOps 2 [Op.ins ⟨fun _ => 0, 0⟩ 5]).bind (fun s => slContains id s 5) =
      some (decide ((5 : Nat) ∈ opsModel [Op.ins ⟨fun _ => 0, 0⟩ 5])) ∧
    slContains (id : Nat → Nat) none 5 = some false :=
  contains_iff_model (by decide) [Op.ins ⟨fun _ => 0, 0⟩ 5] 5

/-- C2: on a state not containing `v`, insert `v` then remove `v`: the remove
returns `some v`, every later `contains` probe answers as before the pair,
and `contains v` is false. -/
theorem insert_remove_roundtrip {κ : Type} [Inhabited κ] [LinearOrder κ]
    {N : Nat} (hN : 1 ≤ N) {s : SkipListM κ} (hg : GoodM id N s)
    (r : Rng) {v : κ} (hv : v ∉ keysOf id s) :
    ∃ s1 out s2, slInsert id N r s v = some (some s1) ∧
      slRemove id N (some s1) v = some (out, s2) ∧
      out = some v ∧
      (∀ w, slContains id s2 w = slContains id s w) ∧
      slContains id s2 v = some false := by
  obtain ⟨s1, h1, hinv1, hk1⟩ := slInsert_spec hN hg r v
  simp only [id_eq] at hk1
  have hg1 : GoodM id N (some s1) := fun u hu => (Option.some_inj.1 hu) ▸ hinv1
  obtain ⟨out, s2, h2, hg2, hk2, hdisj⟩ := slRemove_spec hg1 v
  rw [hk1, Multiset.erase_cons_head] at hk2
  refine ⟨s1, out, s2, h1, h2, ?_, ?_, ?_⟩
  · rcases hdisj with ⟨_, habs⟩ | ⟨u, hout, hu, _⟩
    · exact absurd (hk1 ▸ Multiset.mem_cons_self v _) habs
    · rw [hout, show u = v from hu]
  · intro w
    rw [slContains_keys hg2 w, slContains_keys hg w, hk2]
  · rw [slContains_keys hg2 v, hk2]
    simp [hv]

/-- C2 witness: the claim applied on the empty container with value 5. -/
theorem insert_remove_roundtrip_witness :
    ∃ s1 out s2,
      slInsert id 2 ⟨fun _ => 0, 0⟩ (none : SkipListM Nat) 5 = some (some s1) ∧
      slRemove id 2 (some s1) 5 = some (out, s2) ∧
      out = some 5 ∧
      (∀ w, slContains id s2 w = slContains id s2 w) ∧
      slContains id s2 5 = some false := by
  obtain ⟨s1, out, s2, h1, h2, h3, h4, h5⟩ :=
    insert_remove_roundtrip (N := 2) (by decide) (fun st h => Option.noConfusion h)
      ⟨fun _ => 0, 0⟩
      (show (5 : Nat) ∉ keysOf id (none : SkipListM Nat) by simp [keysOf])
  exact ⟨s1, out, s2, h1, h2, h3, fun w => rfl, h5⟩

/-- C4 counterexample: after the valid operation sequence that inserts 5
twice, the level-0 sequence of values from the head is `[5, 5]`, the live
level count is 1, and `[5, 5]` is not strictly increasing: the chains are
only non-decreasing, not strictly increasing as claimed. -/
theorem level_chains_strict_cex :
    (execOps 2 [Op.ins ⟨fun _ => 0, 0⟩ 5, Op.ins ⟨fun _ => 0, 0⟩ (5 : Nat)]).map
        (fun s => s.map (fun st => (vals st, st.levels))) =
      some (some ([5, 5], 1)) ∧
    ¬ List.Pairwise (fun a b : Nat => a < b) [5, 5] :=
  ⟨rfl, by decide⟩

/-- C4 (amended): in every externally observable state, for every level
`i < levels` the key sequence along the level-`i` chain is sorted
non-decreasing (not strictly increasing: duplicate inserts yield equal
adjacent values) and the level-`i` chain is a sublist of the level-0
chain. -/
theorem level_chains_sorted_sublist {κ : Type} [Inhabited κ] [LinearOrder κ]
    {N : Nat} (hN : 1 ≤ N) (ops : List (Op κ)) {st : Storage κ}
    (heq : execOps N ops = some (some st)) :
    ∀ i, i < st.levels →
      SortedKeys id st.heap (chains st i) ∧ chains st i <+ chains st 0 := by
  obtain ⟨s', heq2, hg, _⟩ := execOps_spec hN ops
  rw [heq2] at heq
  have hinv := hg st (Option.some_inj.1 heq)
  obtain ⟨c, hc⟩ := hinv.chainsOk
  intro i hi
  rw [hinv.chains_eq hc hi, hinv.chains_eq hc hinv.one_le]
  exact ⟨hc.sorted.sublist (hc.sub_zero i hi), hc.sub_zero i hi⟩

/-- C4 witness: the amended claim applied after one insert of 5, at level 0. -/
theorem level_chains_sorted_sublist_witness :
    SortedKeys id (mkNew 2 ⟨fun _ => 0, 0⟩ (5 : Nat)).heap
        (chains (mkNew 2 ⟨fun _ => 0, 0⟩ (5 : Nat)) 0) ∧
      chains (mkNew 2 ⟨fun _ => 0, 0⟩ (5 : Nat)) 0 <+
        chains (mkNew 2 ⟨fun _ => 0, 0⟩ (5 : Nat)) 0 :=
  level_chains_sorted_sublist (by decide) [Op.ins ⟨fun _ => 0, 0⟩ 5] rfl 0
    (by decide)

/-- C5: every externally observable storage state has `1 ≤ levels ≤ N`, and a
single insert raises `levels` by at most one while keeping it at most `N`;
so no number of inserts makes `levels` exceed `N`. -/
theorem levels_bounded {κ : Type} [Inhabited κ] [LinearOrder κ]
    {N : Nat} (hN : 1 ≤ N) (ops : List (Op κ)) {st : Storage κ}
    (heq : execOps N ops = some (some st)) :
    1 ≤ st.levels ∧ st.levels ≤ N ∧
      ∀ v, ∃ st', insertS id N st v = some st' ∧
        st.levels ≤ st'.levels ∧ st'.levels ≤ st.levels + 1 ∧
        st'.levels ≤ N := by
  obtain ⟨s', heq2, hg, _⟩ := execOps_spec hN ops
  rw [heq2] at heq
  have hinv := hg st (Option.some_inj.1 heq)
  refine ⟨hinv.one_le, hinv.le_N, fun v => ?_⟩
  obtain ⟨st', heqi, hinv', hlow, hhigh, _, _⟩ := insertS_spec hinv v
  exact ⟨st', heqi, hlow, hhigh, hinv'.le_N⟩

/-- C5 witness: the claim applied after one insert of 5 with `N = 2`,
probing a further insert of 3. -/
theorem levels_bounded_witness :
    1 ≤ (mkNew 2 ⟨fun _ => 0, 0⟩ (5 : Nat)).levels ∧
      (mkNew 2 ⟨fun _ => 0, 0⟩ (5 : Nat)).levels ≤ 2 ∧
      ∀ v, ∃ st', insertS id 2 (mkNew 2 ⟨fun _ => 0, 0⟩ (5 : Nat)) v = some st' ∧
        (mkNew 2 ⟨fun _ => 0, 0⟩ (5 : Nat)).levels ≤ st'.levels ∧
        st'.levels ≤ (mkNew 2 ⟨fun _ => 0, 0⟩ (5 : Nat)).levels + 1 ∧
        st'.levels ≤ 2 :=
  levels_bounded (by decide) [Op.ins ⟨fun _ => 0, 0⟩ 5] rfl

/-- C6: inserting a value at most the head's value prepends a new head node:
`levels` is unchanged, the new node sits at the end of the heap, carries the
value, links to the old head at level 0, and at every level `1..levels`
takes over the old head's link while the old head's link there is cleared. -/
theorem insert_below_head_prepends {κ : Type} [Inhabited κ] [LinearOrder κ]
    {N : Nat} {st : Storage κ} (hinv : Inv id N st) {v : κ}
    (hle : v ≤ vk id st.heap st.head) :
    ∃ st', insertS id N st v = some st' ∧
      st'.levels = st.levels ∧
      st'.head = st.heap.length ∧
      st'.heap.length = st.heap.length + 1 ∧
      (nodeAt st'.heap st'.head).val = v ∧
      nxt st'.heap st'.head 0 = some st.head ∧
      (∀ i, 1 ≤ i → i < st.levels →
        nxt st'.heap st'.head i = nxt st.heap st.head i ∧
        nxt st'.heap st.head i = none) := by
  obtain ⟨c, hc⟩ := hinv.chainsOk
  have hge : id v ≤ vk id st.heap st.head := hle
  obtain ⟨s', heqH, hrng, hlev, hhd, hlen, hvalh, hvalo, hn0, hhi, hok, hinv'⟩ :=
    insertHead_spec hinv hc hge
  refine ⟨s', ?_, hlev, hhd, hlen, hvalh, hn0, hhi⟩
  rw [insertS, if_pos hge]
  exact heqH

/-- C6 witness: inserting 3 below the head value 5. -/
theorem insert_below_head_prepends_witness :
    ∃ st', insertS id 2 (mkNew 2 ⟨fun _ => 0, 0⟩ (5 : Nat)) 3 = some st' ∧
      st'.levels = (mkNew 2 ⟨fun _ => 0, 0⟩ (5 : Nat)).levels ∧
      st'.head = (mkNew 2 ⟨fun _ => 0, 0⟩ (5 : Nat)).heap.length ∧
      st'.heap.length = (mkNew 2 ⟨fun _ => 0, 0⟩ (5 : Nat)).heap.length + 1 ∧
      (nodeAt st'.heap st'.head).val = 3 ∧
      nxt st'.heap st'.head 0 = some (mkNew 2 ⟨fun _ => 0, 0⟩ (5 : Nat)).head ∧
      (∀ i, 1 ≤ i → i < (mkNew 2 ⟨fun _ => 0, 0⟩ (5 : Nat)).levels →
        nxt st'.heap st'.head i =
          nxt (mkNew 2 ⟨fun _ => 0, 0⟩ (5 : Nat)).heap
            (mkNew 2 ⟨fun _ => 0, 0⟩ (5 : Nat)).head i ∧
        nxt st'.heap (mkNew 2 ⟨fun _ => 0, 0⟩ (5 : Nat)).head i = none) :=
  insert_below_head_prepends (Inv_mkNew id (by decide) ⟨fun _ => 0, 0⟩ 5)
    (by decide)

/-- C7 counterexample: an insert below the head value mutates the random
source zero times (the head-replacement path draws no word), refuting
"every call to insert draws exactly one 64-bit word": the draw-position
index is still 0 after the insert. -/
theorem insert_draw_cex :
    (insertS id 2 (mkNew 2 ⟨fun _ => 0, 0⟩ 5) (3 : Nat)).map
        (fun st' => st'.rng.idx) = some 0 ∧
    (mkNew 2 ⟨fun _ => 0, 0⟩ (5 : Nat)).rng.idx = 0 :=
  ⟨rfl, rfl⟩

/-- C7 (amended): insert draws exactly one word from the random source when
the inserted key exceeds the head key (the descend path) and none otherwise
(the head-replacement path), and remove never mutates the random source; in
the embedding `contains` takes the storage by value and returns only a
Boolean, so it cannot mutate the source. -/
theorem rng_frame {κ : Type} [Inhabited κ] [LinearOrder κ]
    {N : Nat} {st : Storage κ} (hinv : Inv id N st) (v x : κ) :
    (∃ st', insertS id N st v = some st' ∧
      st'.rng = (if vk id st.heap st.head < id v
        then ⟨st.rng.stream, st.rng.idx + 1⟩ else st.rng)) ∧
    (∃ out, removeS id N st x = some out ∧ out.2.rng = st.rng) := by
  constructor
  · obtain ⟨st', heqi, _, _, _, hrng, _⟩ := insertS_spec hinv v
    exact ⟨st', heqi, hrng⟩
  · obtain ⟨out, heqr, hrng, _⟩ := removeS_spec hinv x
    exact ⟨out, heqr, hrng⟩

/-- C7 witness: the amended claim on a head value 5, inserting 7 and
removing 3. -/
theorem rng_frame_witness :
    (∃ st', insertS id 2 (mkNew 2 ⟨fun _ => 0, 0⟩ (5 : Nat)) 7 = some st' ∧
      st'.rng = (if vk id (mkNew 2 ⟨fun _ => 0, 0⟩ (5 : Nat)).heap
          (mkNew 2 ⟨fun _ => 0, 0⟩ (5 : Nat)).head < id 7
        then ⟨(mkNew 2 ⟨fun _ => 0, 0⟩ (5 : Nat)).rng.stream,
          (mkNew 2 ⟨fun _ => 0, 0⟩ (5 : Nat)).rng.idx + 1⟩
        else (mkNew 2 ⟨fun _ => 0, 0⟩ (5 : Nat)).rng)) ∧
    (∃ out, removeS id 2 (mkNew 2 ⟨fun _ => 0, 0⟩ (5 : Nat)) 3 = some out ∧
      out.2.rng = (mkNew 2 ⟨fun _ => 0, 0⟩ (5 : Nat)).rng) :=
  rng_frame (Inv_mkNew id (by decide) ⟨fun _ => 0, 0⟩ 5) 7 3

/-- C8: removing a key that matches no stored value returns the absent
outcome together with the storage state itself, unchanged in every
component (head, links, levels, random source). -/
theorem remove_absent_noop {κ : Type} [Inhabited κ] [LinearOrder κ]
    {N : Nat} {st : Storage κ} (hinv : Inv id N st) {x : κ}
    (habs : x ∉ keysL id st) :
    removeS id N st x = some (Removal.nothing, st) := by
  obtain ⟨out, heq, _, hdisj⟩ := removeS_spec hinv x
  rcases hdisj with ⟨h1, h2, _⟩ | ⟨u, _, _, _, hkeys⟩ | ⟨u, _, _, hkeys⟩
  · obtain ⟨o1, o2⟩ := out
    simp only at h1 h2
    rw [heq, h1, h2]
  · exact absurd (Multiset.mem_coe.1 (hkeys ▸ Multiset.mem_cons_self x _)) habs
  · exact absurd (hkeys ▸ List.mem_singleton.2 rfl) habs

/-- C8 witness: removing the absent key 3 from the singleton container
holding 5. -/
theorem remove_absent_noop_witness :
    removeS id 2 (mkNew 2 ⟨fun _ => 0, 0⟩ (5 : Nat)) 3 =
      some (Removal.nothing, mkNew 2 ⟨fun _ => 0, 0⟩ (5 : Nat)) :=
  remove_absent_noop (Inv_mkNew id (by decide) ⟨fun _ => 0, 0⟩ 5) (by decide)

/-- C9: the SET admits duplicates: inserting `x` twice into a state not
containing `x`, both removes succeed returning `x`, `contains x` stays true
after the first remove and turns false only after the second. -/
theorem duplicate_insert_two_removes {κ : Type} [Inhabited κ] [LinearOrder κ]
    {N : Nat} (hN : 1 ≤ N) {s : SkipListM κ} (hg : GoodM id N s)
    (r1 r2 : Rng) {x : κ} (hx : x ∉ keysOf id s) :
    ∃ s1 s2 out3 s3 out4 s4,
      slInsert id N r1 s x = some (some s1) ∧
      slInsert id N r2 (some s1) x = some (some s2) ∧
      slContains id (some s2) x = some true ∧
      slRemove id N (some s2) x = some (out3, s3) ∧ out3 = some x ∧
      slContains id s3 x = some true ∧
      slRemove id N s3 x = some (out4, s4) ∧ out4 = some x ∧
      slContains id s4 x = some false := by
  obtain ⟨s1, h1, hinv1, hk1⟩ := slInsert_spec hN hg r1 x
  simp only [id_eq] at hk1
  have hg1 : GoodM id N (some s1) := fun u hu => (Option.some_inj.1 hu) ▸ hinv1
  obtain ⟨s2, h2, hinv2, hk2⟩ := slInsert_spec hN hg1 r2 x
  simp only [id_eq] at hk2
  rw [hk1] at hk2
  have hg2 : GoodM id N (some s2) := fun u hu => (Option.some_inj.1 hu) ▸ hinv2
  obtain ⟨out3, s3, h3, hg3, hk3, hdisj3⟩ := slRemove_spec hg2 x
  rw [hk2, Multiset.erase_cons_head] at hk3
  obtain ⟨out4, s4, h4, hg4, hk4, hdisj4⟩ := slRemove_spec hg3 x
  rw [hk3, Multiset.erase_cons_head] at hk4
  refine ⟨s1, s2, out3, s3, out4, s4, h1, h2, ?_, h3, ?_, ?_, h4, ?_, ?_⟩
  · rw [slContains_keys hg2 x, hk2]
    simp
  · rcases hdisj3 with ⟨_, habs⟩ | ⟨u, hout, hu, _⟩
    · exact absurd (hk2 ▸ Multiset.mem_cons_self x _) habs
    · rw [hout, show u = x from hu]
  · rw [slContains_keys hg3 x, hk3]
    simp
  · rcases hdisj4 with ⟨_, habs⟩ | ⟨u, hout, hu, _⟩
    · exact absurd (hk3 ▸ Multiset.mem_cons_self x _) habs
    · rw [hout, show u = x from hu]
  · rw [slContains_keys hg4 x, hk4]
    simp [hx]

/-- C9 witness: inserting 5 twice into the empty container, then removing
it twice. -/
theorem duplicate_insert_two_removes_witness :
    ∃ s1 s2 out3 s3 out4 s4,
      slInsert id 2 ⟨fun _ => 0, 0⟩ (none : SkipListM Nat) 5 = some (some s1) ∧
      slInsert id 2 ⟨fun _ => 0, 0⟩ (some s1) 5 = some (some s2) ∧
      slContains id (some s2) 5 = some true ∧
      slRemove id 2 (some s2) 5 = some (out3, s3) ∧ out3 = some 5 ∧
      slContains id s3 5 = some true ∧
      slRemove id 2 s3 5 = some (out4, s4) ∧ out4 = some 5 ∧
      slContains id s4 5 = some false :=
  duplicate_insert_two_removes (by decide) (fun st h => Option.noConfusion h)
    ⟨fun _ => 0, 0⟩ ⟨fun _ => 0, 0⟩
    (show (5 : Nat) ∉ keysOf id (none : SkipListM Nat) by simp [keysOf])

/-- C10: with `N ≥ 1` every operation sequence executes without any
out-of-bounds access (the embedding returns `some`), and contains, drop,
remove and insert are all defined on the reached state; with `N = 0` the
first operations on a non-empty container fail (the embedding returns
`none`, mirroring indexing `nexts[0]` of a zero-length array): drop fails,
remove of the head key fails, and the two-operation sequence fails. -/
theorem ops_total_iff_pos_levels {κ : Type} [Inhabited κ] [LinearOrder κ] :
    (∀ N : Nat, 1 ≤ N → ∀ ops : List (Op κ), ∃ s',
        execOps N ops = some s' ∧
        (∀ x, ∃ b, slContains id s' x = some b) ∧
        slDrop s' = some () ∧
        (∀ x, (slRemove id N s' x).isSome = true) ∧
        (∀ r v, (slInsert id N r s' v).isSome = true)) ∧
    (∀ (r : Rng) (v : κ),
        slDrop (some (mkNew 0 r v)) = none ∧
        slRemove id 0 (some (mkNew 0 r v)) (id v) = none ∧
        execOps 0 [Op.ins r v, Op.rem (id v)] = none) := by
  constructor
  · intro N hN ops
    obtain ⟨s', heq, hg, _⟩ := execOps_spec hN ops
    refine ⟨s', heq, ?_, slDrop_spec hN hg, ?_, ?_⟩
    · exact fun x => ⟨decide (x ∈ keysOf id s'), slContains_keys hg x⟩
    · intro x
      obtain ⟨out, s2, h2, _⟩ := slRemove_spec hg x
      rw [h2]
      rfl
    · intro r v
      obtain ⟨s2, h2, _⟩ := slInsert_spec hN hg r v
      rw [h2]
      rfl
  · intro r v
    have hrm : removeS id 0 (mkNew 0 r v) (id v) = none := by
      rw [removeS]
      show (if vk id (mkNew 0 r v).heap (mkNew 0 r v).head > id v
        then some (Removal.nothing, mkNew 0 r v) else _) = none
      rw [if_neg (show ¬ vk id (mkNew 0 r v).heap (mkNew 0 r v).head > id v
        from lt_irrefl v)]
      show (if vk id (mkNew 0 r v).heap (mkNew 0 r v).head = id v
        then _ else _) = none
      rw [if_pos (show vk id (mkNew 0 r v).heap (mkNew 0 r v).head = id v
        from rfl)]
      rfl
    have hsl : slRemove id 0 (some (mkNew 0 r v)) (id v) = none := by
      show (removeS id 0 (mkNew 0 r v) (id v)).map _ = none
      rw [hrm]
      rfl
    refine ⟨rfl, hsl, ?_⟩
    show ((slRemove id 0 (some (mkNew 0 r v)) (id v)).map Prod.snd).bind
      (fun s2 => execFrom 0 s2 []) = none
    rw [hsl]
    rfl

/-- C10 witness: the total part applied at `N = 1` on the empty sequence. -/
theorem ops_total_iff_pos_levels_witness :
    ∃ s', execOps 1 ([] : List (Op Nat)) = some s' ∧
      (∀ x, ∃ b, slContains id s' x = some b) ∧
      slDrop s' = some () ∧
      (∀ x, (slRemove id 1 s' x).isSome = true) ∧
      (∀ r v, (slInsert id 1 r s' v).isSome = true) :=
  (ops_total_iff_pos_levels (κ := Nat)).1 1 (by decide) []

end Claims

end Skipidy
